import Mathlib

/-
Verification development for the saturation-prover core (Vampire-style
sources under src/).  We shallowly embed the data model and the operations
the claims concern: terms and literals, the backtrackable substitution
(RobSubstitution), the Knuth-Bendix ordering (KBO), factoring,
superposition, forward demodulation, the literal substitution-tree
retrieval glue, clauses, and the unprocessed-clause container.
-/

set_option maxHeartbeats 1000000

namespace VSpec

/-! ## Terms and literals

Embeds Kernel/Term.hpp terms (TermList): a term is an ordinary variable,
a special variable (used inside substitution trees), or an application of
a function symbol (a functor number) to a list of argument terms.  Terms
are hash-consed in the source, so pointer equality there is structural
equality here. -/

inductive Trm where
  | var (v : Nat)
  | svar (v : Nat)
  | app (f : Nat) (args : List Trm)

namespace Trm

mutual
/-- Structural (boolean) equality on terms; in the source this is pointer
equality of shared terms. -/
def beq : Trm → Trm → Bool
  | .var v, .var w => v == w
  | .svar v, .svar w => v == w
  | .app f as, .app g bs => f == g && beqL as bs
  | _, _ => false

/-- Structural equality on argument lists. -/
def beqL : List Trm → List Trm → Bool
  | [], [] => true
  | a :: as, b :: bs => beq a b && beqL as bs
  | _, _ => false
end

mutual
theorem beq_iff : ∀ a b : Trm, beq a b = true ↔ a = b
  | .var v, .var w => by simp [beq]
  | .var _, .svar _ => by simp [beq]
  | .var _, .app _ _ => by simp [beq]
  | .svar _, .var _ => by simp [beq]
  | .svar v, .svar w => by simp [beq]
  | .svar _, .app _ _ => by simp [beq]
  | .app _ _, .var _ => by simp [beq]
  | .app _ _, .svar _ => by simp [beq]
  | .app f as, .app g bs => by
    simp only [beq, Bool.and_eq_true, beq_iff_eq, Trm.app.injEq]
    rw [beqL_iff as bs]

theorem beqL_iff : ∀ as bs : List Trm, beqL as bs = true ↔ as = bs
  | [], [] => by simp [beqL]
  | [], _ :: _ => by simp [beqL]
  | _ :: _, [] => by simp [beqL]
  | a :: as, b :: bs => by
    simp only [beqL, Bool.and_eq_true, List.cons.injEq]
    rw [beq_iff a b, beqL_iff as bs]
end

instance : DecidableEq Trm := fun a b => decidable_of_iff _ (beq_iff a b)

def isVar : Trm → Bool
  | .var _ => true
  | .svar _ => true
  | .app _ _ => false

def isOrdinaryVar : Trm → Bool
  | .var _ => true
  | _ => false

def isSpecialVar : Trm → Bool
  | .svar _ => true
  | _ => false

def isApp : Trm → Bool
  | .app _ _ => true
  | _ => false

mutual
/-- Variable occurrences of a term in depth-first left-to-right order,
with multiplicity (the order VariableIterator of TermIterators.hpp
produces).  Both ordinary and special variables are yielded. -/
def varOccs : Trm → List Trm
  | .var v => [Trm.var v]
  | .svar v => [Trm.svar v]
  | .app _ args => varOccsL args

/-- Variable occurrences of a list of terms, in order. -/
def varOccsL : List Trm → List Trm
  | [] => []
  | t :: ts => varOccs t ++ varOccsL ts
end

/-- A term is ground when it has no variable occurrences (the cached
ground bit of shared terms). -/
def ground (t : Trm) : Bool := t.varOccs.isEmpty

end Trm

/-! Literals (Kernel/Term.hpp Literal): a predicate application with a
polarity.  The equality predicate has functor number 0 and additionally
carries the sort of its arguments.  Literals are hash-consed as well. -/

structure Lit where
  pol : Bool
  fn : Nat
  /-- Sort tag of the equality arguments; only meaningful for fn = 0. -/
  sort : Nat
  args : List Trm
deriving DecidableEq

namespace Lit

/-- Literal::isEquality: the equality predicate is functor 0. -/
def isEquality (l : Lit) : Bool := l.fn == 0

/-- Literal::commutative: equality literals are the commutative ones. -/
def commutative (l : Lit) : Bool := l.isEquality

/-- Literal::header: functor number doubled plus polarity. -/
def header (l : Lit) : Nat := 2 * l.fn + (if l.pol then 1 else 0)

/-- Literal::complementaryHeader: header of the opposite-polarity literal. -/
def complementaryHeader (l : Lit) : Nat :=
  2 * l.fn + (if l.pol then 0 else 1)

end Lit

/-! ## Clauses

Kernel/Clause.hpp: a clause is an array of literals with metadata; the
fields embedded here are the ones the claims touch (literals, age, the
number of selected literals, the input type). -/

structure Clause where
  lits : List Lit
  age : Nat
  selected : Nat
  inputType : Nat
deriving DecidableEq

namespace Clause

/-- Clause::Clause together with Clause::fromStack: construction from a
literal stack; age is zero until setAge is called (as in the source,
where the caller sets it after filling the literal array). -/
def ofLits (lits : List Lit) (it : Nat) : Clause :=
  { lits := lits, age := 0, selected := 0, inputType := it }

/-- Clause::length. -/
def length (c : Clause) : Nat := c.lits.length

/-- Clause::isEmpty: true iff the clause has no literals. -/
def isEmpty (c : Clause) : Bool := c.length == 0

/-- Clause::setAge. -/
def setAge (c : Clause) (a : Nat) : Clause := { c with age := a }

/-- Clause::numSelected. -/
def numSelected (c : Clause) : Nat := c.selected

end Clause

/-! ## The unprocessed-clause container (Saturation/ClauseContainer.cpp)

UnprocessedClauseContainer keeps its clauses in a deque _data; add does
_data.push_back(c) and pop does _data.pop_back().  We embed the deque as
a list whose last element is the back. -/

structure UnprocessedCC (C : Type) where
  data : List C

namespace UnprocessedCC

/-- UnprocessedClauseContainer::add: push_back on the deque. -/
def add {C} (s : UnprocessedCC C) (c : C) : UnprocessedCC C :=
  { data := s.data ++ [c] }

/-- UnprocessedClauseContainer::pop: pop_back on the deque; returns the
removed clause and the remaining container (the source asserts the
container is non-empty; we return an option). -/
def pop {C} (s : UnprocessedCC C) : Option (C × UnprocessedCC C) :=
  match s.data.getLast? with
  | none => none
  | some c => some (c, { data := s.data.dropLast })

end UnprocessedCC

/-! ## Ordering results (Kernel/Ordering.hpp) -/

inductive OResult where
  | GREATER
  | LESS
  | GREATER_EQ
  | LESS_EQ
  | EQUAL
  | INCOMPARABLE
deriving DecidableEq

namespace OResult

/-- Ordering::reverse. -/
def reverse : OResult → OResult
  | .GREATER => .LESS
  | .GREATER_EQ => .LESS_EQ
  | .LESS => .GREATER
  | .LESS_EQ => .GREATER_EQ
  | .EQUAL => .EQUAL
  | .INCOMPARABLE => .INCOMPARABLE

/-- Ordering::isGorGEorE. -/
def isGorGEorE : OResult → Bool
  | .GREATER => true
  | .GREATER_EQ => true
  | .EQUAL => true
  | _ => false

end OResult

/-- Modelled from the spec: Literal::headersMatch (Term.cpp is not under
src/).  The headers (functor and polarity, with the polarity complemented
when a complementary match is requested) must agree, and equality
literals must moreover agree on the argument sort (the source comment in
RobSubstitution::getAssocIterator notes that equality literals of
different sorts fail this test). -/
def headersMatch (l1 l2 : Lit) (complementary : Bool) : Bool :=
  (if complementary then l1.header == l2.complementaryHeader
   else l1.header == l2.header)
  && (!l1.isEquality || l1.sort == l2.sort)

/-- An add/pop operation on the unprocessed container. -/
inductive UOp (C : Type) where
  | add (c : C)
  | pop

/-- Run a sequence of container operations, stamping each added clause
with an increasing timestamp, so that "most recently added" is formal:
largest timestamp. -/
def execUOps {C : Type} : List (UOp C) → UnprocessedCC (Nat × C) → Nat →
    UnprocessedCC (Nat × C) × Nat
  | [], s, n => (s, n)
  | .add c :: ops, s, n => execUOps ops (s.add (n, c)) (n + 1)
  | .pop :: ops, s, n =>
    match s.pop with
    | none => execUOps ops s n
    | some (_, s2) => execUOps ops s2 n

/-- Timestamps in the container are strictly increasing along the deque
and below the next free stamp. -/
def UStamps {C : Type} (s : UnprocessedCC (Nat × C)) (n : Nat) : Prop :=
  List.Pairwise (· < ·) (s.data.map Prod.fst) ∧ ∀ x ∈ s.data, x.1 < n

theorem uStamps_add {C : Type} {s : UnprocessedCC (Nat × C)} {n : Nat}
    (h : UStamps s n) (c : C) : UStamps (s.add (n, c)) (n + 1) := by
  obtain ⟨h1, h2⟩ := h
  constructor
  · simp only [UnprocessedCC.add, List.map_append, List.pairwise_append]
    refine ⟨h1, by simp, ?_⟩
    intro x hx y hy
    simp at hy
    subst hy
    simp only [List.mem_map] at hx
    obtain ⟨p, hp, rfl⟩ := hx
    exact h2 p hp
  · intro x hx
    simp only [UnprocessedCC.add, List.mem_append] at hx
    rcases hx with hx | hx
    · exact Nat.lt_succ_of_lt (h2 x hx)
    · simp at hx; subst hx; exact Nat.lt_succ_self _

theorem uStamps_pop {C : Type} {s : UnprocessedCC (Nat × C)} {n : Nat}
    (h : UStamps s n) {p : (Nat × C)} {s2 : UnprocessedCC (Nat × C)}
    (hp : s.pop = some (p, s2)) : UStamps s2 n := by
  obtain ⟨h1, h2⟩ := h
  unfold UnprocessedCC.pop at hp
  rcases hl : s.data.getLast? with _ | c
  · rw [hl] at hp; simp at hp
  · rw [hl] at hp
    simp only [Option.some.injEq, Prod.mk.injEq] at hp
    obtain ⟨-, hs2⟩ := hp
    subst hs2
    constructor
    · exact h1.sublist ((s.data.dropLast_sublist).map Prod.fst)
    · intro x hx
      exact h2 x (List.dropLast_subset _ hx)

/-- Default literal used for out-of-range list accesses. -/
def defaultLit : Lit := ⟨true, 0, 0, []⟩

/-! ## Factoring (Inferences/Factoring.cpp)

The inference pipeline is embedded over an abstract unifier engine: the
source uses a RobSubstitution object through the SubstIterator interface,
which for the pipeline amounts to: one unification attempt on the
argument lists (assocUnify), one attempt with swapped arguments for
commutative literals (assocUnifyRev), and substitution application
(applyS).  The literal selector and the ordering are abstracted the same
way the source receives them (references given at setup). -/

section FactoringSec

variable {S : Type}
variable (assocUnify : Lit → Lit → Option S)
variable (assocUnifyRev : Lit → Lit → Option S)
variable (applyS : S → Lit → Lit)
variable (negForSel : Lit → Bool)
variable (ordCompareLit : Lit → Lit → OResult)

/-- RobSubstitution::unifiers by way of getAssocIterator and
AssocIterator: no results when the headers do not match; a single
unification attempt for non-commutative literals; for commutative
literals the straight attempt followed (after backtracking) by the
swapped-arguments attempt. -/
def unifiers (l1 l2 : Lit) (complementary : Bool) : List S :=
  if !headersMatch l1 l2 complementary then []
  else if !l1.commutative then (assocUnify l1 l2).toList
  else (assocUnify l1 l2).toList ++ (assocUnifyRev l1 l2).toList

/-- Modelled from the spec: getCombinationIterator of Lib/PairUtils.hpp
(not under src/) enumerates the ordered index pairs (i, j) with
lo <= i < firstBound and i < j < secondBound; in Factoring the first
index ranges over the selected literals and the second over the later
literals of the clause (per the source comment in Factoring.cpp, one of
the factored literals has to be selected, the other one does not). -/
def combinationPairs (lo firstBound secondBound : Nat) : List (Nat × Nat) :=
  (List.range firstBound).flatMap (fun i =>
    if lo ≤ i then
      ((List.range secondBound).filter (fun j => decide (i < j))).map
        (fun j => (i, j))
    else [])

/-- Factoring::UnificationsOnPositiveFn::operator(): given an index pair,
fetch the two literals; no results if the first is an equality or is
negative for selection; otherwise pair each unifier with the second
literal. -/
def unifsOnPositive (cl : Clause) (nums : Nat × Nat) : List (Lit × S) :=
  match cl.lits.get? nums.1, cl.lits.get? nums.2 with
  | some l1, some l2 =>
    if l1.isEquality then []
    else if negForSel l1 then []
    else (unifiers assocUnify assocUnifyRev l1 l2 false).map (fun s => (l2, s))
  | _, _ => []

/-- The literal-construction loop of Factoring::ResultsFn::operator():
walk the premise literals with their index, drop the occurrences equal to
the skipped literal, apply the substitution to the rest, and fail when
the ordering aftercheck fires on a selected literal. -/
def buildFactor (numSelected : Nat) (s : S) (skipped : Lit)
    (skippedAfter : Option Lit) : Nat → List Lit → Option (List Lit)
  | _, [] => some []
  | i, curr :: rest =>
    if curr = skipped then
      buildFactor numSelected s skipped skippedAfter (i + 1) rest
    else
      let currAfter := applyS s curr
      match skippedAfter with
      | some sa =>
        if i < numSelected && (ordCompareLit currAfter sa == OResult.GREATER) then
          none
        else
          (buildFactor numSelected s skipped skippedAfter (i + 1) rest).map
            (fun ls => currAfter :: ls)
      | none =>
        (buildFactor numSelected s skipped skippedAfter (i + 1) rest).map
          (fun ls => currAfter :: ls)

/-- Factoring::ResultsFn::operator(): build the factor clause from the
premise and one (literal, substitution) pair; the aftercheck literal is
computed only when the aftercheck is enabled and more than one literal is
selected; on success the clause age is set to premise age plus one. -/
def resultsFn (afterCheck : Bool) (cl : Clause) (arg : Lit × S) :
    Option Clause :=
  let skipped := arg.1
  let skippedAfter : Option Lit :=
    if afterCheck && decide (cl.numSelected > 1) then
      some (applyS arg.2 skipped)
    else none
  (buildFactor applyS ordCompareLit cl.numSelected arg.2 skipped skippedAfter
      0 cl.lits).map
    (fun ls => (Clause.ofLits ls cl.inputType).setAge (cl.age + 1))

/-- Factoring::generateClauses: nothing for unit or empty premises,
nothing when a single selected literal is negative; otherwise the
combination pairs are expanded to unifiers and mapped through ResultsFn,
with null results filtered out. -/
def factoringGenerate (afterCheck : Bool) (cl : Clause) : List Clause :=
  if cl.length ≤ 1 then []
  else if cl.numSelected == 1
      && negForSel (cl.lits.getD 0 defaultLit) then []
  else
    ((combinationPairs 0 cl.numSelected cl.length).flatMap
        (unifsOnPositive assocUnify assocUnifyRev negForSel cl)).filterMap
      (resultsFn applyS ordCompareLit afterCheck cl)

/-- Spec-side description of one factor: the premise with the literal at
position j removed, the unifier applied to the remaining literals, and
the age bumped by one. -/
def specFactorClause (cl : Clause) (s : S) (j : Nat) : Clause :=
  ((Clause.ofLits ((cl.lits.eraseIdx j).map (applyS s)) cl.inputType).setAge
    (cl.age + 1))

/-- Spec-side aftercheck: with complete selection (aftercheck enabled and
more than one selected literal), the factor is blocked when some other
selected literal becomes greater than the factored literal after applying
the unifier. -/
def specAftercheckBlocked (afterCheck : Bool) (cl : Clause) (s : S)
    (j : Nat) : Bool :=
  afterCheck && decide (cl.numSelected > 1) &&
    ((List.range cl.numSelected).any (fun i =>
      decide (i ≠ j) &&
      (ordCompareLit (applyS s (cl.lits.getD i defaultLit))
          (applyS s (cl.lits.getD j defaultLit)) == OResult.GREATER)))

/-- Spec-side factoring: for each ordered pair (i, j) with the first
literal selected (i below the selected count) and the second any later
literal of the premise, the first literal a non-equality that is positive
for selection, and for each unifier of the two literals, the factor
clause (premise minus the second literal, unifier applied, age bumped)
unless the maximality aftercheck blocks it. -/
def specFactors (afterCheck : Bool) (cl : Clause) : List Clause :=
  (combinationPairs 0 cl.numSelected cl.length).flatMap (fun ij =>
    match cl.lits.get? ij.1, cl.lits.get? ij.2 with
    | some l1, some l2 =>
      if l1.isEquality then []
      else if negForSel l1 then []
      else
        (unifiers assocUnify assocUnifyRev l1 l2 false).filterMap (fun s =>
          if specAftercheckBlocked applyS ordCompareLit afterCheck cl s ij.2
          then none
          else some (specFactorClause applyS cl s ij.2))
    | _, _ => [])

end FactoringSec

theorem uStamps_exec {C : Type} (ops : List (UOp C)) :
    ∀ (s : UnprocessedCC (Nat × C)) (n : Nat), UStamps s n →
      UStamps (execUOps ops s n).1 (execUOps ops s n).2 := by
  induction ops with
  | nil => intro s n h; exact h
  | cons op ops ih =>
    intro s n h
    cases op with
    | add c => exact ih _ _ (uStamps_add h c)
    | pop =>
      simp only [execUOps]
      rcases hp : s.pop with _ | ⟨p, s2⟩
      · exact ih _ _ h
      · exact ih _ _ (uStamps_pop h hp)

/-! ## Term and equality helpers (Kernel/EqHelper.hpp, Kernel/Term.hpp) -/

namespace Trm

mutual
/-- Term::containsSubterm: the term itself or a subterm of one of its
arguments equals the given term. -/
def containsSubterm (t sub : Trm) : Bool :=
  t == sub ||
    (match t with
     | .app _ args => containsSubtermL args sub
     | _ => false)

/-- containsSubterm over an argument list. -/
def containsSubtermL (args : List Trm) (sub : Trm) : Bool :=
  match args with
  | [] => false
  | a :: rest => containsSubterm a sub || containsSubtermL rest sub
end

mutual
/-- EqHelper::replace on terms (the implementation file is not under
src/; per the spec, section 4.2: build a new term with every occurrence
of the first term replaced by the second; occurrences inside an already
replaced occurrence are not revisited). -/
def replaceT (t what tgt : Trm) : Trm :=
  if t = what then tgt
  else
    match t with
    | .app f args => .app f (replaceTL args what tgt)
    | x => x

/-- replaceT over an argument list. -/
def replaceTL (args : List Trm) (what tgt : Trm) : List Trm :=
  match args with
  | [] => []
  | a :: rest => replaceT a what tgt :: replaceTL rest what tgt
end

end Trm

namespace Lit

/-- EqHelper::replace on literals: replace in every argument. -/
def replaceL (l : Lit) (what tgt : Trm) : Lit :=
  { l with args := Trm.replaceTL l.args what tgt }

/-- EqHelper::isEqTautology: a positive equality with identical sides. -/
def isEqTautology (l : Lit) : Bool :=
  l.isEquality && l.pol &&
    (match l.args with
     | [a, b] => a == b
     | _ => false)

/-- Literal::createEquality (positive or negative, with the sort tag). -/
def mkEquality (pol : Bool) (a b : Trm) (sort : Nat) : Lit :=
  ⟨pol, 0, sort, [a, b]⟩

/-- EqHelper::getOtherEqualitySide (the implementation file is not under
src/; the declared contract is immediate: the equality argument other
than the given one). -/
def otherEqualitySide (eq : Lit) (lhs : Trm) : Trm :=
  match eq.args with
  | [a, b] => if a = lhs then b else a
  | _ => lhs

end Lit

/-! ## Superposition (Inferences/Superposition.cpp)

performSuperposition is embedded from the ordering and sort gates through
the clause construction.  The unifying substitution appears through its
applications to the two premises (applyEq on the equality side of the
unifier, applyRw on the rewritten side), matching how the source only
uses subst->apply at a fixed bank.  The weight-limit machinery keeps its
shape: an optional limit and a literal weight function; the colour check
and the superposition-from-variable check are boolean gates the way the
source delegates them to helper predicates. -/

structure SupParams where
  applyEq : Trm → Trm
  applyEqLit : Lit → Lit
  applyRw : Trm → Trm
  applyRwLit : Lit → Lit
  ordT : Trm → Trm → OResult
  ordL : Lit → Lit → OResult
  eqArgOrder : Lit → OResult
  termSort : Trm → Lit → Nat
  fromVariableOk : Bool
  colorOk : Bool
  earlyWeightOk : Bool
  weightLimit : Option Nat
  litWeight : Lit → Nat
  afterCheck : Bool
  constraintLits : List (Option Lit)

/-- The rewritten-premise construction loop of performSuperposition:
skip the rewritten literal, apply the substitution, fail on equational
tautologies, on the weight limit, and on the ordering aftercheck against
a selected literal. -/
def supRwLoop (p : SupParams) (rwClause : Clause) (rwLit : Lit)
    (rwLitS : Lit) : Nat → Nat → List Lit → Option (List Lit × Nat)
  | _, w, [] => some ([], w)
  | i, w, curr :: rest =>
    if curr = rwLit then supRwLoop p rwClause rwLit rwLitS (i + 1) w rest
    else
      let currAfter := p.applyRwLit curr
      if currAfter.isEqTautology then none
      else
        let w2 := match p.weightLimit with
          | some _ => w + p.litWeight currAfter
          | none => w
        match p.weightLimit with
        | some lim =>
          if w2 > lim then none
          else if p.afterCheck && decide (i < rwClause.numSelected)
              && (p.ordL currAfter rwLitS == OResult.GREATER) then none
          else
            (supRwLoop p rwClause rwLit rwLitS (i + 1) w2 rest).map
              (fun r => (currAfter :: r.1, r.2))
        | none =>
          if p.afterCheck && decide (i < rwClause.numSelected)
              && (p.ordL currAfter rwLitS == OResult.GREATER) then none
          else
            (supRwLoop p rwClause rwLit rwLitS (i + 1) w2 rest).map
              (fun r => (currAfter :: r.1, r.2))

/-- The equality-premise construction loop of performSuperposition: skip
the equality literal, apply the substitution, fail on tautologies, the
weight limit, and the ordering aftercheck against the instantiated
equality when more than one literal is selected. -/
def supEqLoop (p : SupParams) (eqClause : Clause) (eqLit : Lit)
    (eqLitS : Option Lit) : Nat → Nat → List Lit → Option (List Lit × Nat)
  | _, w, [] => some ([], w)
  | i, w, curr :: rest =>
    if curr = eqLit then supEqLoop p eqClause eqLit eqLitS (i + 1) w rest
    else
      let currAfter := p.applyEqLit curr
      if currAfter.isEqTautology then none
      else
        let w2 := match p.weightLimit with
          | some _ => w + p.litWeight currAfter
          | none => w
        match p.weightLimit with
        | some lim =>
          if w2 > lim then none
          else
            match eqLitS with
            | some els =>
              if decide (i < eqClause.numSelected)
                  && (p.ordL currAfter els).isGorGEorE then none
              else
                (supEqLoop p eqClause eqLit eqLitS (i + 1) w2 rest).map
                  (fun r => (currAfter :: r.1, r.2))
            | none =>
              (supEqLoop p eqClause eqLit eqLitS (i + 1) w2 rest).map
                (fun r => (currAfter :: r.1, r.2))
        | none =>
          match eqLitS with
          | some els =>
            if decide (i < eqClause.numSelected)
                && (p.ordL currAfter els).isGorGEorE then none
            else
              (supEqLoop p eqClause eqLit eqLitS (i + 1) w rest).map
                (fun r => (currAfter :: r.1, r.2))
          | none =>
            (supEqLoop p eqClause eqLit eqLitS (i + 1) w rest).map
              (fun r => (currAfter :: r.1, r.2))

/-- The unification-constraint literals are appended; a constraint on a
non-ground uninterpreted pair aborts the inference (the
unification-with-abstraction GROUND policy), which the parameters model
by a missing literal. -/
def supConstraints : List (Option Lit) → Option (List Lit)
  | [] => some []
  | none :: _ => none
  | some c :: rest => (supConstraints rest).map (fun ls => c :: ls)

/-- Superposition::performSuperposition from the sort check onwards:
all early-return gates in source order, then the clause construction;
on success the result age is the maximum of the premise ages plus one. -/
def performSuperposition (p : SupParams)
    (rwClause : Clause) (rwLit : Lit) (rwTerm : Trm)
    (eqClause : Clause) (eqLit : Lit) (eqLHS : Trm) : Option Clause :=
  let sort := eqLit.sort
  if p.termSort rwTerm rwLit ≠ sort then none
  else if eqLHS.isVar && !p.fromVariableOk then none
  else if !p.colorOk then none
  else
    let newAge := max rwClause.age eqClause.age + 1
    let tgtTerm := eqLit.otherEqualitySide eqLHS
    if !p.earlyWeightOk then none
    else
      let eqLHSS := p.applyEq eqLHS
      let tgtTermS := p.applyEq tgtTerm
      let rwLitS := p.applyRwLit rwLit
      let rwTermS := p.applyRw rwTerm
      if (p.ordT tgtTermS rwTermS).isGorGEorE then none
      else
        let eqCheckFail : Bool :=
          if rwLitS.isEquality then
            match rwLitS.args with
            | [arg0, arg1] =>
              if !arg0.containsSubterm rwTermS then
                (p.eqArgOrder rwLitS).isGorGEorE
              else if !arg1.containsSubterm rwTermS then
                (p.eqArgOrder rwLitS).reverse.isGorGEorE
              else false
            | _ => false
          else false
        if eqCheckFail then none
        else
          let tgtLitS := rwLitS.replaceL rwTermS tgtTermS
          if tgtLitS.isEqTautology then none
          else
            let w0 := p.litWeight tgtLitS
            match supRwLoop p rwClause rwLit rwLitS 0 w0 rwClause.lits with
            | none => none
            | some (rwLits, w1) =>
              let eqLitS : Option Lit :=
                if p.afterCheck && decide (eqClause.numSelected > 1) then
                  some (Lit.mkEquality true eqLHSS tgtTermS sort)
                else none
              match supEqLoop p eqClause eqLit eqLitS 0 w1 eqClause.lits with
              | none => none
              | some (eqLits, w2) =>
                match supConstraints p.constraintLits with
                | none => none
                | some conLits =>
                  match p.weightLimit with
                  | some lim =>
                    if w2 > lim then none
                    else some
                      ((Clause.ofLits (tgtLitS :: (rwLits ++ eqLits ++ conLits))
                        (max rwClause.inputType eqClause.inputType)).setAge newAge)
                  | none => some
                      ((Clause.ofLits (tgtLitS :: (rwLits ++ eqLits ++ conLits))
                        (max rwClause.inputType eqClause.inputType)).setAge newAge)

/-! ## Forward demodulation (Inferences/ForwardDemodulation.cpp)

The demodulator index is abstracted as a query function returning, for
each candidate subterm, the list of generalization query results; each
result carries the unit equality clause, its literal, the matched side,
and the applications of the matching substitution (the source computes
applyToBoundResult or the renaming-normalized equivalent; both amount to
applying the matcher to result-side terms). -/

namespace Trm

mutual
/-- Size measure for termination of subterm scans. -/
def sz : Trm → Nat
  | .var _ => 1
  | .svar _ => 1
  | .app _ args => 1 + szL args

/-- Size of an argument list. -/
def szL : List Trm → Nat
  | [] => 0
  | t :: ts => sz t + szL ts
end

theorem szL_append (a b : List Trm) : szL (a ++ b) = szL a + szL b := by
  induction a with
  | nil => simp [szL]
  | cons t ts ih => simp [szL, ih]; omega

theorem sz_pos (t : Trm) : 0 < t.sz := by
  cases t <;> simp [sz]

end Trm

structure DemodParams where
  ordT : Trm → Trm → OResult
  ordL : Lit → Lit → OResult
  /-- Ordering::getEqualityArgumentOrder on the demodulator literal. -/
  eqArgOrder : Lit → OResult
  /-- SortHelper::getTermSort of a subterm within its literal. -/
  termSort : Trm → Lit → Nat
  /-- ColorHelper::compatible on the two clauses. -/
  colorOk : Clause → Clause → Bool
  /-- Options::forwardDemodulation() == PREORDERED. -/
  preorderedOnly : Bool
  /-- Options::demodulationRedundancyCheck(). -/
  redundancyCheck : Bool

structure DemodQR where
  clause : Clause
  literal : Lit
  term : Trm
  applyR : Trm → Trm
  applyRLit : Lit → Lit

/-- One iteration of the generalization-result loop: either skip the
candidate (none) or produce the outcome: some none is the equational-
tautology deletion, some (some res) the simplified clause. -/
def tryDemodCandidate (p : DemodParams) (cl : Clause) (li : Nat) (lit : Lit)
    (trm : Trm) (qr : DemodQR) : Option (Option Clause) :=
  if !p.colorOk cl qr.clause then none
  else
    let querySort := p.termSort trm lit
    let eqSort := qr.literal.sort
    if querySort ≠ eqSort then none
    else
      let rhs := qr.literal.otherEqualitySide qr.term
      let rhsS := qr.applyR rhs
      let argOrder := p.eqArgOrder qr.literal
      let preordered := argOrder == OResult.LESS || argOrder == OResult.GREATER
      if !preordered && (p.preorderedOnly
          || !(p.ordT trm rhsS == OResult.GREATER)) then none
      else
        let toplevelCheck := p.redundancyCheck && lit.isEquality &&
          (decide (trm = lit.args.getD 0 trm) || decide (trm = lit.args.getD 1 trm))
        let tlBlocked : Bool :=
          if toplevelCheck then
            let other := lit.otherEqualitySide trm
            let tord := p.ordT rhsS other
            if !(tord == OResult.LESS) && !(tord == OResult.LESS_EQ) then
              let eqLitS := qr.applyRLit qr.literal
              (List.range cl.length).all (fun li2 =>
                li2 == li ||
                  !(p.ordL eqLitS (cl.lits.getD li2 defaultLit) == OResult.LESS))
            else false
          else false
        if tlBlocked then none
        else
          let resLit := lit.replaceL trm rhsS
          if resLit.isEqTautology then some none
          else
            some (some ((Clause.ofLits
              (resLit :: cl.lits.filter (fun c => c != lit))
              (max cl.inputType qr.clause.inputType)).setAge cl.age))

/-- The while loop over generalization query results: the first candidate
that is not skipped determines the outcome, paired with its premise. -/
def tryDemodCands (p : DemodParams) (cl : Clause) (li : Nat) (lit : Lit)
    (trm : Trm) : List DemodQR → Option (Option Clause × Clause)
  | [] => none
  | qr :: rest =>
    match tryDemodCandidate p cl li lit trm qr with
    | some r => some (r, qr.clause)
    | none => tryDemodCands p cl li lit trm rest

/-- The NonVariableIterator walk over the subterms of one literal with
the attempted-set optimization: a worklist in depth-first preorder;
variables are skipped; a term already attempted is skipped together with
its subterms (nvi.right()); otherwise the demodulator index is queried
and on a hit the scan stops with the outcome. -/
def demodScan (p : DemodParams) (gens : Trm → List DemodQR) (cl : Clause)
    (li : Nat) (lit : Lit) :
    Nat → List Trm → List Trm → (Option (Option Clause × Clause) × List Trm)
  | 0, _, att => (none, att)
  | _ + 1, [], att => (none, att)
  | n + 1, t :: rest, att =>
    match t with
    | .var _ => demodScan p gens cl li lit n rest att
    | .svar _ => demodScan p gens cl li lit n rest att
    | .app f args =>
      if Trm.app f args ∈ att then demodScan p gens cl li lit n rest att
      else
        let att2 := Trm.app f args :: att
        match tryDemodCands p cl li lit (Trm.app f args)
            (gens (Trm.app f args)) with
        | some r => (some r, att2)
        | none => demodScan p gens cl li lit n (args ++ rest) att2

/-- The fuel that lets demodScan finish its worklist: the worklist size
strictly decreases at every step, so its size plus one is enough. -/
def demodFuel (wl : List Trm) : Nat := Trm.szL wl + 1

/-- The outer loop over the clause literals, threading the attempted
set. -/
def demodLits (p : DemodParams) (gens : Trm → List DemodQR) (cl : Clause) :
    Nat → List Trm → List Lit → Option (Option Clause × Clause)
  | _, _, [] => none
  | li, att, lit :: rest =>
    match demodScan p gens cl li lit (demodFuel lit.args) lit.args att with
    | (some r, _) => some r
    | (none, att2) => demodLits p gens cl (li + 1) att2 rest

/-- ForwardDemodulation::perform: scan all literals; none means the
clause is not simplified (the function returns false and the clause is
left unchanged). -/
def forwardDemodPerform (p : DemodParams) (gens : Trm → List DemodQR)
    (cl : Clause) : Option (Option Clause × Clause) :=
  demodLits p gens cl 0 [] cl.lits

/-- The orientation gate of the claim: the demodulator instance is
pre-oriented by the ordering, or its instantiated left-hand side is
strictly greater than its instantiated right-hand side. -/
def demodGate (p : DemodParams) (trm : Trm) (qr : DemodQR) : Prop :=
  p.eqArgOrder qr.literal = OResult.LESS ∨
  p.eqArgOrder qr.literal = OResult.GREATER ∨
  p.ordT trm (qr.applyR (qr.literal.otherEqualitySide qr.term)) =
    OResult.GREATER

/-! ## Literal substitution tree retrieval
(Indexing/LiteralSubstitutionTree.cpp, Indexing/SubstitutionTree.hpp)

The tree shape follows SubstitutionTree.hpp: an inner node carries the
designated special variable (childVar) and children keyed by the top
symbol of their edge terms; a leaf holds leaf-data records (clause and
literal, for literal trees).  The retrieval Iterator template parameter
is abstracted as a function from the root, the query literal and the
reversed-arguments flag to the list of leaf data it enumerates, which is
how getResultIterator consumes it. -/

structure STLeafData where
  clause : Clause
  literal : Lit
deriving DecidableEq

inductive STNode where
  | leaf (lds : List STLeafData)
  | inner (childVar : Nat) (children : List (Trm × STNode))

/-- SLQueryResult restricted to the fields used when substitutions are
not retrieved. -/
structure SLQR where
  literal : Lit
  clause : Clause
deriving DecidableEq

/-- LDToSLQueryResultFn. -/
def toSLQR (ld : STLeafData) : SLQR := ⟨ld.literal, ld.clause⟩

/-- LiteralSubstitutionTree::getRootNodeIndex. -/
def getRootNodeIndex (l : Lit) (complementary : Bool) : Nat :=
  if complementary then l.complementaryHeader else l.header

/-- LiteralSubstitutionTree::EqualitySortFilter: keep only results whose
equality-argument sort equals the query sort. -/
def equalitySortFilter (queryLit : Lit) (r : SLQR) : Bool :=
  r.literal.sort == queryLit.sort

/-- LiteralSubstitutionTree::getResultIterator with the Iterator template
parameter abstracted: empty when there is no root for the header; the
leaf-root (propositional) case returns the leaf contents; commutative
(equality) queries run the sub-iterator twice, once per argument order,
concatenate, and filter by equality sort; other queries run it once. -/
def getResultIterator (roots : Nat → Option STNode)
    (subQ : STNode → Lit → Bool → List STLeafData)
    (lit : Lit) (complementary : Bool) : List SLQR :=
  match roots (getRootNodeIndex lit complementary) with
  | none => []
  | some root =>
    match root with
    | .leaf lds => lds.map toSLQR
    | .inner cv children =>
      if lit.commutative then
        (((subQ (.inner cv children) lit false)
            ++ (subQ (.inner cv children) lit true)).map toSLQR).filter
          (equalitySortFilter lit)
      else (subQ (.inner cv children) lit false).map toSLQR

/-! The variant query uses a direct leaf lookup.  Renaming::normalize,
SubstitutionTree::getBindings and SubstitutionTree::findLeaf are declared
in headers under src/ but implemented in files that are not; they are
modelled from the spec, section 4.5. -/

namespace Trm

mutual
/-- Apply a variable renaming (on ordinary variables) to a term. -/
def renameVars (ren : Nat → Nat) : Trm → Trm
  | .var v => .var (ren v)
  | .svar v => .svar v
  | .app f args => .app f (renameVarsL ren args)

/-- renameVars over an argument list. -/
def renameVarsL (ren : Nat → Nat) : List Trm → List Trm
  | [] => []
  | t :: ts => renameVars ren t :: renameVarsL ren ts
end

end Trm

/-- Ordered list of the distinct ordinary variables of a literal, in
order of first occurrence. -/
def litVarOrder (l : Lit) : List Nat :=
  (Trm.varOccsL l.args).foldl
    (fun acc t =>
      match t with
      | .var v => if v ∈ acc then acc else acc ++ [v]
      | _ => acc) []

/-- Modelled from the spec: Renaming::normalize (Kernel/Renaming.cpp is
not under src/): canonically rename the variables of a literal so that
they become 0, 1, ... in order of first occurrence (spec section 4.5,
insertion step 1). -/
def normalizeLit (l : Lit) : Lit :=
  let ord := litVarOrder l
  let ren : Nat → Nat := fun v => (ord.indexOf v)
  { l with args := Trm.renameVarsL ren l.args }

/-- Modelled from the spec: SubstitutionTree::getBindings: the initial
special-variable bindings map sv_i to the i-th argument of the literal
(spec section 4.5, insertion step 2). -/
def getBindings (l : Lit) : Nat → Option Trm := fun i => l.args.get? i

/-- Top-symbol match between an edge term and a bound term
(IntermediateNode::childByTop). -/
def topMatch (edge t : Trm) : Bool :=
  match edge, t with
  | .app f _, .app g _ => f == g
  | .var v, .var w => v == w
  | .svar v, .svar w => v == w
  | _, _ => false

mutual
/-- Modelled from the spec: the edge term is matched against the bound
term; special variables of the edge bind the corresponding subterms
(becoming available for deeper nodes), other positions must agree
exactly (spec section 4.5, insertion step 3 reversed for lookup). -/
def svMatch (edge t : Trm) (svB : Nat → Option Trm) :
    Option (Nat → Option Trm) :=
  match edge, t with
  | .svar k, u => some (fun i => if i == k then some u else svB i)
  | .var v, .var w => if v == w then some svB else none
  | .app f es, .app g ts => if f == g then svMatchL es ts svB else none
  | _, _ => none

/-- svMatch over argument lists. -/
def svMatchL (es ts : List Trm) (svB : Nat → Option Trm) :
    Option (Nat → Option Trm) :=
  match es, ts with
  | [], [] => some svB
  | e :: es2, t :: ts2 =>
    match svMatch e t svB with
    | none => none
    | some svB2 => svMatchL es2 ts2 svB2
  | _, _ => none
end

/-- Modelled from the spec: SubstitutionTree::findLeaf: walk the tree,
at each inner node looking up the binding of its special variable,
descending into the child whose edge top symbol matches, and binding the
edge term's special variables; fail when no child matches (fuel bounds
the depth). -/
def findLeaf : Nat → STNode → (Nat → Option Trm) → Option (List STLeafData)
  | 0, _, _ => none
  | _ + 1, .leaf lds, _ => some lds
  | n + 1, .inner cv children, svB =>
    match svB cv with
    | none => none
    | some t =>
      match children.find? (fun c => topMatch c.1 t) with
      | none => none
      | some (e, child) =>
        match svMatch e t svB with
        | none => none
        | some svB2 => findLeaf n child svB2

/-- LiteralSubstitutionTree::getVariants (without substitution
retrieval): empty when no root; leaf root returns its contents; else
normalize the query, compute the special-variable bindings, and return
the contents of the leaf found, with no sort filter applied. -/
def getVariants (roots : Nat → Option STNode) (fuel : Nat)
    (lit : Lit) (complementary : Bool) : List SLQR :=
  match roots (getRootNodeIndex lit complementary) with
  | none => []
  | some root =>
    match root with
    | .leaf lds => lds.map toSLQR
    | .inner cv children =>
      let normLit := normalizeLit lit
      let svB := getBindings normLit
      match findLeaf fuel (.inner cv children) svB with
      | none => []
      | some lds => lds.map toSLQR

/-! ## The Knuth-Bendix ordering (Kernel/KBO.cpp)

The ordering is parameterized the way the source objects are: by the
colour flag of function symbols (which determines the symbol weight) and
by the precedence comparison on function symbols
(PrecedenceOrdering::compareFunctionPrecedences, whose signature-table
cascade lives outside the KBO class; the source asserts it total on
distinct symbols).  The comparison state mirrors KBO::State: the running
weight difference, the per-variable multiplicity differences (the DHMap
is embedded as a function), the counters of variables occurring more
often on either side, and the lexicographic result with the depth down
to which it has been validated.  The source walks terms with explicit
stacks; the embedding walks them by structural recursion, visiting the
same nodes with the same state updates. -/

/-- TermList::sameTopFunctor: both sides are applications of the same
function symbol. -/
def sameTopFunctor : Trm → Trm → Bool
  | .app f _, .app g _ => f == g
  | _, _ => false

section KBOSec

variable (colored : Nat → Bool)
variable (precCmp : Nat → Nat → OResult)

/-- KBO::functionSymbolWeight: the default symbol weight 1, boosted for
coloured symbols. -/
def functionSymbolWeight (f : Nat) : Int :=
  if colored f then 1 * 65536 else 1

/-- KBO::_variableWeight. -/
def variableWeight : Int := 1

structure KState where
  weightDiff : Int
  varDiffs : Nat → Int
  posNum : Int
  negNum : Int
  lexResult : OResult
  lexValidDepth : Nat

/-- KBO::State::init. -/
def KState.init : KState :=
  ⟨0, fun _ => 0, 0, 0, OResult.EQUAL, 0⟩

/-- KBO::State::recordVariable. -/
def recordVariable (st : KState) (v : Nat) (coef : Int) : KState :=
  let pnum := st.varDiffs v + coef
  let vd2 : Nat → Int := fun w => if w = v then pnum else st.varDiffs w
  if coef = 1 then
    if pnum = 0 then { st with varDiffs := vd2, negNum := st.negNum - 1 }
    else if pnum = 1 then { st with varDiffs := vd2, posNum := st.posNum + 1 }
    else { st with varDiffs := vd2 }
  else
    if pnum = 0 then { st with varDiffs := vd2, posNum := st.posNum - 1 }
    else if pnum = -1 then { st with varDiffs := vd2, negNum := st.negNum + 1 }
    else { st with varDiffs := vd2 }

/-- KBO::State::applyVariableCondition. -/
def applyVariableCondition (st : KState) (res : OResult) : OResult :=
  if st.posNum > 0 && (res == OResult.LESS || res == OResult.LESS_EQ
      || res == OResult.EQUAL) then OResult.INCOMPARABLE
  else if st.negNum > 0 && (res == OResult.GREATER
      || res == OResult.GREATER_EQ || res == OResult.EQUAL) then
    OResult.INCOMPARABLE
  else res

mutual
/-- KBO::State::traverse(TermList, coefficient): accumulate the weight of
every symbol and record every variable with the given coefficient (the
source iterates with an explicit stack; the updates commute, so the
structural walk reaches the same state).  Special variables never reach
the ordering (the source asserts ordinary variables); they are recorded
like ordinary ones. -/
def traverse1 (st : KState) (coef : Int) : Trm → KState
  | .var v =>
    recordVariable
      { st with weightDiff := st.weightDiff + variableWeight * coef } v coef
  | .svar v =>
    recordVariable
      { st with weightDiff := st.weightDiff + variableWeight * coef } v coef
  | .app f args =>
    traverse1L
      { st with weightDiff := st.weightDiff
          + functionSymbolWeight colored f * coef } coef args

/-- traverse1 over an argument list. -/
def traverse1L (st : KState) (coef : Int) : List Trm → KState
  | [] => st
  | t :: ts => traverse1L (traverse1 st coef t) coef ts
end

/-- KBO::State::innerResult: the comparison of the first differing
top-level pair, valid for the subtraversal state accumulated so far. -/
def innerResult (st : KState) (tl1 tl2 : Trm) : OResult :=
  if st.posNum > 0 ∧ st.negNum > 0 then OResult.INCOMPARABLE
  else
    applyVariableCondition st
      (if st.weightDiff ≠ 0 then
        (if st.weightDiff > 0 then OResult.GREATER else OResult.LESS)
       else
        match tl1, tl2 with
        | .app f _, .app g _ => precCmp f g
        | .app _ _, _ => OResult.GREATER
        | _, _ => OResult.LESS)

/-- The sentinel-pop revalidation of KBO::State::traverse(Term*, Term*):
when a level closes below the depth at which the lexicographic result was
last validated, revalidate it against the weight difference and the
variable condition accumulated so far. -/
def levelFinish (d : Nat) (st : KState) : KState :=
  if st.lexResult ≠ OResult.EQUAL ∧ d < st.lexValidDepth then
    let st1 := { st with lexValidDepth := d }
    let lex2 := if st1.weightDiff ≠ 0 then
        (if st1.weightDiff > 0 then OResult.GREATER else OResult.LESS)
      else st1.lexResult
    { st1 with lexResult := applyVariableCondition st1 lex2 }
  else st

mutual
/-- One pair of the simultaneous traversal of
KBO::State::traverse(Term*, Term*): identical pairs are skipped, pairs
with the same top functor are descended into (with the revalidation on
level close), and differing pairs are traversed with coefficients +1 and
-1, setting the lexicographic result at the first difference. -/
def travPair (d : Nat) (st : KState) (s t : Trm) : KState :=
  if s == t then st
  else
    match s, t with
    | .app f sargs, .app g targs =>
      if f == g then
        levelFinish d (travPairL (d + 1) st sargs targs)
      else
        let stA := traverse1 colored st 1 (Trm.app f sargs)
        let stB := traverse1 colored stA (-1) (Trm.app g targs)
        if stB.lexResult == OResult.EQUAL then
          { stB with
              lexResult :=
                innerResult precCmp stB (Trm.app f sargs) (Trm.app g targs)
              lexValidDepth := d }
        else stB
    | s2, t2 =>
      let stA := traverse1 colored st 1 s2
      let stB := traverse1 colored stA (-1) t2
      if stB.lexResult == OResult.EQUAL then
        { stB with
            lexResult := innerResult precCmp stB s2 t2
            lexValidDepth := d }
      else stB

/-- The simultaneous traversal over the argument lists of one level. -/
def travPairL (d : Nat) (st : KState) : List Trm → List Trm → KState
  | [], _ => st
  | _ :: _, [] => st
  | s :: ss, t :: tt =>
    travPairL d (travPair d st s t) ss tt
end

/-- KBO::State::traverse(Term*, Term*) for two terms with the same top
functor: simultaneous traversal of the argument lists at depth one, with
the final sentinel pop revalidating at depth zero. -/
def traverse2 (st : KState) (args1 args2 : List Trm) : KState :=
  levelFinish 0 (travPairL colored precCmp 1 st args1 args2)

/-- KBO::State::result for two (non-literal) terms, assuming the
traversal has been run: weight difference first, then the precedence on
differing top functors, then the lexicographic result; the variable
condition is applied to the outcome. -/
def kboResult (st : KState) (t1 t2 : Trm) : OResult :=
  let res :=
    if st.weightDiff ≠ 0 then
      (if st.weightDiff > 0 then OResult.GREATER else OResult.LESS)
    else
      match t1, t2 with
      | .app f _, .app g _ =>
        if f ≠ g then precCmp f g else st.lexResult
      | _, _ => st.lexResult
  applyVariableCondition st res

/-- KBO::compare on terms: the equal shortcut, the variable shortcuts by
containsSubterm, and otherwise the state traversal followed by
State::result.  Special variables never reach the ordering; for them the
result is INCOMPARABLE (the source asserts they do not occur). -/
def kboCompare (tl1 tl2 : Trm) : OResult :=
  if tl1 == tl2 then OResult.EQUAL
  else if tl1.isOrdinaryVar then
    (if tl2.containsSubterm tl1 then OResult.LESS else OResult.INCOMPARABLE)
  else if tl2.isOrdinaryVar then
    (if tl1.containsSubterm tl2 then OResult.GREATER else OResult.INCOMPARABLE)
  else
    match tl1, tl2 with
    | .app f args1, .app g args2 =>
      let st0 := KState.init
      let st :=
        if f == g then traverse2 colored precCmp st0 args1 args2
        else
          traverse1 colored (traverse1 colored st0 1 (Trm.app f args1)) (-1)
            (Trm.app g args2)
      kboResult precCmp st (Trm.app f args1) (Trm.app g args2)
    | _, _ => OResult.INCOMPARABLE

end KBOSec

/-! ## KBO proof infrastructure

The single-term traversal is a fold of elementary state operations
(weight additions and variable recordings); the operation list makes the
additivity and commutation arguments explicit.  The mirror of a state
swaps the two sides of the comparison.  The spec-side decision table
(kboSpec) is written from the claim: variable condition against the
purported result, then weight, then precedence, then the lexicographic
comparison of arguments. -/

inductive KOp where
  | addW (w : Int)
  | recV (v : Nat) (coef : Int)

def opApply (st : KState) : KOp → KState
  | .addW w => { st with weightDiff := st.weightDiff + w }
  | .recV v c => recordVariable st v c

def applyOps (st : KState) (l : List KOp) : KState := l.foldl opApply st

/-- A traversal operation is wellformed when its recording coefficient is
a sign. -/
def KOp.wf : KOp → Prop
  | .addW _ => True
  | .recV _ c => c = 1 ∨ c = -1

mutual
/-- The operation list of the single-term traversal. -/
def opsOf (colored : Nat → Bool) (coef : Int) : Trm → List KOp
  | .var v => [.addW (variableWeight * coef), .recV v coef]
  | .svar v => [.addW (variableWeight * coef), .recV v coef]
  | .app f args =>
    .addW (functionSymbolWeight colored f * coef) :: opsOfL colored coef args

/-- opsOf over an argument list. -/
def opsOfL (colored : Nat → Bool) (coef : Int) : List Trm → List KOp
  | [] => []
  | t :: ts => opsOf colored coef t ++ opsOfL colored coef ts
end

/-- Indicator of a positive integer (the positive-counter delta of
recordVariable). -/
def cp (x : Int) : Int := if 0 < x then 1 else 0

/-- Indicator of a negative integer. -/
def cn (x : Int) : Int := if x < 0 then 1 else 0

mutual
/-- The operation list of one pair of the simultaneous traversal:
identical pairs contribute nothing, same-top pairs contribute their
argument pairs, differing pairs contribute both sides' single-term
traversals with coefficients +1 and -1. -/
def pairOps (colored : Nat → Bool) : Trm → Trm → List KOp
  | .app f sargs, .app g targs =>
    if Trm.app f sargs == Trm.app g targs then []
    else if f == g then pairOpsL colored sargs targs
    else opsOf colored 1 (Trm.app f sargs) ++ opsOf colored (-1) (Trm.app g targs)
  | s, t =>
    if s == t then [] else opsOf colored 1 s ++ opsOf colored (-1) t

/-- pairOps over two argument lists. -/
def pairOpsL (colored : Nat → Bool) : List Trm → List Trm → List KOp
  | [], _ => []
  | _ :: _, [] => []
  | s :: ss, t :: tt => pairOps colored s t ++ pairOpsL colored ss tt
end

/-- The weight contribution of an operation list. -/
def sumW : List KOp → Int
  | [] => 0
  | .addW w :: l => w + sumW l
  | .recV _ _ :: l => sumW l

/-- The recording contribution of an operation list to one variable. -/
def vCount (v : Nat) : List KOp → Int
  | [] => 0
  | .addW _ :: l => vCount v l
  | .recV w c :: l => (if w = v then c else 0) + vCount v l

mutual
/-- Arity coherence: every application carries exactly as many arguments
as the signature prescribes for its functor (Term::arity is fixed per
functor in the source's shared-term signature). -/
def Trm.arityOk (ar : Nat → Nat) : Trm → Bool
  | .var _ => true
  | .svar _ => true
  | .app f args => args.length == ar f && Trm.arityOkL ar args

/-- arityOk over an argument list. -/
def Trm.arityOkL (ar : Nat → Nat) : List Trm → Bool
  | [] => true
  | t :: ts => Trm.arityOk ar t && Trm.arityOkL ar ts
end

/-- The counter invariant of a traversal state: the two counters count
the variables of a finite support whose multiplicity difference is
positive respectively negative. -/
def CInv (st : KState) : Prop :=
  ∃ sup : Finset Nat,
    (∀ v, v ∉ sup → st.varDiffs v = 0) ∧
    st.posNum = ((sup.filter (fun v => 0 < st.varDiffs v)).card : Int) ∧
    st.negNum = ((sup.filter (fun v => st.varDiffs v < 0)).card : Int)

mutual
/-- Syntactic absence of special variables. -/
def Trm.svarFree : Trm → Bool
  | .var _ => true
  | .svar _ => false
  | .app _ args => Trm.svarFreeL args

/-- svarFree over an argument list. -/
def Trm.svarFreeL : List Trm → Bool
  | [] => true
  | t :: ts => Trm.svarFree t && Trm.svarFreeL ts
end

mutual
/-- The weight of a term: variable weight for variables, symbol weight
plus argument weights for applications (spec section 4.4). -/
def wSem (colored : Nat → Bool) : Trm → Int
  | .var _ => variableWeight
  | .svar _ => variableWeight
  | .app f args => functionSymbolWeight colored f + wSemL colored args

/-- Weight of an argument list. -/
def wSemL (colored : Nat → Bool) : List Trm → Int
  | [] => 0
  | t :: ts => wSem colored t + wSemL colored ts
end

mutual
/-- The multiplicity of a variable in a term. -/
def multSem (v : Nat) : Trm → Int
  | .var w => if w = v then 1 else 0
  | .svar w => if w = v then 1 else 0
  | .app _ args => multSemL v args

/-- Multiplicity over an argument list. -/
def multSemL (v : Nat) : List Trm → Int
  | [] => 0
  | t :: ts => multSem v t + multSemL v ts
end

/-- The variable number of a variable occurrence. -/
def vnFun : Trm → Option Nat
  | .var v => some v
  | .svar v => some v
  | _ => none

/-- The ordered list of variable numbers occurring in a term (with
duplicates). -/
def varNums (t : Trm) : List Nat := (Trm.varOccs t).filterMap vnFun

/-- Some variable occurs more often in the first term than in the
second. -/
def existsPosVar (s t : Trm) : Bool :=
  ((varNums s ++ varNums t).any (fun v => multSem v s > multSem v t))

/-- The spec decision table's variable condition, applied to a purported
result: INCOMPARABLE when some variable occurs more often in the side the
purported result claims smaller or equal. -/
def applyVarCondSem (s t : Trm) (res : OResult) : OResult :=
  if existsPosVar s t && (res == OResult.LESS || res == OResult.LESS_EQ
      || res == OResult.EQUAL) then OResult.INCOMPARABLE
  else if existsPosVar t s && (res == OResult.GREATER
      || res == OResult.GREATER_EQ || res == OResult.EQUAL) then
    OResult.INCOMPARABLE
  else res

mutual
/-- The spec-side KBO decision table, written from the claim: for
distinct terms, the variable-multiplicity condition is applied to the
purported result, which is the sign of the weight difference when it is
non-zero, else the precedence comparison when the top functors differ,
else the lexicographic comparison of the argument lists; a variable
compares below exactly the terms containing it. -/
def kboSpec (colored : Nat → Bool) (precCmp : Nat → Nat → OResult) :
    Trm → Trm → OResult
  | .app f as1, .app g as2 =>
    if Trm.app f as1 = Trm.app g as2 then OResult.EQUAL
    else
      applyVarCondSem (Trm.app f as1) (Trm.app g as2)
        (if wSem colored (Trm.app f as1) ≠ wSem colored (Trm.app g as2) then
          (if wSem colored (Trm.app f as1) > wSem colored (Trm.app g as2)
           then OResult.GREATER else OResult.LESS)
         else if f ≠ g then precCmp f g
         else lexSpec colored precCmp as1 as2)
  | .var v, u =>
    if Trm.var v = u then OResult.EQUAL
    else if u.containsSubterm (.var v) then OResult.LESS
    else OResult.INCOMPARABLE
  | u, .var v =>
    if u = Trm.var v then OResult.EQUAL
    else if u.containsSubterm (.var v) then OResult.GREATER
    else OResult.INCOMPARABLE
  | s, t => if s = t then OResult.EQUAL else OResult.INCOMPARABLE

/-- The lexicographic comparison of two argument lists: the comparison of
the first differing pair. -/
def lexSpec (colored : Nat → Bool) (precCmp : Nat → Nat → OResult) :
    List Trm → List Trm → OResult
  | [], _ => OResult.EQUAL
  | _ :: _, [] => OResult.EQUAL
  | a :: as1, b :: bs1 =>
    if a = b then lexSpec colored precCmp as1 bs1
    else kboSpec colored precCmp a b
end

/-! ## RobSubstitution (src/Kernel/RobSubstitution.cpp)

The backtrackable substitution: variable specifications (variable number
and bank index) bound to term specifications (term and bank index), with
every mutation logged for backtracking.  The walkers (root, derefBound,
isUnbound, occurs) and the unify loop are fuel-indexed: a `none` result
means the fuel ran out, never a source behaviour. -/

/-- Bank index of the fresh output variables allocated by deref
(UNBOUND_INDEX in RobSubstitution.cpp). -/
def UNBOUND_INDEX : Int := -1

/-- Bank index shared by all special variables (SPECIAL_INDEX in
RobSubstitution.cpp). -/
def SPECIAL_INDEX : Int := -2

/-- A variable specification: variable number together with its bank
index (RobSubstitution::VarSpec; modelled from the spec's "variable id
times bank index", the header is not among the sources). -/
structure VarSpec where
  var : Nat
  index : Int
deriving DecidableEq

/-- A term specification: a term together with the bank index its
ordinary variables belong to (RobSubstitution::TermSpec, modelled from
the spec). -/
structure TermSpec where
  term : Trm
  index : Int
deriving DecidableEq

/-- RobSubstitution::getVarSpec: ordinary variables keep the term spec's
bank index, special variables live in the shared SPECIAL_INDEX bank. -/
def getVarSpec (t : TermSpec) : VarSpec :=
  match t.term with
  | .var v => ⟨v, t.index⟩
  | .svar v => ⟨v, SPECIAL_INDEX⟩
  | .app _ _ => ⟨0, 0⟩

/-- Modelled from the spec: the TermSpec-of-VarSpec constructor builds
the variable term denoted by a variable specification. -/
def TermSpec.ofVar (v : VarSpec) : TermSpec :=
  if v.index = SPECIAL_INDEX then ⟨Trm.svar v.var, SPECIAL_INDEX⟩
  else ⟨Trm.var v.var, v.index⟩

/-- Modelled from the spec: TermSpec::sameTermContent holds when the two
specs denote the same term content regardless of bank: the terms are
equal and either the bank indices agree, or the term has no ordinary
variables (ground), or it is a special variable (special variables live
in one shared bank). -/
def sameTermContent (a b : TermSpec) : Bool :=
  a.term == b.term &&
    (a.index == b.index || a.term.ground || a.term.isSpecialVar)

/-- The mutable state of RobSubstitution during unify: the binding bank
and the backtrack log (each entry is the BindingBacktrackObject of one
bind: the variable and its previous binding). -/
structure SState where
  bank : VarSpec → Option TermSpec
  log : List (VarSpec × Option TermSpec)

/-- RobSubstitution::bind: push a BindingBacktrackObject recording v's
previous binding, then set the new binding. -/
def bindVS (st : SState) (v : VarSpec) (b : TermSpec) : SState :=
  ⟨fun u => if u = v then some b else st.bank u, (v, st.bank v) :: st.log⟩

/-- BindingBacktrackObject::backtrack: restore one recorded binding. -/
def restore1 (bank : VarSpec → Option TermSpec)
    (e : VarSpec × Option TermSpec) : VarSpec → Option TermSpec :=
  fun u => if u = e.1 then e.2 else bank u

/-- BacktrackData::backtrack: undo the logged bindings, most recent
first. -/
def backtrackAll (bank : VarSpec → Option TermSpec) :
    List (VarSpec × Option TermSpec) → (VarSpec → Option TermSpec)
  | [] => bank
  | e :: rest => backtrackAll (restore1 bank e) rest

/-- RobSubstitution::root: follow variable-to-variable bindings to the
root of the alias chain (a variable that is unbound, output-bound, or
bound to a proper term). -/
def root (bank : VarSpec → Option TermSpec) : Nat → VarSpec → Option VarSpec
  | 0, _ => none
  | n + 1, v =>
    match bank v with
    | none => some v
    | some b =>
      if b.index = UNBOUND_INDEX then some v
      else if b.term.isApp then some v
      else root bank n (getVarSpec b)

/-- The alias-chain walk of RobSubstitution::derefBound: stop at a
proper-term binding (returning the binding) or at the root of the chain
(returning the root variable as a term). -/
def derefVar (bank : VarSpec → Option TermSpec) :
    Nat → VarSpec → Option TermSpec
  | 0, _ => none
  | n + 1, v =>
    match bank v with
    | none => some (TermSpec.ofVar v)
    | some b =>
      if b.index = UNBOUND_INDEX then some (TermSpec.ofVar v)
      else if b.term.isApp then some b
      else derefVar bank n (getVarSpec b)

/-- RobSubstitution::derefBound: a proper term is returned unchanged; a
variable is chased through the bank. -/
def derefBound (bank : VarSpec → Option TermSpec) (fuel : Nat)
    (t : TermSpec) : Option TermSpec :=
  if t.term.isApp then some t else derefVar bank fuel (getVarSpec t)

/-- RobSubstitution::isUnbound: the alias chain ends unbound or at an
output binding. -/
def isUnbound (bank : VarSpec → Option TermSpec) :
    Nat → VarSpec → Option Bool
  | 0, _ => none
  | n + 1, v =>
    match bank v with
    | none => some true
    | some b =>
      if b.index = UNBOUND_INDEX then some true
      else if b.term.isApp then some false
      else isUnbound bank n (getVarSpec b)

mutual
/-- Inner scan of RobSubstitution::occurs: process the remaining
variable occurrences (occs) of the term popped from the toDo stack,
under that term's bank index.  Each occurrence is rooted; reaching vs
reports the occurrence, a root already encountered or an unbound root is
skipped, and a root bound to a proper term is marked encountered with
its binding pushed onto the stack. -/
def occScan (bank : VarSpec → Option TermSpec) :
    Nat → VarSpec → Int → List Trm → List TermSpec → List VarSpec →
    Option Bool
  | 0, _, _, _, _, _ => none
  | n + 1, vs, idx, occs, work, enc =>
    match occs with
    | [] => occLoop bank n vs work enc
    | occ :: rest =>
      match root bank n (getVarSpec ⟨occ, idx⟩) with
      | none => none
      | some tvar =>
        if tvar = vs then some true
        else if enc.contains tvar then occScan bank n vs idx rest work enc
        else
          match derefBound bank n (TermSpec.ofVar tvar) with
          | none => none
          | some dtvar =>
            if dtvar.term.isVar then occScan bank n vs idx rest work enc
            else occScan bank n vs idx rest (dtvar :: work) (tvar :: enc)

/-- Outer loop of RobSubstitution::occurs: pop the next proper term from
the toDo stack and scan its variables; an empty stack means no
occurrence was found. -/
def occLoop (bank : VarSpec → Option TermSpec) :
    Nat → VarSpec → List TermSpec → List VarSpec → Option Bool
  | 0, _, _, _ => none
  | n + 1, vs, work, enc =>
    match work with
    | [] => some false
    | ts :: rest => occScan bank n vs ts.index (Trm.varOccs ts.term) rest enc
end

/-- RobSubstitution::occurs: does the variable vs occur, through the
current bindings, in the term ts?  The variable is rooted first; a
variable argument is dereferenced and, if still a variable, there is no
occurrence. -/
def occurs (bank : VarSpec → Option TermSpec) (fuel : Nat)
    (vs0 : VarSpec) (ts0 : TermSpec) : Option Bool :=
  match fuel with
  | 0 => none
  | n + 1 =>
    match root bank n vs0 with
    | none => none
    | some vs =>
      if ts0.term.isVar then
        match derefBound bank n ts0 with
        | none => none
        | some d =>
          if d.term.isVar then some false
          else occLoop bank n vs [d] []
      else occLoop bank n vs [ts0] []

/-- The inner subterm walk of RobSubstitution::unify on a pair of proper
terms: a simultaneous left-to-right traversal driven by the subterms
stack, here flattened into a worklist of argument pairs under the two
fixed bank indices.  Same-content pairs are skipped, same-top-functor
pairs are decomposed, pairs with a variable side are pushed onto the
toDo stack (always when a variable side is unbound, otherwise
deduplicated through the encountered set), and a clash of proper top
functors stops the walk with a mismatch, leaving the unprocessed
worklist behind exactly as the source leaves its subterms stack. -/
def innerWalk (bank : VarSpec → Option TermSpec) :
    Nat → Int → Int → List (Trm × Trm) →
    List (TermSpec × TermSpec) → List (TermSpec × TermSpec) →
    Option (Bool × List (Trm × Trm) × List (TermSpec × TermSpec) ×
      List (TermSpec × TermSpec))
  | 0, _, _, _, _, _ => none
  | n + 1, i1, i2, pairs, toDo, enc =>
    match pairs with
    | [] => some (false, [], toDo, enc)
    | (s, t) :: rest =>
      if !(sameTermContent ⟨s, i1⟩ ⟨t, i2⟩) && sameTopFunctor s t then
        match s, t with
        | .app _ sargs, .app _ targs =>
          innerWalk bank n i1 i2 (sargs.zip targs ++ rest) toDo enc
        | _, _ => none
      else
        if !(sameTopFunctor s t) then
          if s.isVar || t.isVar then
            match
              (if s.isVar then isUnbound bank n (getVarSpec ⟨s, i1⟩)
               else some false),
              (if t.isVar then isUnbound bank n (getVarSpec ⟨t, i2⟩)
               else some false) with
            | some u1, some u2 =>
              if u1 || u2 then
                innerWalk bank n i1 i2 rest ((⟨s, i1⟩, ⟨t, i2⟩) :: toDo) enc
              else if enc.contains (⟨s, i1⟩, ⟨t, i2⟩) then
                innerWalk bank n i1 i2 rest toDo enc
              else
                innerWalk bank n i1 i2 rest ((⟨s, i1⟩, ⟨t, i2⟩) :: toDo)
                  ((⟨s, i1⟩, ⟨t, i2⟩) :: enc)
            | _, _ => none
          else some (true, rest, toDo, enc)
        else innerWalk bank n i1 i2 rest toDo enc

/-- The main loop of RobSubstitution::unify.  The current pair is
dereferenced; an equal-content pair is dropped, a variable side is bound
to the other side after the occurs-check (an occurrence stops the loop
with failure), and a pair of proper terms runs the inner subterm walk.
Then the next pair is popped from the toDo stack; the loop ends when
that stack is empty, answering the negated mismatch flag.  A top-functor
clash in the inner walk only latches the mismatch flag: as in the
source, the loop keeps draining the toDo stack and every further binding
is also logged. -/
def uniLoop : Nat → SState → List (TermSpec × TermSpec) →
    List (TermSpec × TermSpec) → List (Trm × Trm) → Bool →
    TermSpec → TermSpec → Option Bool × SState
  | 0, st, _, _, _, _, _, _ => (none, st)
  | n + 1, st, toDo, enc, sub, mism, t1, t2 =>
    match derefBound st.bank n t1, derefBound st.bank n t2 with
    | some dt1, some dt2 =>
      if sameTermContent dt1 dt2 then
        match toDo with
        | [] => (some (!mism), st)
        | (p1, p2) :: rest => uniLoop n st rest enc sub mism p1 p2
      else if dt1.term.isVar then
        match occurs st.bank n (getVarSpec dt1) dt2 with
        | none => (none, st)
        | some true => (some false, st)
        | some false =>
          match toDo with
          | [] => (some (!mism), bindVS st (getVarSpec dt1) dt2)
          | (p1, p2) :: rest =>
            uniLoop n (bindVS st (getVarSpec dt1) dt2) rest enc sub mism p1 p2
      else if dt2.term.isVar then
        match occurs st.bank n (getVarSpec dt2) dt1 with
        | none => (none, st)
        | some true => (some false, st)
        | some false =>
          match toDo with
          | [] => (some (!mism), bindVS st (getVarSpec dt2) dt1)
          | (p1, p2) :: rest =>
            uniLoop n (bindVS st (getVarSpec dt2) dt1) rest enc sub mism p1 p2
      else
        match innerWalk st.bank n dt1.index dt2.index
            ((dt1.term, dt2.term) :: sub) toDo enc with
        | none => (none, st)
        | some (flag, sub2, toDo2, enc2) =>
          match toDo2 with
          | [] => (some (!(mism || flag)), st)
          | (p1, p2) :: rest =>
            uniLoop n st rest enc2 sub2 (mism || flag) p1 p2
    | _, _ => (none, st)

/-- RobSubstitution::unify: the same-content shortcut, then the main
loop recording into a local backtrack log; a mismatch backtracks the
local log, success commits it onto the caller's log. -/
def unify (fuel : Nat) (st : SState) (t1 t2 : TermSpec) :
    Option Bool × SState :=
  if sameTermContent t1 t2 then (some true, st)
  else
    match uniLoop fuel ⟨st.bank, []⟩ [] [] [] false t1 t2 with
    | (none, st2) => (none, ⟨st2.bank, st2.log ++ st.log⟩)
    | (some false, st2) =>
      (some false, ⟨backtrackAll st2.bank st2.log, st.log⟩)
    | (some true, st2) => (some true, ⟨st2.bank, st2.log ++ st.log⟩)

/-- Canonical injective name for the fresh output variable of an unbound
variable spec (the source draws consecutive fresh names and caches them
in the bank under UNBOUND_INDEX, which names each unbound root
consistently across applications; the embedding names them canonically
instead). -/
def encodeVS (v : VarSpec) : Nat := Nat.pair v.var (v.index + 3).toNat

/-- The application semantics of a bank (RobSubstitution::apply):
materialize a term spec under the bindings.  Proper terms are mapped
structurally, a bound variable is resolved through its binding, and an
unbound variable (or an output binding) materializes as its canonical
fresh output variable. -/
def applySubst (bank : VarSpec → Option TermSpec) :
    Nat → TermSpec → Option Trm
  | 0, _ => none
  | n + 1, ts =>
    match ts.term with
    | .app f args =>
      (args.mapM (fun a => applySubst bank n ⟨a, ts.index⟩)).map (Trm.app f)
    | _ =>
      match bank (getVarSpec ts) with
      | none => some (Trm.var (encodeVS (getVarSpec ts)))
      | some b =>
        if b.index = UNBOUND_INDEX then
          some (Trm.var (encodeVS (getVarSpec ts)))
        else applySubst bank n b

/-- The variable specs of the variable occurrences of a binding, in its
bank index. -/
def tsVarSpecs (b : TermSpec) : List VarSpec :=
  (Trm.varOccs b.term).map (fun occ => getVarSpec ⟨occ, b.index⟩)

/-- u is aliased to the variable w by a real (non-output) variable
binding. -/
def varLink (bank : VarSpec → Option TermSpec) (u w : VarSpec) : Prop :=
  ∃ b, bank u = some b ∧ b.index ≠ UNBOUND_INDEX ∧ b.term.isVar = true ∧
    getVarSpec b = w

/-- r is the root of u's alias chain: reachable through variable links
and itself unbound, output-bound, or bound to a proper term. -/
def IsRootOf (bank : VarSpec → Option TermSpec) (u r : VarSpec) : Prop :=
  Relation.ReflTransGen (varLink bank) u r ∧
    ∀ b, bank r = some b → b.index = UNBOUND_INDEX ∨ b.term.isApp = true

/-- v is unbound in the bank: no binding, or an output binding. -/
def unboundAt (bank : VarSpec → Option TermSpec) (v : VarSpec) : Prop :=
  bank v = none ∨ ∃ b, bank v = some b ∧ b.index = UNBOUND_INDEX

/-- r is bound to the proper term b. -/
def boundToTerm (bank : VarSpec → Option TermSpec) (r : VarSpec)
    (b : TermSpec) : Prop :=
  bank r = some b ∧ b.index ≠ UNBOUND_INDEX ∧ b.term.isApp = true

/-- The dependency edge of a bank: u's binding mentions w. -/
def bankEdge (bank : VarSpec → Option TermSpec) (u w : VarSpec) : Prop :=
  ∃ b, bank u = some b ∧ b.index ≠ UNBOUND_INDEX ∧ w ∈ tsVarSpecs b

/-- A bank is acyclic when no variable spec depends on itself. -/
def AcyclicBank (bank : VarSpec → Option TermSpec) : Prop :=
  ∀ v, ¬ Relation.TransGen (bankEdge bank) v v

/-- Root-level reachability of the target vs: vs itself, or a root bound
to a proper term one of whose variable occurrences has a root from which
vs is reachable. -/
inductive RReach (bank : VarSpec → Option TermSpec) (vs : VarSpec) :
    VarSpec → Prop where
  | base : RReach bank vs vs
  | step : ∀ r b o r2, boundToTerm bank r b → o ∈ tsVarSpecs b →
      IsRootOf bank o r2 → RReach bank vs r2 → RReach bank vs r

/-- Well-formed bank for the arity function ar: every binding is
arity-coherent and every output-index binding is a variable. -/
def BankWF (ar : Nat → Nat) (bank : VarSpec → Option TermSpec) : Prop :=
  ∀ v b, bank v = some b → Trm.arityOk ar b.term = true ∧
    (b.index = UNBOUND_INDEX → b.term.isVar = true)

/-- Well-formed term spec: a real bank index and arity coherence. -/
def tsWF (ar : Nat → Nat) (ts : TermSpec) : Prop :=
  ts.index ≠ UNBOUND_INDEX ∧ Trm.arityOk ar ts.term = true

/-- σ extends the bank: every real binding is kept. -/
def bankExt (σ bank : VarSpec → Option TermSpec) : Prop :=
  ∀ v b, bank v = some b → b.index ≠ UNBOUND_INDEX → σ v = some b

/-- Two term specs materialize equally under σ whenever both
materializations are defined. -/
def normEqv (σ : VarSpec → Option TermSpec) (x y : TermSpec) : Prop :=
  ∀ n1 n2 r1 r2, applySubst σ n1 x = some r1 →
    applySubst σ n2 y = some r2 → r1 = r2

/-- Materializations of x factor through y at the same fuel. -/
def normLink (σ : VarSpec → Option TermSpec) (x y : TermSpec) : Prop :=
  ∀ n r, applySubst σ n x = some r → applySubst σ n y = some r

/-! ## Helper lemmas -/

theorem list_eq_dropLast_append {α : Type _} :
    ∀ (l : List α) (c : α), l.getLast? = some c → l = l.dropLast ++ [c] := by
  intro l
  induction l with
  | nil => intro c h; simp at h
  | cons a l ih =>
    intro c h
    cases l with
    | nil => simp_all
    | cons b l =>
      rw [List.getLast?_cons_cons] at h
      have := ih c h
      rw [List.dropLast_cons₂, List.cons_append]
      exact congrArg _ this

/-! ## Claim C10 -/

/-- Claim C10: the Unprocessed container is last-in-first-out: after any
sequence of add and pop operations, pop returns the clause with the
largest timestamp (the most recently added clause still present) and
removes exactly it, leaving the rest unchanged. -/
theorem c10_unprocessed_lifo {C : Type} (ops : List (UOp C))
    (p : Nat × C) (s2 : UnprocessedCC (Nat × C))
    (hpop : (execUOps ops ⟨[]⟩ 0).1.pop = some (p, s2)) :
    (execUOps ops ⟨[]⟩ 0).1.data = s2.data ++ [p] ∧
      ∀ q ∈ s2.data, q.1 < p.1 := by
  have hst : UStamps (execUOps ops ⟨[]⟩ 0).1 (execUOps ops ⟨[]⟩ 0).2 :=
    uStamps_exec ops ⟨[]⟩ 0 ⟨by simp, by simp⟩
  obtain ⟨h1, -⟩ := hst
  set s := (execUOps ops ⟨[]⟩ 0).1 with hs
  unfold UnprocessedCC.pop at hpop
  rcases hl : s.data.getLast? with _ | c
  · rw [hl] at hpop; simp at hpop
  · rw [hl] at hpop
    simp only [Option.some.injEq, Prod.mk.injEq] at hpop
    obtain ⟨hc, hs2⟩ := hpop
    have hdec : s.data = s.data.dropLast ++ [c] := list_eq_dropLast_append _ _ hl
    rw [← hc]
    constructor
    · rw [← hs2]; exact hdec
    · intro q hq
      rw [← hs2] at hq
      rw [hdec, List.map_append, List.pairwise_append] at h1
      obtain ⟨-, -, hlt⟩ := h1
      exact hlt q.1 (List.mem_map_of_mem _ hq) c.1 (by simp)

/-- Claim C10 witness: a concrete add/add/pop/pop run. -/
theorem c10_unprocessed_lifo_witness :
    (execUOps [UOp.add 7, UOp.add 8, UOp.pop]
        (⟨[]⟩ : UnprocessedCC (Nat × Nat)) 0).1.data
      = (⟨[]⟩ : UnprocessedCC (Nat × Nat)).data ++ [(0, 7)] ∧
      ∀ q ∈ (⟨[]⟩ : UnprocessedCC (Nat × Nat)).data, q.1 < (0, 7).1 :=
  c10_unprocessed_lifo [UOp.add 7, UOp.add 8, UOp.pop] (0, 7) ⟨[]⟩ (by rfl)

/-! ## Claim C9 -/

/-- Claim C9 counterexample: the clause constructor accepts length zero;
the constructed empty clause has length 0, not at least 1, and
Clause::isEmpty recognises it (the saturation loop and Preprocess.cpp
explicitly test for such clauses, which witness a refutation). -/
theorem c9_counterexample :
    ¬ (1 ≤ (Clause.ofLits [] 0).length) ∧
      (Clause.ofLits [] 0).isEmpty = true := by
  constructor
  · decide
  · rfl

/-- Claim C9 (amended): a clause is an ordered sequence of literals of
any length, possibly zero; construction stores exactly the given
literals and Clause::isEmpty holds precisely for length zero (the empty
clause, which the saturation loop reports as a refutation). -/
theorem c9_clause_length (lits : List Lit) (it : Nat) :
    (Clause.ofLits lits it).length = lits.length ∧
      ((Clause.ofLits lits it).isEmpty = true ↔ lits.length = 0) := by
  refine ⟨rfl, ?_⟩
  simp [Clause.ofLits, Clause.isEmpty, Clause.length]

/-! ## Factoring lemmas -/

/-- The aftercheck-failure condition of the construction loop, written as
a recursion over the remaining literals with their running index. -/
def blockedRec {S : Type} (applyS : S → Lit → Lit)
    (cmp : Lit → Lit → OResult) (n : Nat) (s : S) (sk sa : Lit) :
    Nat → List Lit → Bool
  | _, [] => false
  | i, c :: rest =>
    (if c = sk then false
     else decide (i < n) && (cmp (applyS s c) sa == OResult.GREATER))
    || blockedRec applyS cmp n s sk sa (i + 1) rest

theorem buildFactor_none_eq {S : Type} (applyS : S → Lit → Lit)
    (cmp : Lit → Lit → OResult) (n : Nat) (s : S) (sk : Lit) :
    ∀ (l : List Lit) (i : Nat),
      buildFactor applyS cmp n s sk none i l =
        some ((l.filter (fun c => c != sk)).map (applyS s)) := by
  intro l
  induction l with
  | nil => intro i; rfl
  | cons a l ih =>
    intro i
    by_cases h : a = sk
    · have hbne : (a != sk) = false := by simp [h]
      simp [buildFactor, h, ih, List.filter_cons, hbne]
    · have hbne : (a != sk) = true := by simp [h]
      simp [buildFactor, h, ih, List.filter_cons, hbne]

theorem buildFactor_some_eq {S : Type} (applyS : S → Lit → Lit)
    (cmp : Lit → Lit → OResult) (n : Nat) (s : S) (sk : Lit) (sa : Lit) :
    ∀ (l : List Lit) (i : Nat),
      buildFactor applyS cmp n s sk (some sa) i l =
        (if blockedRec applyS cmp n s sk sa i l then none
         else some ((l.filter (fun c => c != sk)).map (applyS s))) := by
  intro l
  induction l with
  | nil => intro i; rfl
  | cons a l ih =>
    intro i
    by_cases h : a = sk
    · have hbne : (a != sk) = false := by simp [h]
      simp [buildFactor, blockedRec, h, ih, List.filter_cons, hbne]
    · have hbne : (a != sk) = true := by simp [h]
      rw [buildFactor]
      simp only [if_neg h]
      by_cases hfail :
          (decide (i < n) && (cmp (applyS s a) sa == OResult.GREATER)) = true
      · simp [blockedRec, h, hfail]
      · rw [Bool.not_eq_true] at hfail
        simp only [blockedRec, if_neg h, hfail, Bool.false_or]
        rw [ih (i + 1)]
        by_cases hb : blockedRec applyS cmp n s sk sa (i + 1) l = true
        · simp [hb, hfail]
        · rw [Bool.not_eq_true] at hb
          simp [hb, hfail, List.filter_cons, hbne]

/-- blockedRec in existential form: some kept literal at running index
below the selection bound compares greater than the factored literal. -/
theorem blockedRec_iff {S : Type} (applyS : S → Lit → Lit)
    (cmp : Lit → Lit → OResult) (n : Nat) (s : S) (sk sa : Lit) :
    ∀ (l : List Lit) (i : Nat),
      blockedRec applyS cmp n s sk sa i l = true ↔
        ∃ k, k < l.length ∧ l.getD k defaultLit ≠ sk ∧ i + k < n ∧
          cmp (applyS s (l.getD k defaultLit)) sa = OResult.GREATER := by
  intro l
  induction l with
  | nil =>
    intro i
    simp [blockedRec]
  | cons a l ih =>
    intro i
    rw [blockedRec]
    by_cases h : a = sk
    · simp only [if_pos h, Bool.false_or]
      rw [ih (i + 1)]
      constructor
      · rintro ⟨k, hk, hne, hlt, hcmp⟩
        refine ⟨k + 1, by simpa using hk, ?_, by omega, ?_⟩
        · simpa [List.getD_cons_succ] using hne
        · simpa [List.getD_cons_succ] using hcmp
      · rintro ⟨k, hk, hne, hlt, hcmp⟩
        cases k with
        | zero => simp [List.getD_cons_zero, h] at hne
        | succ k =>
          refine ⟨k, by simpa using hk, ?_, by omega, ?_⟩
          · simpa [List.getD_cons_succ] using hne
          · simpa [List.getD_cons_succ] using hcmp
    · simp only [if_neg h]
      rw [Bool.or_eq_true, ih (i + 1), Bool.and_eq_true, decide_eq_true_iff,
        beq_iff_eq]
      constructor
      · rintro (⟨hlt, hcmp⟩ | ⟨k, hk, hne, hlt, hcmp⟩)
        · exact ⟨0, by simp, by simpa [List.getD_cons_zero] using h,
            by omega, by simpa [List.getD_cons_zero] using hcmp⟩
        · refine ⟨k + 1, by simpa using hk, ?_, by omega, ?_⟩
          · simpa [List.getD_cons_succ] using hne
          · simpa [List.getD_cons_succ] using hcmp
      · rintro ⟨k, hk, hne, hlt, hcmp⟩
        cases k with
        | zero =>
          left
          exact ⟨by omega, by simpa [List.getD_cons_zero] using hcmp⟩
        | succ k =>
          right
          refine ⟨k, by simpa using hk, ?_, by omega, ?_⟩
          · simpa [List.getD_cons_succ] using hne
          · simpa [List.getD_cons_succ] using hcmp

theorem combinationPairs_mem {i j a b : Nat} :
    (i, j) ∈ combinationPairs 0 a b ↔ i < a ∧ i < j ∧ j < b := by
  simp only [combinationPairs, List.mem_flatMap, List.mem_range,
    Nat.zero_le, if_true, List.mem_map, List.mem_filter, List.mem_range,
    decide_eq_true_iff]
  constructor
  · rintro ⟨x, hx, y, ⟨hyb, hxy⟩, hpair⟩
    obtain ⟨rfl, rfl⟩ := Prod.mk.injEq .. ▸ hpair
    omega
  · rintro ⟨hia, hij, hjb⟩
    exact ⟨i, hia, j, ⟨hjb, hij⟩, rfl⟩

theorem filter_ne_eq_eraseIdx {α : Type _} [DecidableEq α] :
    ∀ (l : List α) (j : Nat) (x : α), l.Nodup → l.get? j = some x →
      l.filter (fun c => c != x) = l.eraseIdx j := by
  intro l
  induction l with
  | nil => intro j x _ h; simp at h
  | cons a l ih =>
    intro j x hND h
    cases j with
    | zero =>
      simp only [List.get?_eq_getElem?] at h
      simp at h
      subst h
      rw [List.eraseIdx_cons_zero, List.filter_cons]
      simp only [bne_self_eq_false, Bool.false_eq_true, if_false]
      have : ∀ c ∈ l, (c != a) = true := by
        intro c hc
        have : c ≠ a := by
          intro hceq
          subst hceq
          exact (List.nodup_cons.mp hND).1 hc
        simpa using this
      exact List.filter_eq_self.mpr this
    | succ j =>
      rw [List.get?_eq_getElem?] at h
      simp only [List.getElem?_cons_succ] at h
      have hmem : x ∈ l := by
        rcases List.getElem?_eq_some_iff.mp h with ⟨hlt, hget⟩
        exact hget ▸ List.getElem_mem hlt
      have hax : a ≠ x := by
        intro haeq
        subst haeq
        exact (List.nodup_cons.mp hND).1 hmem
      rw [List.eraseIdx_cons_succ, List.filter_cons]
      have : (a != x) = true := by simpa using hax
      rw [this]
      simp only [if_true]
      rw [ih j x (List.nodup_cons.mp hND).2 (by rw [List.get?_eq_getElem?]; exact h)]

/-- ResultsFn agrees with the spec-side factor construction: under
distinct premise literals and a selected count within bounds, it yields
the premise with the j-th literal removed and the unifier applied, unless
the aftercheck blocks, in which case it yields nothing. -/
theorem resultsFn_spec {S : Type} (applyS : S → Lit → Lit)
    (cmp : Lit → Lit → OResult) (afterCheck : Bool) (cl : Clause)
    (s : S) (j : Nat) (l2 : Lit)
    (hND : cl.lits.Nodup) (hSel : cl.selected ≤ cl.lits.length)
    (hj : cl.lits.get? j = some l2) :
    resultsFn applyS cmp afterCheck cl (l2, s) =
      (if specAftercheckBlocked applyS cmp afterCheck cl s j then none
       else some (specFactorClause applyS cl s j)) := by
  have hjlen : j < cl.lits.length := by
    rw [List.get?_eq_getElem?] at hj
    exact (List.getElem?_eq_some_iff.mp hj).1
  have hgetD : cl.lits.getD j defaultLit = l2 := by
    rw [List.getD_eq_getElem?_getD, ← List.get?_eq_getElem?, hj]
    rfl
  have hfilter : cl.lits.filter (fun c => c != l2) = cl.lits.eraseIdx j :=
    filter_ne_eq_eraseIdx cl.lits j l2 hND hj
  rw [resultsFn]
  by_cases hac : (afterCheck && decide (cl.numSelected > 1)) = true
  · rw [if_pos hac]
    rw [buildFactor_some_eq]
    have hblock : blockedRec applyS cmp cl.numSelected s l2
          (applyS s l2) 0 cl.lits = specAftercheckBlocked applyS cmp
          afterCheck cl s j := by
      rw [Bool.eq_iff_iff, blockedRec_iff]
      unfold specAftercheckBlocked
      rw [Bool.and_eq_true, Bool.and_eq_true, List.any_eq_true]
      constructor
      · rintro ⟨k, hk, hne, hlt, hcmp⟩
        have hacp := Bool.and_eq_true _ _ ▸ hac
        refine ⟨⟨hacp.1, hacp.2⟩, k, List.mem_range.mpr (by omega), ?_⟩
        have hkj : k ≠ j := by
          intro hkeq
          subst hkeq
          exact hne hgetD
        rw [Bool.and_eq_true, decide_eq_true_iff, beq_iff_eq, hgetD]
        exact ⟨hkj, hcmp⟩
      · rintro ⟨-, k, hk, hcond⟩
        rw [Bool.and_eq_true, decide_eq_true_iff, beq_iff_eq] at hcond
        obtain ⟨hkj, hcmp⟩ := hcond
        have hkns : k < cl.numSelected := List.mem_range.mp hk
        have hklen : k < cl.lits.length := by
          have := hSel
          unfold Clause.numSelected at hkns
          omega
        refine ⟨k, hklen, ?_, by omega, ?_⟩
        · intro hkd
          apply hkj
          apply List.getElem?_inj hklen hND
          rw [List.getElem?_eq_getElem hklen]
          rw [← List.get?_eq_getElem?, hj]
          rw [← hkd, List.getD_eq_getElem _ defaultLit hklen]
        · rw [hgetD] at hcmp
          exact hcmp
    rw [hblock, hfilter]
    by_cases hb : specAftercheckBlocked applyS cmp afterCheck cl s j = true
    · rw [if_pos hb, if_pos hb]
      rfl
    · rw [Bool.not_eq_true] at hb
      rw [hb]
      simp only [Bool.false_eq_true, if_false]
      rfl
  · rw [Bool.not_eq_true] at hac
    rw [hac]
    simp only [Bool.false_eq_true, if_false]
    rw [buildFactor_none_eq, hfilter]
    have hb : specAftercheckBlocked applyS cmp afterCheck cl s j = false := by
      unfold specAftercheckBlocked
      rw [hac]
      rfl
    rw [hb]
    simp only [Bool.false_eq_true, if_false]
    rfl

/-! ## Claim C6 -/

/-- Claim C6 (amended): factoring generates exactly the factors described
by the spec-side enumeration: one for each ordered pair (L_i, L_j) where
L_i is a selected non-equality literal that is positive for selection and
L_j is any later literal of the premise, for each unifier of the two
literals (no unifiers when the headers, i.e. polarity and predicate, do
not match); the produced clause is the premise with L_j removed and the
unifier applied, age bumped by one, unless the literal-maximality
aftercheck blocks it. -/
theorem c6_factoring_characterization {S : Type}
    (aU aURev : Lit → Lit → Option S) (applyS : S → Lit → Lit)
    (negForSel : Lit → Bool) (cmp : Lit → Lit → OResult)
    (afterCheck : Bool) (cl : Clause)
    (hND : cl.lits.Nodup) (hSel : cl.selected ≤ cl.lits.length) :
    factoringGenerate aU aURev applyS negForSel cmp afterCheck cl =
      specFactors aU aURev applyS negForSel cmp afterCheck cl := by
  have hpairs : ∀ x ∈ combinationPairs 0 cl.numSelected cl.length,
      x.1 < cl.numSelected ∧ x.1 < x.2 ∧ x.2 < cl.length := by
    intro x hx
    exact combinationPairs_mem.mp (by cases x; exact hx)
  rw [factoringGenerate, specFactors]
  by_cases hlen : cl.length ≤ 1
  · rw [if_pos hlen]
    symm
    rw [List.flatMap_eq_nil_iff]
    intro x hx
    obtain ⟨h1, h2, h3⟩ := hpairs x hx
    have hns : cl.numSelected ≤ cl.length := hSel
    omega
  · rw [if_neg hlen]
    by_cases hneg : (cl.numSelected == 1
        && negForSel (cl.lits.getD 0 defaultLit)) = true
    · rw [if_pos hneg]
      symm
      rw [List.flatMap_eq_nil_iff]
      intro x hx
      obtain ⟨h1, h2, h3⟩ := hpairs x hx
      rw [Bool.and_eq_true, beq_iff_eq] at hneg
      obtain ⟨hns1, hnf⟩ := hneg
      have hx1 : x.1 = 0 := by omega
      have h1len : x.1 < cl.lits.length := by
        have : cl.numSelected ≤ cl.length := hSel
        unfold Clause.length at this h3
        omega
      rcases hget : cl.lits.get? x.1 with _ | l1
      · simp [hget]
      · have hl1 : l1 = cl.lits.getD 0 defaultLit := by
          rw [List.getD_eq_getElem?_getD, ← List.get?_eq_getElem?, ← hx1, hget]
          rfl
        rcases hget2 : cl.lits.get? x.2 with _ | l2
        · simp [hget, hget2]
        · simp only [hget, hget2]
          rw [← hl1] at hnf
          by_cases heq : l1.isEquality
          · simp [heq]
          · simp [heq, hnf]
    · rw [if_neg hneg]
      rw [List.filterMap_flatMap]
      apply List.flatMap_congr
      intro x hx
      obtain ⟨h1, h2, h3⟩ := hpairs x hx
      have h1len : x.1 < cl.lits.length := by
        have : cl.numSelected ≤ cl.length := hSel
        unfold Clause.length at this h3
        omega
      have h2len : x.2 < cl.lits.length := h3
      rw [unifsOnPositive]
      rcases hget : cl.lits.get? x.1 with _ | l1
      · rw [List.get?_eq_getElem?] at hget
        rw [List.getElem?_eq_getElem h1len] at hget
        simp at hget
      rcases hget2 : cl.lits.get? x.2 with _ | l2
      · rw [List.get?_eq_getElem?] at hget2
        rw [List.getElem?_eq_getElem h2len] at hget2
        simp at hget2
      by_cases heq : l1.isEquality
      · simp [heq]
      · by_cases hnf : negForSel l1
        · simp [heq, hnf]
        · simp only [heq, hnf, Bool.false_eq_true, if_false]
          rw [List.filterMap_map]
          apply List.filterMap_congr
          intro s hs
          exact resultsFn_spec applyS cmp afterCheck cl s x.2 l2 hND hSel hget2

/-- Concrete items for the C6 counterexample: a premise of two selected
negative literals of the same predicate, which are unifiable (the
abstract unifier always succeeds), with the default polarity-based
selector. -/
def cxPremise : Clause :=
  ⟨[⟨false, 1, 0, [Trm.var 0]⟩, ⟨false, 1, 0, [Trm.app 5 []]⟩], 0, 2, 0⟩

/-- Claim C6 counterexample: the two literals of cxPremise are both
selected, have the same polarity and predicate and are unifiable, yet
Factoring::generateClauses produces no factor, because the code
additionally requires the first literal of the pair to be positive for
selection (and non-equality): factoring is not performed on negative
literals. -/
theorem c6_counterexample :
    factoringGenerate (S := Unit) (fun _ _ => some ()) (fun _ _ => some ())
        (fun _ l => l) (fun l => !l.pol) (fun _ _ => OResult.INCOMPARABLE)
        false cxPremise = [] ∧
      cxPremise.numSelected = 2 ∧
      (cxPremise.lits.getD 0 defaultLit).pol
        = (cxPremise.lits.getD 1 defaultLit).pol ∧
      (cxPremise.lits.getD 0 defaultLit).fn
        = (cxPremise.lits.getD 1 defaultLit).fn ∧
      (fun (_ _ : Lit) => some ()) (cxPremise.lits.getD 0 defaultLit)
        (cxPremise.lits.getD 1 defaultLit) = some () := by
  refine ⟨?_, rfl, rfl, rfl, rfl⟩
  rfl

/-- Claim C6 witness: a concrete two-literal positive premise where the
characterization applies and both sides produce the single factor. -/
theorem c6_factoring_witness :
    factoringGenerate (S := Unit) (fun _ _ => some ()) (fun _ _ => some ())
        (fun _ l => l) (fun l => !l.pol) (fun _ _ => OResult.INCOMPARABLE)
        false ⟨[⟨true, 1, 0, [Trm.var 0]⟩, ⟨true, 1, 0, [Trm.app 5 []]⟩], 3, 1, 0⟩ =
      specFactors (S := Unit) (fun _ _ => some ()) (fun _ _ => some ())
        (fun _ l => l) (fun l => !l.pol) (fun _ _ => OResult.INCOMPARABLE)
        false ⟨[⟨true, 1, 0, [Trm.var 0]⟩, ⟨true, 1, 0, [Trm.app 5 []]⟩], 3, 1, 0⟩ :=
  c6_factoring_characterization _ _ _ _ _ _ _
    (by decide) (by decide)

/-! ## Claim C7 helper: factoring ages -/

/-- Every clause produced by factoring has age equal to the premise age
plus one (the premise is the only parent, so this is the maximum of the
parent ages plus one). -/
theorem factoring_age {S : Type}
    (aU aURev : Lit → Lit → Option S) (applyS : S → Lit → Lit)
    (negForSel : Lit → Bool) (cmp : Lit → Lit → OResult)
    (afterCheck : Bool) (cl : Clause) (c : Clause)
    (hmem : c ∈ factoringGenerate aU aURev applyS negForSel cmp afterCheck cl) :
    c.age = cl.age + 1 := by
  rw [factoringGenerate] at hmem
  by_cases hlen : cl.length ≤ 1
  · rw [if_pos hlen] at hmem
    simp at hmem
  · rw [if_neg hlen] at hmem
    by_cases hneg : (cl.numSelected == 1
        && negForSel (cl.lits.getD 0 defaultLit)) = true
    · rw [if_pos hneg] at hmem
      simp at hmem
    · rw [if_neg hneg] at hmem
      rw [List.mem_filterMap] at hmem
      obtain ⟨arg, -, hres⟩ := hmem
      rw [resultsFn] at hres
      rcases hbf : buildFactor applyS cmp cl.numSelected arg.2 arg.1
          (if afterCheck && decide (cl.numSelected > 1) then
            some (applyS arg.2 arg.1) else none) 0 cl.lits with _ | ls
      · rw [hbf] at hres
        simp at hres
      · rw [hbf] at hres
        have hc : (Clause.ofLits ls cl.inputType).setAge (cl.age + 1) = c := by
          simpa using hres
        rw [← hc]
        rfl

/-- Every successful superposition sets the result age to the maximum of
the premise ages plus one. -/
theorem superposition_age (p : SupParams)
    (rwClause : Clause) (rwLit : Lit) (rwTerm : Trm)
    (eqClause : Clause) (eqLit : Lit) (eqLHS : Trm) (res : Clause)
    (h : performSuperposition p rwClause rwLit rwTerm eqClause eqLit eqLHS
        = some res) :
    res.age = max rwClause.age eqClause.age + 1 := by
  simp only [performSuperposition] at h
  repeat' split at h
  all_goals first
    | (rw [Option.some.injEq] at h
       rw [← h]
       rfl)
    | (exact absurd h (by simp))

/-! ## Claim C7 -/

/-- Claim C7: every clause produced by a generating inference has its age
set to the maximum of the premise ages plus one: factoring results have
the premise age plus one (single premise), and superposition results have
the maximum of the rewritten and equality premise ages plus one. -/
theorem c7_generating_age :
    (∀ (S : Type) (aU aURev : Lit → Lit → Option S)
        (applyS : S → Lit → Lit) (negForSel : Lit → Bool)
        (cmp : Lit → Lit → OResult) (afterCheck : Bool) (cl c : Clause),
      c ∈ factoringGenerate aU aURev applyS negForSel cmp afterCheck cl →
        c.age = cl.age + 1) ∧
    (∀ (p : SupParams) (rwClause : Clause) (rwLit : Lit) (rwTerm : Trm)
        (eqClause : Clause) (eqLit : Lit) (eqLHS : Trm) (res : Clause),
      performSuperposition p rwClause rwLit rwTerm eqClause eqLit eqLHS
          = some res →
        res.age = max rwClause.age eqClause.age + 1) := by
  constructor
  · intro S aU aURev applyS negForSel cmp afterCheck cl c hmem
    exact factoring_age aU aURev applyS negForSel cmp afterCheck cl c hmem
  · intro p rwClause rwLit rwTerm eqClause eqLit eqLHS res h
    exact superposition_age p rwClause rwLit rwTerm eqClause eqLit eqLHS res h

/-- Concrete superposition parameters for the C7 witness. -/
def cxSupP : SupParams :=
  { applyEq := id, applyEqLit := id, applyRw := id, applyRwLit := id,
    ordT := fun _ _ => OResult.LESS, ordL := fun _ _ => OResult.LESS,
    eqArgOrder := fun _ => OResult.INCOMPARABLE,
    termSort := fun _ _ => 0,
    fromVariableOk := true, colorOk := true, earlyWeightOk := true,
    weightLimit := none, litWeight := fun _ => 0, afterCheck := false,
    constraintLits := [] }

/-- The rewriting premise p(f(a)) for the C7 witness. -/
def cxRwClause : Clause := ⟨[⟨true, 1, 0, [Trm.app 2 [Trm.app 3 []]]⟩], 2, 0, 0⟩

/-- The equality premise f(a) = a for the C7 witness. -/
def cxEqClause : Clause :=
  ⟨[⟨true, 0, 0, [Trm.app 2 [Trm.app 3 []], Trm.app 3 []]⟩], 5, 0, 0⟩

/-- Claim C7 witness: a concrete factoring inference and a concrete
superposition inference with the expected ages. -/
theorem c7_generating_age_witness :
    (Clause.mk [⟨true, 1, 0, [Trm.var 0]⟩] 4 0 0).age =
      (Clause.mk [⟨true, 1, 0, [Trm.var 0]⟩, ⟨true, 1, 0, [Trm.app 5 []]⟩] 3 1 0).age + 1 ∧
    (Clause.mk [⟨true, 1, 0, [Trm.app 3 []]⟩] 6 0 0).age =
      max cxRwClause.age cxEqClause.age + 1 :=
  ⟨c7_generating_age.1 Unit (fun _ _ => some ()) (fun _ _ => some ())
      (fun _ l => l) (fun l => !l.pol) (fun _ _ => OResult.INCOMPARABLE) false
      (Clause.mk [⟨true, 1, 0, [Trm.var 0]⟩, ⟨true, 1, 0, [Trm.app 5 []]⟩] 3 1 0)
      (Clause.mk [⟨true, 1, 0, [Trm.var 0]⟩] 4 0 0) (by decide),
   c7_generating_age.2 cxSupP cxRwClause
      ⟨true, 1, 0, [Trm.app 2 [Trm.app 3 []]]⟩ (Trm.app 2 [Trm.app 3 []])
      cxEqClause ⟨true, 0, 0, [Trm.app 2 [Trm.app 3 []], Trm.app 3 []]⟩
      (Trm.app 2 [Trm.app 3 []])
      (Clause.mk [⟨true, 1, 0, [Trm.app 3 []]⟩] 6 0 0) (by rfl)⟩

/-! ## Claim C5 -/

/-- The result description of one successful demodulation candidate:
tautology deletion or the rewritten clause. -/
def demodOutcome (cl : Clause) (lit : Lit) (trm : Trm)
    (qr : DemodQR) (r : Option Clause) : Prop :=
  let rhsS := qr.applyR (qr.literal.otherEqualitySide qr.term)
  let resLit := lit.replaceL trm rhsS
  if resLit.isEqTautology then r = none
  else r = some ((Clause.ofLits
      (resLit :: cl.lits.filter (fun c => c != lit))
      (max cl.inputType qr.clause.inputType)).setAge cl.age)

theorem tryDemodCandidate_some (p : DemodParams) (cl : Clause) (li : Nat)
    (lit : Lit) (trm : Trm) (qr : DemodQR) (r : Option Clause)
    (h : tryDemodCandidate p cl li lit trm qr = some r) :
    demodGate p trm qr ∧ demodOutcome cl lit trm qr r := by
  simp only [tryDemodCandidate] at h
  by_cases h1 : (!p.colorOk cl qr.clause) = true
  · rw [if_pos h1] at h
    exact absurd h (by simp)
  · rw [if_neg h1] at h
    by_cases h2 : p.termSort trm lit ≠ qr.literal.sort
    · rw [if_pos h2] at h
      exact absurd h (by simp)
    · rw [if_neg h2] at h
      by_cases h3 : (!(p.eqArgOrder qr.literal == OResult.LESS
            || p.eqArgOrder qr.literal == OResult.GREATER)
          && (p.preorderedOnly
            || !(p.ordT trm (qr.applyR (qr.literal.otherEqualitySide qr.term))
                == OResult.GREATER))) = true
      · rw [if_pos h3] at h
        exact absurd h (by simp)
      · rw [if_neg h3] at h
        refine ⟨?_, ?_⟩
        · rw [Bool.not_eq_true, Bool.and_eq_false_iff] at h3
          unfold demodGate
          rcases h3 with hpre | hrest
          · simp at hpre
            tauto
          · rw [Bool.or_eq_false_iff] at hrest
            obtain ⟨-, hgt⟩ := hrest
            simp at hgt
            tauto
        · by_cases h4 : (if (p.redundancyCheck && lit.isEquality &&
              (decide (trm = lit.args.getD 0 trm)
                || decide (trm = lit.args.getD 1 trm))) = true then
              (if (!(p.ordT (qr.applyR (qr.literal.otherEqualitySide qr.term))
                      (lit.otherEqualitySide trm) == OResult.LESS)
                  && !(p.ordT (qr.applyR (qr.literal.otherEqualitySide qr.term))
                      (lit.otherEqualitySide trm) == OResult.LESS_EQ)) = true
               then
                (List.range cl.length).all (fun li2 => li2 == li
                  || !(p.ordL (qr.applyRLit qr.literal)
                      (cl.lits.getD li2 defaultLit) == OResult.LESS))
               else false)
            else false) = true
          · rw [if_pos h4] at h
            exact absurd h (by simp)
          · rw [if_neg h4] at h
            unfold demodOutcome
            by_cases h5 : (lit.replaceL trm
                (qr.applyR (qr.literal.otherEqualitySide qr.term))).isEqTautology
                = true
            · rw [if_pos h5] at h
              simp only [h5, if_true]
              simpa using h.symm
            · rw [if_neg h5] at h
              rw [Bool.not_eq_true] at h5
              simp only [h5, Bool.false_eq_true, if_false]
              simpa using h.symm

theorem tryDemodCands_some (p : DemodParams) (cl : Clause) (li : Nat)
    (lit : Lit) (trm : Trm) :
    ∀ (l : List DemodQR) (out : Option Clause × Clause),
      tryDemodCands p cl li lit trm l = some out →
      ∃ qr ∈ l, out.2 = qr.clause ∧
        tryDemodCandidate p cl li lit trm qr = some out.1 := by
  intro l
  induction l with
  | nil => intro out h; simp [tryDemodCands] at h
  | cons qr rest ih =>
    intro out h
    rw [tryDemodCands] at h
    rcases hc : tryDemodCandidate p cl li lit trm qr with _ | r
    · rw [hc] at h
      obtain ⟨qr2, hmem, hrest⟩ := ih out h
      exact ⟨qr2, List.mem_cons_of_mem _ hmem, hrest⟩
    · rw [hc] at h
      rw [Option.some.injEq] at h
      refine ⟨qr, List.mem_cons_self _ _, ?_, ?_⟩
      · rw [← h]
      · rw [← h]
        exact hc

theorem demodScan_some_aux (p : DemodParams) (gens : Trm → List DemodQR)
    (cl : Clause) (li : Nat) (lit : Lit) :
    ∀ (n : Nat) (wl : List Trm)
      (att : List Trm) (out : Option Clause × Clause) (att2 : List Trm),
      demodScan p gens cl li lit n wl att = (some out, att2) →
      ∃ trm, tryDemodCands p cl li lit trm (gens trm) = some out := by
  intro n
  induction n with
  | zero =>
    intro wl att out att2 h
    rw [demodScan] at h
    simp at h
  | succ n ih =>
    intro wl att out att2 h
    cases wl with
    | nil => rw [demodScan] at h; simp at h
    | cons t rest =>
      cases t with
      | var v =>
        rw [demodScan] at h
        exact ih rest att out att2 h
      | svar v =>
        rw [demodScan] at h
        exact ih rest att out att2 h
      | app f args =>
        rw [demodScan] at h
        split at h
        · exact ih rest att out att2 h
        · split at h
          · rename_i r hr
            rw [Prod.mk.injEq, Option.some.injEq] at h
            exact ⟨Trm.app f args, h.1 ▸ hr⟩
          · exact ih (args ++ rest) _ out att2 h

theorem demodLits_some (p : DemodParams) (gens : Trm → List DemodQR)
    (cl : Clause) :
    ∀ (lits : List Lit) (li : Nat) (att : List Trm)
      (out : Option Clause × Clause),
      lits = cl.lits.drop li →
      demodLits p gens cl li att lits = some out →
      ∃ li2 lit trm, cl.lits.get? li2 = some lit ∧
        tryDemodCands p cl li2 lit trm (gens trm) = some out := by
  intro lits
  induction lits with
  | nil => intro li att out hdrop h; simp [demodLits] at h
  | cons lit rest ih =>
    intro li att out hdrop h
    rw [demodLits] at h
    rcases hscan : demodScan p gens cl li lit (demodFuel lit.args) lit.args att
      with ⟨ro, att2⟩
    rw [hscan] at h
    rcases ro with _ | r
    · have hrest : rest = cl.lits.drop (li + 1) := by
        have := congrArg List.tail hdrop
        simpa using this
      exact ih (li + 1) att2 out hrest h
    · rw [Option.some.injEq] at h
      obtain ⟨trm, hcands⟩ :=
        demodScan_some_aux p gens cl li lit (demodFuel lit.args) lit.args
          att r att2 hscan
      refine ⟨li, lit, trm, ?_, h ▸ hcands⟩
      rw [List.get?_eq_getElem?]
      have : (cl.lits.drop li)[0]? = some lit := by
        rw [← hdrop]
        simp
      rw [List.getElem?_drop] at this
      simpa using this

/-- Claim C5: forward demodulation rewrites a subterm with a demodulator
instance only if the instance is pre-oriented by the ordering or its
instantiated left-hand side is strictly greater than the instantiated
right-hand side; every successful outcome (rewritten clause or tautology
deletion) comes from a candidate passing that gate, and the produced
clause is exactly the original with the matched subterm replaced.  When
perform does not succeed the clause is left unchanged (no replacement is
produced). -/
theorem c5_forward_demodulation_oriented (p : DemodParams)
    (gens : Trm → List DemodQR) (cl : Clause)
    (out : Option Clause × Clause)
    (h : forwardDemodPerform p gens cl = some out) :
    ∃ li lit trm qr, cl.lits.get? li = some lit ∧ qr ∈ gens trm ∧
      out.2 = qr.clause ∧ demodGate p trm qr ∧
      demodOutcome cl lit trm qr out.1 := by
  obtain ⟨li, lit, trm, hget, hcands⟩ :=
    demodLits_some p gens cl cl.lits 0 [] out rfl h
  obtain ⟨qr, hmem, hprem, hcand⟩ :=
    tryDemodCands_some p cl li lit trm (gens trm) out hcands
  obtain ⟨hgate, houtcome⟩ :=
    tryDemodCandidate_some p cl li lit trm qr out.1 hcand
  exact ⟨li, lit, trm, qr, hget, hmem, hprem, hgate, houtcome⟩

/-- Concrete demodulation setup for the C5 witness: rewriting p(f(a))
with the oriented unit equality f(a) = a. -/
def cxDemodP : DemodParams :=
  { ordT := fun _ _ => OResult.GREATER, ordL := fun _ _ => OResult.LESS,
    eqArgOrder := fun _ => OResult.GREATER,
    termSort := fun _ _ => 0,
    colorOk := fun _ _ => true,
    preorderedOnly := false, redundancyCheck := false }

/-- The demodulator query result for the C5 witness. -/
def cxDemodQR : DemodQR :=
  { clause := cxEqClause,
    literal := ⟨true, 0, 0, [Trm.app 2 [Trm.app 3 []], Trm.app 3 []]⟩,
    term := Trm.app 2 [Trm.app 3 []],
    applyR := id, applyRLit := id }

/-- The demodulator index for the C5 witness: one hit on f(a). -/
def cxDemodGens (t : Trm) : List DemodQR :=
  if t = Trm.app 2 [Trm.app 3 []] then [cxDemodQR] else []

/-- Claim C5 witness: the concrete run rewrites p(f(a)) to p(a) through
an oriented demodulator. -/
theorem c5_forward_demodulation_witness :
    ∃ li lit trm qr,
      (Clause.mk [⟨true, 1, 0, [Trm.app 2 [Trm.app 3 []]]⟩] 2 0 0).lits.get? li
          = some lit ∧
        qr ∈ cxDemodGens trm ∧
        cxEqClause = qr.clause ∧
        demodGate cxDemodP trm qr ∧
        demodOutcome
          (Clause.mk [⟨true, 1, 0, [Trm.app 2 [Trm.app 3 []]]⟩] 2 0 0)
          lit trm qr (some (Clause.mk [⟨true, 1, 0, [Trm.app 3 []]⟩] 2 0 0)) :=
  c5_forward_demodulation_oriented cxDemodP cxDemodGens
    (Clause.mk [⟨true, 1, 0, [Trm.app 2 [Trm.app 3 []]]⟩] 2 0 0)
    (some (Clause.mk [⟨true, 1, 0, [Trm.app 3 []]⟩] 2 0 0), cxEqClause)
    (by rfl)

/-! ## Claim C8 -/

/-- Claim C8 (amended): for an equality (commutative) query literal with
a root tree for its header, retrieval issues two sub-queries, one per
argument orientation, and returns their concatenation filtered so that
only results whose equality-argument sort equals the query sort remain;
in particular every returned result has the query's equality sort.
(Variant queries, by contrast, are answered from a single
normalized-bindings leaf lookup and are not sort-filtered; see the
counterexample.) -/
theorem c8_commutative_retrieval (roots : Nat → Option STNode)
    (subQ : STNode → Lit → Bool → List STLeafData)
    (lit : Lit) (complementary : Bool) (cv : Nat)
    (children : List (Trm × STNode))
    (hroot : roots (getRootNodeIndex lit complementary)
      = some (.inner cv children))
    (hcomm : lit.commutative = true) :
    getResultIterator roots subQ lit complementary =
      (((subQ (.inner cv children) lit false)
          ++ (subQ (.inner cv children) lit true)).map toSLQR).filter
        (equalitySortFilter lit) ∧
    ∀ r ∈ getResultIterator roots subQ lit complementary,
      r.literal.sort = lit.sort := by
  have heq : getResultIterator roots subQ lit complementary =
      (((subQ (.inner cv children) lit false)
          ++ (subQ (.inner cv children) lit true)).map toSLQR).filter
        (equalitySortFilter lit) := by
    rw [getResultIterator, hroot]
    rw [hcomm]
    simp
  refine ⟨heq, ?_⟩
  intro r hr
  rw [heq] at hr
  have := List.of_mem_filter hr
  unfold equalitySortFilter at this
  simpa using this

/-- The equality query literal x0 = x1 of sort 1 for the C8
counterexample. -/
def cxLitA : Lit := ⟨true, 0, 1, [Trm.var 0, Trm.var 1]⟩

/-- The indexed equality literal x0 = x1 of sort 2 for the C8
counterexample. -/
def cxLitB : Lit := ⟨true, 0, 2, [Trm.var 0, Trm.var 1]⟩

/-- The clause holding the indexed literal of the C8 counterexample. -/
def cxClB : Clause := ⟨[cxLitB], 0, 0, 0⟩

/-- A substitution tree holding exactly the literal x0 = x1 of sort 2,
shaped as insertion produces it: sv0 bound along the edge x0, sv1 along
the edge x1. -/
def cxTree : STNode :=
  .inner 0 [(Trm.var 0, .inner 1 [(Trm.var 1, .leaf [⟨cxClB, cxLitB⟩])])]

/-- The root array of the C8 counterexample: the tree sits at the header
of positive equality. -/
def cxRoots : Nat → Option STNode := fun h => if h == 1 then some cxTree else none

/-- Claim C8 counterexample: the variant query for the sort-1 equality
x0 = x1 returns the indexed sort-2 equality: variant-query results for
equality literals are not filtered by equality-argument sort (the sort
filter is applied in getResultIterator, not in getVariants). -/
theorem c8_counterexample :
    getVariants cxRoots 3 cxLitA false = [⟨cxLitB, cxClB⟩] ∧
      cxLitB.sort ≠ cxLitA.sort ∧ cxLitA.isEquality = true := by
  refine ⟨by rfl, by decide, rfl⟩

/-- Claim C8 witness: a concrete equality query against a concrete
sub-iterator pair; the wrong-sort result from the reversed sub-query is
filtered out and only the matching-sort results remain. -/
theorem c8_commutative_retrieval_witness :
    getResultIterator cxRoots
        (fun _ _ reversed => if reversed then [⟨cxClB, cxLitB⟩]
          else [⟨cxClB, cxLitA⟩]) cxLitA false =
      ((((fun (_ : STNode) (_ : Lit) (reversed : Bool) =>
            if reversed then [(⟨cxClB, cxLitB⟩ : STLeafData)]
            else [⟨cxClB, cxLitA⟩]) cxTree cxLitA false)
          ++ (((fun (_ : STNode) (_ : Lit) (reversed : Bool) =>
            if reversed then [(⟨cxClB, cxLitB⟩ : STLeafData)]
            else [⟨cxClB, cxLitA⟩])) cxTree cxLitA true)).map toSLQR).filter
        (equalitySortFilter cxLitA) ∧
    ∀ r ∈ getResultIterator cxRoots
        (fun _ _ reversed => if reversed then [⟨cxClB, cxLitB⟩]
          else [⟨cxClB, cxLitA⟩]) cxLitA false,
      r.literal.sort = cxLitA.sort :=
  c8_commutative_retrieval cxRoots _ cxLitA false 0
    [(Trm.var 0, .inner 1 [(Trm.var 1, .leaf [⟨cxClB, cxLitB⟩])])]
    (by rfl) (by rfl)

/-! ## KBO: elementary state lemmas -/

theorem KState.ext2 {a b : KState}
    (h1 : a.weightDiff = b.weightDiff) (h2 : a.varDiffs = b.varDiffs)
    (h3 : a.posNum = b.posNum) (h4 : a.negNum = b.negNum)
    (h5 : a.lexResult = b.lexResult) (h6 : a.lexValidDepth = b.lexValidDepth) :
    a = b := by
  cases a; cases b; simp_all

theorem recordVariable_wd (st : KState) (v : Nat) (c : Int) :
    (recordVariable st v c).weightDiff = st.weightDiff := by
  simp only [recordVariable]; split_ifs <;> rfl

theorem recordVariable_vd (st : KState) (v : Nat) (c : Int) (w : Nat) :
    (recordVariable st v c).varDiffs w =
      if w = v then st.varDiffs v + c else st.varDiffs w := by
  have h : (recordVariable st v c).varDiffs =
      fun u => if u = v then st.varDiffs v + c else st.varDiffs u := by
    simp only [recordVariable]; split_ifs <;> rfl
  rw [h]

theorem recordVariable_lex (st : KState) (v : Nat) (c : Int) :
    (recordVariable st v c).lexResult = st.lexResult ∧
      (recordVariable st v c).lexValidDepth = st.lexValidDepth := by
  simp only [recordVariable]; split_ifs <;> exact ⟨rfl, rfl⟩

theorem recordVariable_eq (st : KState) (v : Nat) (c : Int)
    (hc : c = 1 ∨ c = -1) :
    recordVariable st v c =
      ⟨st.weightDiff,
       fun w => if w = v then st.varDiffs v + c else st.varDiffs w,
       st.posNum + (cp (st.varDiffs v + c) - cp (st.varDiffs v)),
       st.negNum + (cn (st.varDiffs v + c) - cn (st.varDiffs v)),
       st.lexResult, st.lexValidDepth⟩ := by
  rcases hc with rfl | rfl <;>
    · simp only [recordVariable]
      split_ifs
      all_goals refine KState.ext2 rfl rfl ?_ ?_ rfl rfl
      all_goals dsimp only
      all_goals simp only [cp, cn]
      all_goals split_ifs
      all_goals try contradiction
      all_goals omega

theorem applyOps_append (st : KState) (l1 l2 : List KOp) :
    applyOps st (l1 ++ l2) = applyOps (applyOps st l1) l2 := by
  simp [applyOps, List.foldl_append]

theorem opApply_lex (st : KState) (op : KOp) :
    (opApply st op).lexResult = st.lexResult ∧
      (opApply st op).lexValidDepth = st.lexValidDepth := by
  cases op with
  | addW w => exact ⟨rfl, rfl⟩
  | recV v c => exact recordVariable_lex st v c

theorem applyOps_lex (st : KState) (l : List KOp) :
    (applyOps st l).lexResult = st.lexResult ∧
      (applyOps st l).lexValidDepth = st.lexValidDepth := by
  induction l generalizing st with
  | nil => exact ⟨rfl, rfl⟩
  | cons op l ih =>
    rcases ih (opApply st op) with ⟨h1, h2⟩
    rcases opApply_lex st op with ⟨h3, h4⟩
    exact ⟨h1.trans h3, h2.trans h4⟩

theorem applyOps_wd (st : KState) (l : List KOp) :
    (applyOps st l).weightDiff = st.weightDiff + sumW l := by
  induction l generalizing st with
  | nil => simp [applyOps, sumW]
  | cons op l ih =>
    cases op with
    | addW w =>
      show (applyOps (opApply st (KOp.addW w)) l).weightDiff = _
      rw [ih]; simp [opApply, sumW]; ring
    | recV v c =>
      show (applyOps (opApply st (KOp.recV v c)) l).weightDiff = _
      rw [ih]; simp [opApply, sumW, recordVariable_wd]

theorem applyOps_vd (st : KState) (l : List KOp) (v : Nat) :
    (applyOps st l).varDiffs v = st.varDiffs v + vCount v l := by
  induction l generalizing st with
  | nil => simp [applyOps, vCount]
  | cons op l ih =>
    cases op with
    | addW w =>
      show (applyOps (opApply st (KOp.addW w)) l).varDiffs v = _
      rw [ih]; simp [opApply, vCount]
    | recV w c =>
      show (applyOps (opApply st (KOp.recV w c)) l).varDiffs v = _
      rw [ih]; simp only [opApply, vCount, recordVariable_vd]
      by_cases h : v = w
      · subst h; simp; ring
      · have h2 : ¬(w = v) := fun hh => h hh.symm
        simp [h, h2]

theorem sumW_append (l1 l2 : List KOp) :
    sumW (l1 ++ l2) = sumW l1 + sumW l2 := by
  induction l1 with
  | nil => simp [sumW]
  | cons op l ih => cases op <;> simp [sumW, ih, add_assoc]

theorem vCount_append (v : Nat) (l1 l2 : List KOp) :
    vCount v (l1 ++ l2) = vCount v l1 + vCount v l2 := by
  induction l1 with
  | nil => simp [vCount]
  | cons op l ih => cases op <;> simp [vCount, ih, add_assoc]

mutual
theorem traverse1_ops (colored : Nat → Bool) :
    ∀ t : Trm, ∀ (st : KState) (coef : Int),
      traverse1 colored st coef t = applyOps st (opsOf colored coef t)
  | .var v => by
    intro st coef
    simp [traverse1, opsOf, applyOps, opApply]
  | .svar v => by
    intro st coef
    simp [traverse1, opsOf, applyOps, opApply]
  | .app f args => by
    intro st coef
    simp only [traverse1, opsOf, applyOps, List.foldl_cons]
    exact traverse1L_ops colored args _ coef

theorem traverse1L_ops (colored : Nat → Bool) :
    ∀ ts : List Trm, ∀ (st : KState) (coef : Int),
      traverse1L colored st coef ts = applyOps st (opsOfL colored coef ts)
  | [] => by intro st coef; simp [traverse1L, opsOfL, applyOps]
  | t :: ts => by
    intro st coef
    simp only [traverse1L, opsOfL]
    rw [applyOps_append, ← traverse1_ops colored t st coef,
      traverse1L_ops colored ts _ coef]
end

mutual
theorem opsOf_wf (colored : Nat → Bool) (c : Int) (hc : c = 1 ∨ c = -1) :
    ∀ t : Trm, ∀ op ∈ opsOf colored c t, KOp.wf op
  | .var v => by
    intro op hop
    simp only [opsOf, List.mem_cons, List.not_mem_nil, or_false] at hop
    rcases hop with rfl | rfl
    · exact trivial
    · exact hc
  | .svar v => by
    intro op hop
    simp only [opsOf, List.mem_cons, List.not_mem_nil, or_false] at hop
    rcases hop with rfl | rfl
    · exact trivial
    · exact hc
  | .app f args => by
    intro op hop
    simp only [opsOf, List.mem_cons] at hop
    rcases hop with rfl | hop
    · exact trivial
    · exact opsOfL_wf colored c hc args op hop

theorem opsOfL_wf (colored : Nat → Bool) (c : Int) (hc : c = 1 ∨ c = -1) :
    ∀ ts : List Trm, ∀ op ∈ opsOfL colored c ts, KOp.wf op
  | [] => by intro op hop; simp [opsOfL] at hop
  | t :: ts => by
    intro op hop
    simp only [opsOfL, List.mem_append] at hop
    rcases hop with hop | hop
    · exact opsOf_wf colored c hc t op hop
    · exact opsOfL_wf colored c hc ts op hop
end

mutual
theorem sumW_opsOf (colored : Nat → Bool) :
    ∀ (t : Trm) (c : Int), sumW (opsOf colored c t) = wSem colored t * c
  | .var v, c => by simp [opsOf, sumW, wSem]
  | .svar v, c => by simp [opsOf, sumW, wSem]
  | .app f args, c => by
    simp only [opsOf, sumW, wSem]
    rw [sumW_opsOfL colored args c]; ring

theorem sumW_opsOfL (colored : Nat → Bool) :
    ∀ (ts : List Trm) (c : Int), sumW (opsOfL colored c ts) = wSemL colored ts * c
  | [], c => by simp [opsOfL, sumW, wSemL]
  | t :: ts, c => by
    simp only [opsOfL, wSemL, sumW_append]
    rw [sumW_opsOf colored t c, sumW_opsOfL colored ts c]; ring
end

mutual
theorem vCount_opsOf (colored : Nat → Bool) (v : Nat) :
    ∀ (t : Trm) (c : Int), vCount v (opsOf colored c t) = multSem v t * c
  | .var w, c => by
    simp only [opsOf, vCount, multSem]
    by_cases h : w = v <;> simp [h]
  | .svar w, c => by
    simp only [opsOf, vCount, multSem]
    by_cases h : w = v <;> simp [h]
  | .app f args, c => by
    simp only [opsOf, vCount, multSem]
    exact vCount_opsOfL colored v args c

theorem vCount_opsOfL (colored : Nat → Bool) (v : Nat) :
    ∀ (ts : List Trm) (c : Int), vCount v (opsOfL colored c ts) = multSemL v ts * c
  | [], c => by simp [opsOfL, vCount, multSemL]
  | t :: ts, c => by
    simp only [opsOfL, multSemL, vCount_append]
    rw [vCount_opsOf colored v t c, vCount_opsOfL colored v ts c]; ring
end

/-! ## KBO: the counter invariant -/

theorem filter_card_at (S : Finset Nat) (P : Nat → Prop) [DecidablePred P]
    (v : Nat) (hv : v ∈ S) :
    (S.filter P).card = ((S.erase v).filter P).card + (if P v then 1 else 0) := by
  conv_lhs => rw [← Finset.insert_erase hv]
  rw [Finset.filter_insert]
  by_cases h : P v
  · rw [if_pos h, if_pos h,
      Finset.card_insert_of_not_mem
        (fun hm => Finset.not_mem_erase v S (Finset.mem_filter.mp hm).1)]
  · rw [if_neg h, if_neg h, add_zero]

theorem count_update (sup : Finset Nat) (f : Nat → Int) (v : Nat)
    (P : Int → Prop) [DecidablePred P] (hP0 : ¬ P 0)
    (hsupp : ∀ w, w ∉ sup → f w = 0) (nv : Int) :
    ((((insert v sup).filter
        (fun w => P (if w = v then nv else f w))).card : Int)) =
      ((sup.filter (fun w => P (f w))).card : Int)
        + (if P nv then 1 else 0) - (if P (f v) then 1 else 0) := by
  have hQ : ((insert v sup).erase v).filter
      (fun w => P (if w = v then nv else f w)) =
        ((insert v sup).erase v).filter (fun w => P (f w)) := by
    apply Finset.filter_congr
    intro w hw
    rw [if_neg (Finset.ne_of_mem_erase hw)]
  have he : (insert v sup).erase v = sup.erase v :=
    Finset.erase_insert_eq_erase sup v
  rw [filter_card_at (insert v sup) _ v (Finset.mem_insert_self v sup), hQ, he,
    if_pos rfl]
  by_cases hvs : v ∈ sup
  · rw [filter_card_at sup (fun w => P (f w)) v hvs]
    push_cast
    split_ifs <;> omega
  · rw [Finset.erase_eq_of_not_mem hvs]
    have h0 : f v = 0 := hsupp v hvs
    rw [h0, if_neg hP0]
    push_cast
    split_ifs <;> omega

theorem CInv_opApply (st : KState) (op : KOp) (hwf : KOp.wf op)
    (h : CInv st) : CInv (opApply st op) := by
  cases op with
  | addW w =>
    obtain ⟨sup, h1, h2, h3⟩ := h
    exact ⟨sup, h1, h2, h3⟩
  | recV v c =>
    obtain ⟨sup, h1, h2, h3⟩ := h
    have hc : c = 1 ∨ c = -1 := hwf
    show CInv (recordVariable st v c)
    rw [recordVariable_eq st v c hc]
    refine ⟨insert v sup, ?_, ?_, ?_⟩
    · intro w hw
      rw [Finset.mem_insert, not_or] at hw
      dsimp only
      rw [if_neg hw.1]
      exact h1 w hw.2
    · dsimp only
      rw [count_update sup st.varDiffs v (fun x => 0 < x) (by omega) h1
        (st.varDiffs v + c), h2]
      simp only [cp]
      split_ifs <;> omega
    · dsimp only
      rw [count_update sup st.varDiffs v (fun x => x < 0) (by omega) h1
        (st.varDiffs v + c), h3]
      simp only [cn]
      split_ifs <;> omega

theorem CInv_applyOps (st : KState) (l : List KOp)
    (hwf : ∀ op ∈ l, KOp.wf op) (h : CInv st) : CInv (applyOps st l) := by
  induction l generalizing st with
  | nil => exact h
  | cons op l ih =>
    exact ih (opApply st op)
      (fun o ho => hwf o (List.mem_cons_of_mem op ho))
      (CInv_opApply st op (hwf op (List.mem_cons_self op l)) h)

theorem CInv_zero (st : KState) (hvd : ∀ v, st.varDiffs v = 0)
    (hp : st.posNum = 0) (hn : st.negNum = 0) : CInv st := by
  refine ⟨∅, fun v _ => hvd v, ?_, ?_⟩ <;> simp [hp, hn]

theorem CInv_pos (st : KState) (h : CInv st) :
    ((0 < st.posNum) ↔ ∃ v, 0 < st.varDiffs v) ∧
      ((0 < st.negNum) ↔ ∃ v, st.varDiffs v < 0) := by
  obtain ⟨sup, h1, h2, h3⟩ := h
  constructor
  · rw [h2]
    constructor
    · intro hp
      have hc : 0 < (sup.filter (fun v => 0 < st.varDiffs v)).card := by
        exact_mod_cast hp
      obtain ⟨v, hv⟩ := Finset.card_pos.mp hc
      exact ⟨v, (Finset.mem_filter.mp hv).2⟩
    · rintro ⟨v, hv⟩
      have hvs : v ∈ sup := by
        by_contra hn2
        rw [h1 v hn2] at hv
        omega
      have : 0 < (sup.filter (fun v => 0 < st.varDiffs v)).card :=
        Finset.card_pos.mpr ⟨v, Finset.mem_filter.mpr ⟨hvs, hv⟩⟩
      exact_mod_cast this
  · rw [h3]
    constructor
    · intro hp
      have hc : 0 < (sup.filter (fun v => st.varDiffs v < 0)).card := by
        exact_mod_cast hp
      obtain ⟨v, hv⟩ := Finset.card_pos.mp hc
      exact ⟨v, (Finset.mem_filter.mp hv).2⟩
    · rintro ⟨v, hv⟩
      have hvs : v ∈ sup := by
        by_contra hn2
        rw [h1 v hn2] at hv
        omega
      have : 0 < (sup.filter (fun v => st.varDiffs v < 0)).card :=
        Finset.card_pos.mpr ⟨v, Finset.mem_filter.mpr ⟨hvs, hv⟩⟩
      exact_mod_cast this

/-! ## KBO: semantic bridges (multiplicities, weights, variable
condition) -/

mutual
theorem multSem_nonneg (v : Nat) : ∀ t : Trm, 0 ≤ multSem v t
  | .var w => by simp only [multSem]; split_ifs <;> omega
  | .svar w => by simp only [multSem]; split_ifs <;> omega
  | .app f args => multSemL_nonneg v args

theorem multSemL_nonneg (v : Nat) : ∀ ts : List Trm, 0 ≤ multSemL v ts
  | [] => by simp [multSemL]
  | t :: ts => by
    simp only [multSemL]
    have h1 := multSem_nonneg v t
    have h2 := multSemL_nonneg v ts
    omega
end

mutual
theorem mem_vn (v : Nat) :
    ∀ t : Trm, 0 < multSem v t → v ∈ (Trm.varOccs t).filterMap vnFun
  | .var w => by
    intro h
    simp only [multSem] at h
    have hw : w = v := by by_contra hc; rw [if_neg hc] at h; omega
    subst hw
    simp [Trm.varOccs, vnFun]
  | .svar w => by
    intro h
    simp only [multSem] at h
    have hw : w = v := by by_contra hc; rw [if_neg hc] at h; omega
    subst hw
    simp [Trm.varOccs, vnFun]
  | .app f args => by
    intro h
    simp only [multSem] at h
    simp only [Trm.varOccs]
    exact mem_vnL v args h

theorem mem_vnL (v : Nat) :
    ∀ ts : List Trm, 0 < multSemL v ts →
      v ∈ (Trm.varOccsL ts).filterMap vnFun
  | [] => by intro h; simp [multSemL] at h
  | t :: ts => by
    intro h
    simp only [multSemL] at h
    simp only [Trm.varOccsL, List.filterMap_append, List.mem_append]
    have h2 := multSemL_nonneg v ts
    by_cases hp : 0 < multSem v t
    · exact Or.inl (mem_vn v t hp)
    · exact Or.inr (mem_vnL v ts (by omega))
end

theorem existsPosVar_iff (s t : Trm) :
    existsPosVar s t = true ↔ ∃ v, multSem v t < multSem v s := by
  unfold existsPosVar varNums
  rw [List.any_eq_true]
  constructor
  · rintro ⟨v, _, hv⟩
    exact ⟨v, by simpa using hv⟩
  · rintro ⟨v, hv⟩
    refine ⟨v, ?_, by simpa using hv⟩
    rw [List.mem_append]
    left
    have hpos : 0 < multSem v s := by
      have := multSem_nonneg v t; omega
    exact mem_vn v s hpos

mutual
theorem contains_iff (v : Nat) :
    ∀ u : Trm, u.svarFree = true →
      (u.containsSubterm (Trm.var v) = true ↔ 0 < multSem v u)
  | .var w => by
    intro _
    simp only [Trm.containsSubterm, Bool.or_false, beq_iff_eq, multSem]
    by_cases hw : w = v
    · subst hw; simp
    · rw [if_neg hw]
      constructor
      · intro h
        injection h with h2
        exact absurd h2 hw
      · intro h
        exact absurd h (by omega)
  | .svar w => by
    intro hsf
    simp [Trm.svarFree] at hsf
  | .app f args => by
    intro hsf
    simp only [Trm.svarFree] at hsf
    simp only [Trm.containsSubterm, multSem]
    have hne : (Trm.app f args == Trm.var v) = false := by
      rw [beq_eq_false_iff_ne]
      intro h
      exact Trm.noConfusion h
    rw [hne, Bool.false_or]
    exact containsL_iff v args hsf

theorem containsL_iff (v : Nat) :
    ∀ ts : List Trm, Trm.svarFreeL ts = true →
      (Trm.containsSubtermL ts (Trm.var v) = true ↔ 0 < multSemL v ts)
  | [] => by intro _; simp [Trm.containsSubtermL, multSemL]
  | t :: ts => by
    intro hsf
    simp only [Trm.svarFreeL, Bool.and_eq_true] at hsf
    simp only [Trm.containsSubtermL, multSemL, Bool.or_eq_true]
    rw [contains_iff v t hsf.1, containsL_iff v ts hsf.2]
    have h1 := multSem_nonneg v t
    have h2 := multSemL_nonneg v ts
    constructor
    · rintro (h | h) <;> omega
    · intro h
      by_cases hp : 0 < multSem v t
      · exact Or.inl hp
      · exact Or.inr (by omega)
end

mutual
theorem wSem_pos (colored : Nat → Bool) : ∀ t : Trm, 1 ≤ wSem colored t
  | .var _ => by simp [wSem, variableWeight]
  | .svar _ => by simp [wSem, variableWeight]
  | .app f args => by
    simp only [wSem]
    have h1 : 1 ≤ functionSymbolWeight colored f := by
      simp only [functionSymbolWeight]; split_ifs <;> omega
    have h2 := wSemL_nonneg colored args
    omega

theorem wSemL_nonneg (colored : Nat → Bool) : ∀ ts : List Trm, 0 ≤ wSemL colored ts
  | [] => by simp [wSemL]
  | t :: ts => by
    simp only [wSemL]
    have h1 := wSem_pos colored t
    have h2 := wSemL_nonneg colored ts
    omega
end

theorem wSemL_pos_of_mult (colored : Nat → Bool) (v : Nat) (ts : List Trm)
    (h : 0 < multSemL v ts) : 1 ≤ wSemL colored ts := by
  cases ts with
  | nil => simp [multSemL] at h
  | cons t ts =>
    simp only [wSemL]
    have h1 := wSem_pos colored t
    have h2 := wSemL_nonneg colored ts
    omega

theorem applyVarCondSem_cases (s t : Trm) (r : OResult) :
    applyVarCondSem s t r = r ∨
      applyVarCondSem s t r = OResult.INCOMPARABLE := by
  unfold applyVarCondSem; split_ifs <;> simp

theorem applyVarCondSem_ne_eq (s t : Trm) (r : OResult)
    (h : r ≠ OResult.EQUAL) : applyVarCondSem s t r ≠ OResult.EQUAL := by
  rcases applyVarCondSem_cases s t r with h2 | h2 <;> rw [h2]
  · exact h
  · intro hc; exact OResult.noConfusion hc

theorem applyVarCond_cases (st : KState) (r : OResult) :
    applyVariableCondition st r = r ∨
      applyVariableCondition st r = OResult.INCOMPARABLE := by
  unfold applyVariableCondition; split_ifs <;> simp

theorem applyVarCondSem_bothPos (s t : Trm) (r : OResult)
    (h1 : existsPosVar s t = true) (h2 : existsPosVar t s = true) :
    applyVarCondSem s t r = OResult.INCOMPARABLE := by
  cases r <;> simp [applyVarCondSem, h1, h2]

theorem applyVarCondSem_idem (s t : Trm) (r : OResult) :
    applyVarCondSem s t (applyVarCondSem s t r) = applyVarCondSem s t r := by
  cases hb1 : existsPosVar s t <;> cases hb2 : existsPosVar t s <;>
    cases r <;> simp [applyVarCondSem, hb1, hb2]

theorem applyVarCond_sem (st : KState) (s t : Trm) (r : OResult)
    (hC : CInv st)
    (hvd : ∀ v, st.varDiffs v = multSem v s - multSem v t) :
    applyVariableCondition st r = applyVarCondSem s t r := by
  obtain ⟨hp, hn⟩ := CInv_pos st hC
  have hp2 : (0 < st.posNum) ↔ (existsPosVar s t = true) := by
    rw [hp, existsPosVar_iff]
    constructor
    · rintro ⟨v, hv⟩; rw [hvd v] at hv; exact ⟨v, by omega⟩
    · rintro ⟨v, hv⟩; exact ⟨v, by rw [hvd v]; omega⟩
  have hn2 : (0 < st.negNum) ↔ (existsPosVar t s = true) := by
    rw [hn, existsPosVar_iff t s]
    constructor
    · rintro ⟨v, hv⟩; rw [hvd v] at hv; exact ⟨v, by omega⟩
    · rintro ⟨v, hv⟩; exact ⟨v, by rw [hvd v]; omega⟩
  have hb1 : decide (st.posNum > 0) = existsPosVar s t := by
    by_cases h : st.posNum > 0
    · rw [decide_eq_true h, (hp2.mp h).symm]
    · rw [decide_eq_false h]
      cases hb : existsPosVar s t
      · rfl
      · exact absurd (hp2.mpr hb) h
  have hb2 : decide (st.negNum > 0) = existsPosVar t s := by
    by_cases h : st.negNum > 0
    · rw [decide_eq_true h, (hn2.mp h).symm]
    · rw [decide_eq_false h]
      cases hb : existsPosVar t s
      · rfl
      · exact absurd (hn2.mpr hb) h
  unfold applyVariableCondition applyVarCondSem
  rw [hb1, hb2]

/-! ## KBO: pair-traversal operation lists -/

theorem sumW_leafOps (colored : Nat → Bool) (s t : Trm) :
    sumW (opsOf colored 1 s ++ opsOf colored (-1) t) =
      wSem colored s - wSem colored t := by
  rw [sumW_append, sumW_opsOf, sumW_opsOf]; ring

theorem vCount_leafOps (colored : Nat → Bool) (v : Nat) (s t : Trm) :
    vCount v (opsOf colored 1 s ++ opsOf colored (-1) t) =
      multSem v s - multSem v t := by
  rw [vCount_append, vCount_opsOf, vCount_opsOf]; ring

theorem leafOps_wf (colored : Nat → Bool) (s t : Trm) :
    ∀ op ∈ opsOf colored 1 s ++ opsOf colored (-1) t, KOp.wf op := by
  intro op hop
  rw [List.mem_append] at hop
  rcases hop with h | h
  · exact opsOf_wf colored 1 (Or.inl rfl) s op h
  · exact opsOf_wf colored (-1) (Or.inr rfl) t op h

mutual
theorem sumW_pairOps (colored : Nat → Bool) (ar : Nat → Nat) :
    ∀ s t : Trm, Trm.arityOk ar s = true → Trm.arityOk ar t = true →
      sumW (pairOps colored s t) = wSem colored s - wSem colored t
  | .var v, t => by
    intro _ _
    simp only [pairOps]
    split_ifs with h
    · rw [beq_iff_eq] at h; rw [h]; simp [sumW]
    · exact sumW_leafOps colored _ t
  | .svar v, t => by
    intro _ _
    simp only [pairOps]
    split_ifs with h
    · rw [beq_iff_eq] at h; rw [h]; simp [sumW]
    · exact sumW_leafOps colored _ t
  | .app f sargs, .var w => by
    intro _ _
    simp only [pairOps]
    split_ifs with h
    · rw [beq_iff_eq] at h; rw [h]; simp [sumW]
    · exact sumW_leafOps colored _ _
  | .app f sargs, .svar w => by
    intro _ _
    simp only [pairOps]
    split_ifs with h
    · rw [beq_iff_eq] at h; rw [h]; simp [sumW]
    · exact sumW_leafOps colored _ _
  | .app f sargs, .app g targs => by
    intro hA hB
    simp only [pairOps]
    split_ifs with h1 h2
    · rw [beq_iff_eq] at h1; rw [h1]; simp [sumW]
    · rw [beq_iff_eq] at h2
      simp only [Trm.arityOk, Bool.and_eq_true, beq_iff_eq] at hA hB
      rw [sumW_pairOpsL colored ar sargs targs hA.2 hB.2
        (by rw [hA.1, hB.1, h2])]
      simp only [wSem]
      rw [h2]; ring
    · exact sumW_leafOps colored _ _

theorem sumW_pairOpsL (colored : Nat → Bool) (ar : Nat → Nat) :
    ∀ ss tt : List Trm, Trm.arityOkL ar ss = true →
      Trm.arityOkL ar tt = true → ss.length = tt.length →
      sumW (pairOpsL colored ss tt) = wSemL colored ss - wSemL colored tt
  | [], [] => by intro _ _ _; simp [pairOpsL, sumW, wSemL]
  | [], t :: tt => by intro _ _ h; simp at h
  | s :: ss, [] => by intro _ _ h; simp at h
  | s :: ss, t :: tt => by
    intro hA hB hl
    simp only [Trm.arityOkL, Bool.and_eq_true] at hA hB
    simp only [pairOpsL, sumW_append, wSemL]
    rw [sumW_pairOps colored ar s t hA.1 hB.1,
      sumW_pairOpsL colored ar ss tt hA.2 hB.2 (by simpa using hl)]
    ring
end

mutual
theorem vCount_pairOps (colored : Nat → Bool) (ar : Nat → Nat) (v : Nat) :
    ∀ s t : Trm, Trm.arityOk ar s = true → Trm.arityOk ar t = true →
      vCount v (pairOps colored s t) = multSem v s - multSem v t
  | .var w, t => by
    intro _ _
    simp only [pairOps]
    split_ifs with h
    · rw [beq_iff_eq] at h; rw [h]; simp [vCount]
    · exact vCount_leafOps colored v _ t
  | .svar w, t => by
    intro _ _
    simp only [pairOps]
    split_ifs with h
    · rw [beq_iff_eq] at h; rw [h]; simp [vCount]
    · exact vCount_leafOps colored v _ t
  | .app f sargs, .var w => by
    intro _ _
    simp only [pairOps]
    split_ifs with h
    · rw [beq_iff_eq] at h; rw [h]; simp [vCount]
    · exact vCount_leafOps colored v _ _
  | .app f sargs, .svar w => by
    intro _ _
    simp only [pairOps]
    split_ifs with h
    · rw [beq_iff_eq] at h; rw [h]; simp [vCount]
    · exact vCount_leafOps colored v _ _
  | .app f sargs, .app g targs => by
    intro hA hB
    simp only [pairOps]
    split_ifs with h1 h2
    · rw [beq_iff_eq] at h1; rw [h1]; simp [vCount]
    · rw [beq_iff_eq] at h2
      simp only [Trm.arityOk, Bool.and_eq_true, beq_iff_eq] at hA hB
      rw [vCount_pairOpsL colored ar v sargs targs hA.2 hB.2
        (by rw [hA.1, hB.1, h2])]
      simp only [multSem]
    · exact vCount_leafOps colored v _ _

theorem vCount_pairOpsL (colored : Nat → Bool) (ar : Nat → Nat) (v : Nat) :
    ∀ ss tt : List Trm, Trm.arityOkL ar ss = true →
      Trm.arityOkL ar tt = true → ss.length = tt.length →
      vCount v (pairOpsL colored ss tt) = multSemL v ss - multSemL v tt
  | [], [] => by intro _ _ _; simp [pairOpsL, vCount, multSemL]
  | [], t :: tt => by intro _ _ h; simp at h
  | s :: ss, [] => by intro _ _ h; simp at h
  | s :: ss, t :: tt => by
    intro hA hB hl
    simp only [Trm.arityOkL, Bool.and_eq_true] at hA hB
    simp only [pairOpsL, vCount_append, multSemL]
    rw [vCount_pairOps colored ar v s t hA.1 hB.1,
      vCount_pairOpsL colored ar v ss tt hA.2 hB.2 (by simpa using hl)]
    ring
end

mutual
theorem pairOps_wf (colored : Nat → Bool) :
    ∀ s t : Trm, ∀ op ∈ pairOps colored s t, KOp.wf op
  | .var v, t => by
    intro op hop
    simp only [pairOps] at hop
    split_ifs at hop
    · simp at hop
    · exact leafOps_wf colored _ t op hop
  | .svar v, t => by
    intro op hop
    simp only [pairOps] at hop
    split_ifs at hop
    · simp at hop
    · exact leafOps_wf colored _ t op hop
  | .app f sargs, .var w => by
    intro op hop
    simp only [pairOps] at hop
    split_ifs at hop
    · simp at hop
    · exact leafOps_wf colored _ _ op hop
  | .app f sargs, .svar w => by
    intro op hop
    simp only [pairOps] at hop
    split_ifs at hop
    · simp at hop
    · exact leafOps_wf colored _ _ op hop
  | .app f sargs, .app g targs => by
    intro op hop
    simp only [pairOps] at hop
    split_ifs at hop
    · simp at hop
    · exact pairOpsL_wf colored sargs targs op hop
    · exact leafOps_wf colored _ _ op hop

theorem pairOpsL_wf (colored : Nat → Bool) :
    ∀ ss tt : List Trm, ∀ op ∈ pairOpsL colored ss tt, KOp.wf op
  | [], tt => by intro op hop; simp [pairOpsL] at hop
  | s :: ss, [] => by intro op hop; simp [pairOpsL] at hop
  | s :: ss, t :: tt => by
    intro op hop
    simp only [pairOpsL, List.mem_append] at hop
    rcases hop with h | h
    · exact pairOps_wf colored s t op h
    · exact pairOpsL_wf colored ss tt op h
end

theorem travPair_refl (colored : Nat → Bool) (precCmp : Nat → Nat → OResult)
    (d : Nat) (st : KState) (s : Trm) :
    travPair colored precCmp d st s s = st := by
  cases s <;> simp [travPair]

mutual
theorem travPair_noLex (colored : Nat → Bool) (precCmp : Nat → Nat → OResult) :
    ∀ (s t : Trm) (d : Nat) (st : KState),
      st.lexResult ≠ OResult.EQUAL → st.lexValidDepth ≤ d →
      travPair colored precCmp d st s t = applyOps st (pairOps colored s t)
  | .var v, t => by
    intro d st hlex hlvd
    simp only [travPair, pairOps]
    by_cases h : (Trm.var v == t) = true
    · rw [if_pos h, if_pos h]; rfl
    · rw [if_neg h, if_neg h]
      rw [traverse1_ops, traverse1_ops, ← applyOps_append,
        (applyOps_lex st _).1]
      rw [if_neg (by simp only [beq_iff_eq]; exact hlex)]
  | .svar v, t => by
    intro d st hlex hlvd
    simp only [travPair, pairOps]
    by_cases h : (Trm.svar v == t) = true
    · rw [if_pos h, if_pos h]; rfl
    · rw [if_neg h, if_neg h]
      rw [traverse1_ops, traverse1_ops, ← applyOps_append,
        (applyOps_lex st _).1]
      rw [if_neg (by simp only [beq_iff_eq]; exact hlex)]
  | .app f sargs, .var w => by
    intro d st hlex hlvd
    simp only [travPair, pairOps]
    by_cases h : (Trm.app f sargs == Trm.var w) = true
    · rw [if_pos h, if_pos h]; rfl
    · rw [if_neg h, if_neg h]
      rw [traverse1_ops, traverse1_ops, ← applyOps_append,
        (applyOps_lex st _).1]
      rw [if_neg (by simp only [beq_iff_eq]; exact hlex)]
  | .app f sargs, .svar w => by
    intro d st hlex hlvd
    simp only [travPair, pairOps]
    by_cases h : (Trm.app f sargs == Trm.svar w) = true
    · rw [if_pos h, if_pos h]; rfl
    · rw [if_neg h, if_neg h]
      rw [traverse1_ops, traverse1_ops, ← applyOps_append,
        (applyOps_lex st _).1]
      rw [if_neg (by simp only [beq_iff_eq]; exact hlex)]
  | .app f sargs, .app g targs => by
    intro d st hlex hlvd
    simp only [travPair, pairOps]
    by_cases h1 : (Trm.app f sargs == Trm.app g targs) = true
    · rw [if_pos h1, if_pos h1]; rfl
    · rw [if_neg h1, if_neg h1]
      by_cases h2 : (f == g) = true
      · rw [if_pos h2, if_pos h2]
        rw [travPairL_noLex colored precCmp sargs targs (d + 1) st hlex
          (Nat.le_succ_of_le hlvd)]
        unfold levelFinish
        rw [if_neg]
        intro hcon
        have hl2 := (applyOps_lex st (pairOpsL colored sargs targs)).2
        rw [hl2] at hcon
        omega
      · rw [if_neg h2, if_neg h2]
        rw [traverse1_ops, traverse1_ops, ← applyOps_append,
          (applyOps_lex st _).1]
        rw [if_neg (by simp only [beq_iff_eq]; exact hlex)]

theorem travPairL_noLex (colored : Nat → Bool) (precCmp : Nat → Nat → OResult) :
    ∀ (ss tt : List Trm) (d : Nat) (st : KState),
      st.lexResult ≠ OResult.EQUAL → st.lexValidDepth ≤ d →
      travPairL colored precCmp d st ss tt = applyOps st (pairOpsL colored ss tt)
  | [], tt => by
    intro d st hlex hlvd
    cases tt <;> simp [travPairL, pairOpsL, applyOps]
  | s :: ss, [] => by
    intro d st hlex hlvd
    simp [travPairL, pairOpsL, applyOps]
  | s :: ss, t :: tt => by
    intro d st hlex hlvd
    simp only [travPairL, pairOpsL]
    rw [travPair_noLex colored precCmp s t d st hlex hlvd]
    rw [travPairL_noLex colored precCmp ss tt d _
      (by rw [(applyOps_lex st _).1]; exact hlex)
      (by rw [(applyOps_lex st _).2]; exact hlvd)]
    rw [← applyOps_append]
end

/-! ## KBO: the spec table never answers EQUAL on distinct terms -/

theorem szm_lex_cons (a : Trm) (b : List Trm) :
    2 * Trm.szL b + 1 < 2 * Trm.szL (a :: b) + 1 := by
  simp only [Trm.szL]; have := Trm.sz_pos a; omega

theorem szm_pair_cons (a : Trm) (b : List Trm) :
    2 * Trm.sz a < 2 * Trm.szL (a :: b) + 1 := by
  simp only [Trm.szL]; omega

theorem szm_app (f : Nat) (as1 : List Trm) :
    2 * Trm.szL as1 + 1 < 2 * Trm.sz (Trm.app f as1) := by
  simp only [Trm.sz]; omega

mutual
theorem kboSpec_ne_eq (colored : Nat → Bool) (precCmp : Nat → Nat → OResult)
    (hTot : ∀ f g, f ≠ g →
      precCmp f g = OResult.GREATER ∨ precCmp f g = OResult.LESS)
    (ar : Nat → Nat) :
    ∀ s t : Trm, Trm.arityOk ar s = true → Trm.arityOk ar t = true →
      s ≠ t → kboSpec colored precCmp s t ≠ OResult.EQUAL
  | .var v, .var w => by
    intro _ _ hne
    show (if Trm.var v = Trm.var w then OResult.EQUAL
        else if (Trm.var w).containsSubterm (Trm.var v) = true then OResult.LESS
        else OResult.INCOMPARABLE) ≠ OResult.EQUAL
    rw [if_neg hne]
    split_ifs <;> simp
  | .var v, .svar w => by
    intro _ _ hne
    show (if Trm.var v = Trm.svar w then OResult.EQUAL
        else if (Trm.svar w).containsSubterm (Trm.var v) = true then OResult.LESS
        else OResult.INCOMPARABLE) ≠ OResult.EQUAL
    rw [if_neg hne]
    split_ifs <;> simp
  | .var v, .app g ts => by
    intro _ _ hne
    show (if Trm.var v = Trm.app g ts then OResult.EQUAL
        else if (Trm.app g ts).containsSubterm (Trm.var v) = true then OResult.LESS
        else OResult.INCOMPARABLE) ≠ OResult.EQUAL
    rw [if_neg hne]
    split_ifs <;> simp
  | .svar v, .var w => by
    intro _ _ hne
    show (if Trm.svar v = Trm.var w then OResult.EQUAL
        else if (Trm.svar v).containsSubterm (Trm.var w) = true then
          OResult.GREATER
        else OResult.INCOMPARABLE) ≠ OResult.EQUAL
    rw [if_neg hne]
    split_ifs <;> simp
  | .svar v, .svar w => by
    intro _ _ hne
    show (if Trm.svar v = Trm.svar w then OResult.EQUAL
        else OResult.INCOMPARABLE) ≠ OResult.EQUAL
    rw [if_neg hne]
    simp
  | .svar v, .app g ts => by
    intro _ _ hne
    show (if Trm.svar v = Trm.app g ts then OResult.EQUAL
        else OResult.INCOMPARABLE) ≠ OResult.EQUAL
    rw [if_neg hne]
    simp
  | .app f as1, .var w => by
    intro _ _ hne
    show (if Trm.app f as1 = Trm.var w then OResult.EQUAL
        else if (Trm.app f as1).containsSubterm (Trm.var w) = true then
          OResult.GREATER
        else OResult.INCOMPARABLE) ≠ OResult.EQUAL
    rw [if_neg hne]
    split_ifs <;> simp
  | .app f as1, .svar w => by
    intro _ _ hne
    show (if Trm.app f as1 = Trm.svar w then OResult.EQUAL
        else OResult.INCOMPARABLE) ≠ OResult.EQUAL
    rw [if_neg hne]
    simp
  | .app f as1, .app g as2 => by
    intro hA hB hne
    show (if Trm.app f as1 = Trm.app g as2 then OResult.EQUAL
        else applyVarCondSem (Trm.app f as1) (Trm.app g as2)
          (if wSem colored (Trm.app f as1) ≠ wSem colored (Trm.app g as2) then
            (if wSem colored (Trm.app f as1) > wSem colored (Trm.app g as2)
             then OResult.GREATER else OResult.LESS)
           else if f ≠ g then precCmp f g
           else lexSpec colored precCmp as1 as2)) ≠ OResult.EQUAL
    rw [if_neg hne]
    apply applyVarCondSem_ne_eq
    by_cases h1 : wSem colored (Trm.app f as1) ≠ wSem colored (Trm.app g as2)
    · rw [if_pos h1]
      by_cases h2 : wSem colored (Trm.app f as1) > wSem colored (Trm.app g as2)
      · rw [if_pos h2]; exact fun hc => OResult.noConfusion hc
      · rw [if_neg h2]; exact fun hc => OResult.noConfusion hc
    · rw [if_neg h1]
      by_cases h3 : f ≠ g
      · rw [if_pos h3]
        rcases hTot f g h3 with h | h <;> rw [h] <;>
          exact fun hc => OResult.noConfusion hc
      · rw [if_neg h3]
        have hfg : f = g := not_not.mp h3
        simp only [Trm.arityOk, Bool.and_eq_true, beq_iff_eq] at hA hB
        refine lexSpec_ne_eq colored precCmp hTot ar as1 as2 hA.2 hB.2 ?_ ?_
        · rw [hA.1, hB.1, hfg]
        · intro he
          exact hne (by rw [hfg, he])

theorem lexSpec_ne_eq (colored : Nat → Bool) (precCmp : Nat → Nat → OResult)
    (hTot : ∀ f g, f ≠ g →
      precCmp f g = OResult.GREATER ∨ precCmp f g = OResult.LESS)
    (ar : Nat → Nat) :
    ∀ ss tt : List Trm, Trm.arityOkL ar ss = true →
      Trm.arityOkL ar tt = true → ss.length = tt.length → ss ≠ tt →
      lexSpec colored precCmp ss tt ≠ OResult.EQUAL
  | [], [] => by intro _ _ _ hne; exact absurd rfl hne
  | [], t :: tt => by intro _ _ h _; simp at h
  | s :: ss, [] => by intro _ _ h _; simp at h
  | s :: ss, t :: tt => by
    intro hA hB hl hne
    simp only [Trm.arityOkL, Bool.and_eq_true] at hA hB
    simp only [lexSpec]
    by_cases h : s = t
    · rw [if_pos h]
      refine lexSpec_ne_eq colored precCmp hTot ar ss tt hA.2 hB.2
        (by simpa using hl) ?_
      intro he
      exact hne (by rw [h, he])
    · rw [if_neg h]
      exact kboSpec_ne_eq colored precCmp hTot ar s t hA.1 hB.1 h
end

/-! ## KBO: the first differing leaf pair agrees with the spec table -/

theorem innerResult_sem (colored : Nat → Bool) (precCmp : Nat → Nat → OResult)
    (s t : Trm) (st : KState)
    (hs : Trm.svarFree s = true) (ht : Trm.svarFree t = true)
    (hne : s ≠ t) (hnt : sameTopFunctor s t = false)
    (hwd : st.weightDiff = wSem colored s - wSem colored t)
    (hvd : ∀ v, st.varDiffs v = multSem v s - multSem v t)
    (hC : CInv st) :
    innerResult precCmp st s t = kboSpec colored precCmp s t := by
  obtain ⟨hpIff, hnIff⟩ := CInv_pos st hC
  have hpos : (0 < st.posNum) ↔ ∃ v, multSem v t < multSem v s := by
    rw [hpIff]
    constructor
    · rintro ⟨v, hv⟩; rw [hvd v] at hv; exact ⟨v, by omega⟩
    · rintro ⟨v, hv⟩; exact ⟨v, by rw [hvd v]; omega⟩
  have hneg : (0 < st.negNum) ↔ ∃ v, multSem v s < multSem v t := by
    rw [hnIff]
    constructor
    · rintro ⟨v, hv⟩; rw [hvd v] at hv; exact ⟨v, by omega⟩
    · rintro ⟨v, hv⟩; exact ⟨v, by rw [hvd v]; omega⟩
  cases s with
  | svar v => simp [Trm.svarFree] at hs
  | var v =>
    cases t with
    | svar w => simp [Trm.svarFree] at ht
    | var w =>
      have hvw : v ≠ w := fun h => hne (by rw [h])
      have hp : 0 < st.posNum := hpos.mpr ⟨v, by
        simp only [multSem]
        rw [if_neg (fun h => hvw h.symm)]
        simp⟩
      have hn : 0 < st.negNum := hneg.mpr ⟨w, by
        simp only [multSem]
        rw [if_neg hvw]
        simp⟩
      have h1 : innerResult precCmp st (Trm.var v) (Trm.var w) =
          OResult.INCOMPARABLE := by
        simp only [innerResult]
        rw [if_pos ⟨hp, hn⟩]
      rw [h1]
      have h2 : kboSpec colored precCmp (Trm.var v) (Trm.var w) =
          OResult.INCOMPARABLE := by
        show (if Trm.var v = Trm.var w then OResult.EQUAL
            else if (Trm.var w).containsSubterm (Trm.var v) = true then
              OResult.LESS
            else OResult.INCOMPARABLE) = OResult.INCOMPARABLE
        rw [if_neg hne, if_neg (by
          simp only [Trm.containsSubterm, Bool.or_false, beq_iff_eq]
          intro h
          injection h with h2
          exact hvw h2.symm)]
      rw [h2]
    | app g targs =>
      by_cases hocc : 0 < multSem v (Trm.app g targs)
      · have hcont : (Trm.app g targs).containsSubterm (Trm.var v) = true :=
          (contains_iff v _ ht).mpr hocc
        have hks : kboSpec colored precCmp (Trm.var v) (Trm.app g targs) =
            OResult.LESS := by
          show (if Trm.var v = Trm.app g targs then OResult.EQUAL
              else if (Trm.app g targs).containsSubterm (Trm.var v) = true then
                OResult.LESS
              else OResult.INCOMPARABLE) = OResult.LESS
          rw [if_neg hne, if_pos hcont]
        rw [hks]
        have hnp : ¬ 0 < st.posNum := by
          rw [hpos]
          rintro ⟨u, hu⟩
          by_cases huv : u = v
          · subst huv
            have h1 : multSem u (Trm.var u) = 1 := by simp [multSem]
            rw [h1] at hu
            omega
          · have h1 : multSem u (Trm.var v) = 0 := by
              simp only [multSem]
              rw [if_neg (fun h => huv h.symm)]
            rw [h1] at hu
            have := multSem_nonneg u (Trm.app g targs)
            omega
        have hw1 : wSem colored (Trm.var v) = 1 := by
          simp [wSem, variableWeight]
        have hwt : 2 ≤ wSem colored (Trm.app g targs) := by
          simp only [wSem]
          have h1 : 1 ≤ functionSymbolWeight colored g := by
            simp only [functionSymbolWeight]; split_ifs <;> omega
          have h2 : 1 ≤ wSemL colored targs :=
            wSemL_pos_of_mult colored v targs (by simpa [multSem] using hocc)
          omega
        have hwdneg : st.weightDiff < 0 := by rw [hwd, hw1]; omega
        simp only [innerResult]
        rw [if_neg (fun hcon => hnp hcon.1)]
        rw [if_pos (by omega : st.weightDiff ≠ 0)]
        rw [if_neg (by omega : ¬ st.weightDiff > 0)]
        unfold applyVariableCondition
        rw [decide_eq_false hnp]
        simp
      · have hmt : multSem v (Trm.app g targs) = 0 := by
          have := multSem_nonneg v (Trm.app g targs); omega
        have hcont : (Trm.app g targs).containsSubterm (Trm.var v) = false := by
          cases hb : (Trm.app g targs).containsSubterm (Trm.var v)
          · rfl
          · exact absurd ((contains_iff v _ ht).mp hb) hocc
        have hks : kboSpec colored precCmp (Trm.var v) (Trm.app g targs) =
            OResult.INCOMPARABLE := by
          show (if Trm.var v = Trm.app g targs then OResult.EQUAL
              else if (Trm.app g targs).containsSubterm (Trm.var v) = true then
                OResult.LESS
              else OResult.INCOMPARABLE) = OResult.INCOMPARABLE
          rw [if_neg hne, if_neg (by rw [hcont]; simp)]
        rw [hks]
        have hp : 0 < st.posNum := hpos.mpr ⟨v, by
          rw [hmt]; simp [multSem]⟩
        by_cases hb : 0 < st.negNum
        · simp only [innerResult]
          rw [if_pos ⟨hp, hb⟩]
        · simp only [innerResult]
          rw [if_neg (fun hcon => hb hcon.2)]
          have hw1 : wSem colored (Trm.var v) = 1 := by
            simp [wSem, variableWeight]
          have hwt : 1 ≤ wSem colored (Trm.app g targs) := wSem_pos colored _
          have hwdle : st.weightDiff ≤ 0 := by rw [hwd, hw1]; omega
          have hval : (if st.weightDiff ≠ 0 then
              (if st.weightDiff > 0 then OResult.GREATER else OResult.LESS)
              else OResult.LESS) = OResult.LESS := by
            by_cases h0 : st.weightDiff = 0
            · rw [if_neg (not_not.mpr h0)]
            · rw [if_pos h0, if_neg (by omega)]
          rw [hval]
          unfold applyVariableCondition
          rw [decide_eq_true hp]
          simp
  | app f sargs =>
    cases t with
    | svar w => simp [Trm.svarFree] at ht
    | var w =>
      by_cases hocc : 0 < multSem w (Trm.app f sargs)
      · have hcont : (Trm.app f sargs).containsSubterm (Trm.var w) = true :=
          (contains_iff w _ hs).mpr hocc
        have hks : kboSpec colored precCmp (Trm.app f sargs) (Trm.var w) =
            OResult.GREATER := by
          show (if Trm.app f sargs = Trm.var w then OResult.EQUAL
              else if (Trm.app f sargs).containsSubterm (Trm.var w) = true then
                OResult.GREATER
              else OResult.INCOMPARABLE) = OResult.GREATER
          rw [if_neg hne, if_pos hcont]
        rw [hks]
        have hnn : ¬ 0 < st.negNum := by
          rw [hneg]
          rintro ⟨u, hu⟩
          by_cases huv : u = w
          · subst huv
            have h1 : multSem u (Trm.var u) = 1 := by simp [multSem]
            rw [h1] at hu
            omega
          · have h1 : multSem u (Trm.var w) = 0 := by
              simp only [multSem]
              rw [if_neg (fun h => huv h.symm)]
            rw [h1] at hu
            have := multSem_nonneg u (Trm.app f sargs)
            omega
        have hw1 : wSem colored (Trm.var w) = 1 := by
          simp [wSem, variableWeight]
        have hwt : 2 ≤ wSem colored (Trm.app f sargs) := by
          simp only [wSem]
          have h1 : 1 ≤ functionSymbolWeight colored f := by
            simp only [functionSymbolWeight]; split_ifs <;> omega
          have h2 : 1 ≤ wSemL colored sargs :=
            wSemL_pos_of_mult colored w sargs (by simpa [multSem] using hocc)
          omega
        have hwdpos : 0 < st.weightDiff := by rw [hwd, hw1]; omega
        simp only [innerResult]
        rw [if_neg (fun hcon => hnn hcon.2)]
        rw [if_pos (by omega : st.weightDiff ≠ 0)]
        rw [if_pos (by omega : st.weightDiff > 0)]
        unfold applyVariableCondition
        rw [decide_eq_false hnn]
        simp
      · have hmt : multSem w (Trm.app f sargs) = 0 := by
          have := multSem_nonneg w (Trm.app f sargs); omega
        have hcont : (Trm.app f sargs).containsSubterm (Trm.var w) = false := by
          cases hb : (Trm.app f sargs).containsSubterm (Trm.var w)
          · rfl
          · exact absurd ((contains_iff w _ hs).mp hb) hocc
        have hks : kboSpec colored precCmp (Trm.app f sargs) (Trm.var w) =
            OResult.INCOMPARABLE := by
          show (if Trm.app f sargs = Trm.var w then OResult.EQUAL
              else if (Trm.app f sargs).containsSubterm (Trm.var w) = true then
                OResult.GREATER
              else OResult.INCOMPARABLE) = OResult.INCOMPARABLE
          rw [if_neg hne, if_neg (by rw [hcont]; simp)]
        rw [hks]
        have hn : 0 < st.negNum := hneg.mpr ⟨w, by
          rw [hmt]; simp [multSem]⟩
        by_cases hb : 0 < st.posNum
        · simp only [innerResult]
          rw [if_pos ⟨hb, hn⟩]
        · simp only [innerResult]
          rw [if_neg (fun hcon => hb hcon.1)]
          have hw1 : wSem colored (Trm.var w) = 1 := by
            simp [wSem, variableWeight]
          have hwt : 1 ≤ wSem colored (Trm.app f sargs) := wSem_pos colored _
          have hwdge : 0 ≤ st.weightDiff := by rw [hwd, hw1]; omega
          have hval : (if st.weightDiff ≠ 0 then
              (if st.weightDiff > 0 then OResult.GREATER else OResult.LESS)
              else OResult.GREATER) = OResult.GREATER := by
            by_cases h0 : st.weightDiff = 0
            · rw [if_neg (not_not.mpr h0)]
            · rw [if_pos h0, if_pos (by omega)]
          rw [hval]
          unfold applyVariableCondition
          rw [decide_eq_false hb, decide_eq_true hn]
          simp
    | app g targs =>
      have hfg : f ≠ g := by
        simp only [sameTopFunctor] at hnt
        exact beq_eq_false_iff_ne.mp hnt
      have hks0 : kboSpec colored precCmp (Trm.app f sargs) (Trm.app g targs) =
          applyVarCondSem (Trm.app f sargs) (Trm.app g targs)
            (if wSem colored (Trm.app f sargs) ≠ wSem colored (Trm.app g targs)
             then
              (if wSem colored (Trm.app f sargs) >
                  wSem colored (Trm.app g targs)
               then OResult.GREATER else OResult.LESS)
             else precCmp f g) := by
        show (if Trm.app f sargs = Trm.app g targs then OResult.EQUAL
            else applyVarCondSem (Trm.app f sargs) (Trm.app g targs)
              (if wSem colored (Trm.app f sargs) ≠
                  wSem colored (Trm.app g targs) then
                (if wSem colored (Trm.app f sargs) >
                    wSem colored (Trm.app g targs)
                 then OResult.GREATER else OResult.LESS)
               else if f ≠ g then precCmp f g
               else lexSpec colored precCmp sargs targs)) = _
        rw [if_neg hne, if_pos hfg]
      rw [hks0]
      simp only [innerResult]
      by_cases hb : 0 < st.posNum ∧ 0 < st.negNum
      · rw [if_pos hb]
        have he1 : existsPosVar (Trm.app f sargs) (Trm.app g targs) = true :=
          (existsPosVar_iff _ _).mpr (hpos.mp hb.1)
        have he2 : existsPosVar (Trm.app g targs) (Trm.app f sargs) = true :=
          (existsPosVar_iff _ _).mpr (hneg.mp hb.2)
        rw [applyVarCondSem_bothPos _ _ _ he1 he2]
      · rw [if_neg hb]
        rw [applyVarCond_sem st (Trm.app f sargs) (Trm.app g targs) _ hC hvd]
        congr 1
        rw [hwd]
        by_cases hww : wSem colored (Trm.app f sargs) =
            wSem colored (Trm.app g targs)
        · rw [if_neg (not_not.mpr (by rw [hww]; exact sub_self _)),
            if_neg (not_not.mpr hww)]
        · rw [if_pos (sub_ne_zero.mpr hww), if_pos hww]
          by_cases hgt : wSem colored (Trm.app f sargs) >
              wSem colored (Trm.app g targs)
          · rw [if_pos (by omega), if_pos hgt]
          · rw [if_neg (by omega), if_neg hgt]


/-! ## KBO: first-difference characterization of the simultaneous
traversal from a zero state -/

mutual
theorem travPair_char (colored : Nat → Bool) (precCmp : Nat → Nat → OResult)
    (hTot : ∀ f g, f ≠ g →
      precCmp f g = OResult.GREATER ∨ precCmp f g = OResult.LESS)
    (ar : Nat → Nat) :
    ∀ (s t : Trm) (d : Nat) (st : KState),
      st.lexResult = OResult.EQUAL → st.weightDiff = 0 →
      (∀ v, st.varDiffs v = 0) → st.posNum = 0 → st.negNum = 0 →
      Trm.svarFree s = true → Trm.svarFree t = true →
      Trm.arityOk ar s = true → Trm.arityOk ar t = true → s ≠ t →
      (travPair colored precCmp d st s t).weightDiff
          = wSem colored s - wSem colored t
      ∧ (∀ v, (travPair colored precCmp d st s t).varDiffs v
          = multSem v s - multSem v t)
      ∧ CInv (travPair colored precCmp d st s t)
      ∧ (travPair colored precCmp d st s t).lexResult
          = kboSpec colored precCmp s t
      ∧ (travPair colored precCmp d st s t).lexValidDepth = d
  | .var v, t => by
    intro d st hlex hwd0 hvd0 hp0 hn0 hs ht hsA htA hne
    have hnt : sameTopFunctor (Trm.var v) t = false := (by cases t <;> rfl)
    simp only [travPair]
    rw [if_neg (by simp only [beq_iff_eq]; exact hne)]
    have hops : traverse1 colored (traverse1 colored st 1 (Trm.var v)) (-1) t
        = applyOps st (opsOf colored 1 (Trm.var v) ++ opsOf colored (-1) t) := by
      rw [traverse1_ops, traverse1_ops, ← applyOps_append]
    rw [hops]
    rw [if_pos (by
      rw [(applyOps_lex st
        (opsOf colored 1 (Trm.var v) ++ opsOf colored (-1) t)).1, hlex]
      rfl)]
    have hwdB : (applyOps st
        (opsOf colored 1 (Trm.var v) ++ opsOf colored (-1) t)).weightDiff
        = wSem colored (Trm.var v) - wSem colored t := by
      rw [applyOps_wd, hwd0, sumW_leafOps]; ring
    have hvdB : ∀ u, (applyOps st
        (opsOf colored 1 (Trm.var v) ++ opsOf colored (-1) t)).varDiffs u
        = multSem u (Trm.var v) - multSem u t := by
      intro u
      rw [applyOps_vd, hvd0 u, vCount_leafOps]; ring
    have hCB : CInv (applyOps st
        (opsOf colored 1 (Trm.var v) ++ opsOf colored (-1) t)) :=
      CInv_applyOps st _ (leafOps_wf colored (Trm.var v) t)
        (CInv_zero st hvd0 hp0 hn0)
    refine ⟨hwdB, hvdB, ?_, ?_, rfl⟩
    · obtain ⟨sup, a1, a2, a3⟩ := hCB
      exact ⟨sup, a1, a2, a3⟩
    · exact innerResult_sem colored precCmp (Trm.var v) t _ hs ht hne hnt
        hwdB hvdB hCB
  | .svar v, t => by
    intro d st hlex hwd0 hvd0 hp0 hn0 hs ht hsA htA hne
    have hnt : sameTopFunctor (Trm.svar v) t = false := (by cases t <;> rfl)
    simp only [travPair]
    rw [if_neg (by simp only [beq_iff_eq]; exact hne)]
    have hops : traverse1 colored (traverse1 colored st 1 (Trm.svar v)) (-1) t
        = applyOps st (opsOf colored 1 (Trm.svar v) ++ opsOf colored (-1) t) := by
      rw [traverse1_ops, traverse1_ops, ← applyOps_append]
    rw [hops]
    rw [if_pos (by
      rw [(applyOps_lex st
        (opsOf colored 1 (Trm.svar v) ++ opsOf colored (-1) t)).1, hlex]
      rfl)]
    have hwdB : (applyOps st
        (opsOf colored 1 (Trm.svar v) ++ opsOf colored (-1) t)).weightDiff
        = wSem colored (Trm.svar v) - wSem colored t := by
      rw [applyOps_wd, hwd0, sumW_leafOps]; ring
    have hvdB : ∀ u, (applyOps st
        (opsOf colored 1 (Trm.svar v) ++ opsOf colored (-1) t)).varDiffs u
        = multSem u (Trm.svar v) - multSem u t := by
      intro u
      rw [applyOps_vd, hvd0 u, vCount_leafOps]; ring
    have hCB : CInv (applyOps st
        (opsOf colored 1 (Trm.svar v) ++ opsOf colored (-1) t)) :=
      CInv_applyOps st _ (leafOps_wf colored (Trm.svar v) t)
        (CInv_zero st hvd0 hp0 hn0)
    refine ⟨hwdB, hvdB, ?_, ?_, rfl⟩
    · obtain ⟨sup, a1, a2, a3⟩ := hCB
      exact ⟨sup, a1, a2, a3⟩
    · exact innerResult_sem colored precCmp (Trm.svar v) t _ hs ht hne hnt
        hwdB hvdB hCB
  | .app f sargs, .var w => by
    intro d st hlex hwd0 hvd0 hp0 hn0 hs ht hsA htA hne
    have hnt : sameTopFunctor (Trm.app f sargs) (Trm.var w) = false := rfl
    simp only [travPair]
    rw [if_neg (by simp only [beq_iff_eq]; exact hne)]
    have hops : traverse1 colored (traverse1 colored st 1 (Trm.app f sargs)) (-1) (Trm.var w)
        = applyOps st (opsOf colored 1 (Trm.app f sargs) ++ opsOf colored (-1) (Trm.var w)) := by
      rw [traverse1_ops, traverse1_ops, ← applyOps_append]
    rw [hops]
    rw [if_pos (by
      rw [(applyOps_lex st
        (opsOf colored 1 (Trm.app f sargs)
          ++ opsOf colored (-1) (Trm.var w))).1, hlex]
      rfl)]
    have hwdB : (applyOps st
        (opsOf colored 1 (Trm.app f sargs) ++ opsOf colored (-1) (Trm.var w))).weightDiff
        = wSem colored (Trm.app f sargs) - wSem colored (Trm.var w) := by
      rw [applyOps_wd, hwd0, sumW_leafOps]; ring
    have hvdB : ∀ u, (applyOps st
        (opsOf colored 1 (Trm.app f sargs) ++ opsOf colored (-1) (Trm.var w))).varDiffs u
        = multSem u (Trm.app f sargs) - multSem u (Trm.var w) := by
      intro u
      rw [applyOps_vd, hvd0 u, vCount_leafOps]; ring
    have hCB : CInv (applyOps st
        (opsOf colored 1 (Trm.app f sargs) ++ opsOf colored (-1) (Trm.var w))) :=
      CInv_applyOps st _ (leafOps_wf colored (Trm.app f sargs) (Trm.var w))
        (CInv_zero st hvd0 hp0 hn0)
    refine ⟨hwdB, hvdB, ?_, ?_, rfl⟩
    · obtain ⟨sup, a1, a2, a3⟩ := hCB
      exact ⟨sup, a1, a2, a3⟩
    · exact innerResult_sem colored precCmp (Trm.app f sargs) (Trm.var w) _ hs ht hne hnt
        hwdB hvdB hCB
  | .app f sargs, .svar w => by
    intro d st hlex hwd0 hvd0 hp0 hn0 hs ht hsA htA hne
    have hnt : sameTopFunctor (Trm.app f sargs) (Trm.svar w) = false := rfl
    simp only [travPair]
    rw [if_neg (by simp only [beq_iff_eq]; exact hne)]
    have hops : traverse1 colored (traverse1 colored st 1 (Trm.app f sargs)) (-1) (Trm.svar w)
        = applyOps st (opsOf colored 1 (Trm.app f sargs) ++ opsOf colored (-1) (Trm.svar w)) := by
      rw [traverse1_ops, traverse1_ops, ← applyOps_append]
    rw [hops]
    rw [if_pos (by
      rw [(applyOps_lex st
        (opsOf colored 1 (Trm.app f sargs)
          ++ opsOf colored (-1) (Trm.svar w))).1, hlex]
      rfl)]
    have hwdB : (applyOps st
        (opsOf colored 1 (Trm.app f sargs) ++ opsOf colored (-1) (Trm.svar w))).weightDiff
        = wSem colored (Trm.app f sargs) - wSem colored (Trm.svar w) := by
      rw [applyOps_wd, hwd0, sumW_leafOps]; ring
    have hvdB : ∀ u, (applyOps st
        (opsOf colored 1 (Trm.app f sargs) ++ opsOf colored (-1) (Trm.svar w))).varDiffs u
        = multSem u (Trm.app f sargs) - multSem u (Trm.svar w) := by
      intro u
      rw [applyOps_vd, hvd0 u, vCount_leafOps]; ring
    have hCB : CInv (applyOps st
        (opsOf colored 1 (Trm.app f sargs) ++ opsOf colored (-1) (Trm.svar w))) :=
      CInv_applyOps st _ (leafOps_wf colored (Trm.app f sargs) (Trm.svar w))
        (CInv_zero st hvd0 hp0 hn0)
    refine ⟨hwdB, hvdB, ?_, ?_, rfl⟩
    · obtain ⟨sup, a1, a2, a3⟩ := hCB
      exact ⟨sup, a1, a2, a3⟩
    · exact innerResult_sem colored precCmp (Trm.app f sargs) (Trm.svar w) _ hs ht hne hnt
        hwdB hvdB hCB
  | .app f sargs, .app g targs => by
    intro d st hlex hwd0 hvd0 hp0 hn0 hs ht hsA htA hne
    by_cases hfg : (f == g) = true
    · -- same top functor: descend and revalidate on level close
      have hg : f = g := beq_iff_eq.mp hfg
      subst hg
      have harg : sargs ≠ targs := fun h => hne (by rw [h])
      simp only [Trm.svarFree] at hs ht
      simp only [Trm.arityOk, Bool.and_eq_true, beq_iff_eq] at hsA htA
      have hlen : sargs.length = targs.length := by rw [hsA.1, htA.1]
      obtain ⟨hwdI, hvdI, hCI, hlexI, hlvdI⟩ :=
        travPairL_char colored precCmp hTot ar sargs targs (d + 1) st hlex
          hwd0 hvd0 hp0 hn0 hs ht hsA.2 htA.2 hlen harg
      have hlexne : (travPairL colored precCmp (d + 1) st sargs
          targs).lexResult ≠ OResult.EQUAL := by
        rw [hlexI]
        exact lexSpec_ne_eq colored precCmp hTot ar sargs targs hsA.2 htA.2
          hlen harg
      simp only [travPair]
      rw [if_neg (by simp only [beq_iff_eq]; exact hne), if_pos hfg]
      simp only [levelFinish]
      rw [if_pos ⟨hlexne, by rw [hlvdI]; omega⟩]
      refine ⟨?_, ?_, ?_, ?_, rfl⟩
      · show (travPairL colored precCmp (d + 1) st sargs targs).weightDiff = _
        rw [hwdI]
        simp only [wSem]
        ring
      · intro v
        show (travPairL colored precCmp (d + 1) st sargs targs).varDiffs v = _
        rw [hvdI v]
        simp only [multSem]
      · obtain ⟨sup, a1, a2, a3⟩ := hCI
        exact ⟨sup, a1, a2, a3⟩
      · -- the revalidated lexicographic result equals the spec table value
        show applyVariableCondition
            { travPairL colored precCmp (d + 1) st sargs targs with
                lexValidDepth := d }
            (if (travPairL colored precCmp (d + 1) st sargs
                  targs).weightDiff ≠ 0 then
              (if (travPairL colored precCmp (d + 1) st sargs
                    targs).weightDiff > 0
               then OResult.GREATER else OResult.LESS)
             else (travPairL colored precCmp (d + 1) st sargs
                targs).lexResult) = _
        have hC2 : CInv { travPairL colored precCmp (d + 1) st sargs targs with
            lexValidDepth := d } := by
          obtain ⟨sup, a1, a2, a3⟩ := hCI
          exact ⟨sup, a1, a2, a3⟩
        have hvd2 : ∀ v, ({ travPairL colored precCmp (d + 1) st sargs targs
            with lexValidDepth := d } : KState).varDiffs v =
            multSem v (Trm.app f sargs) - multSem v (Trm.app f targs) := by
          intro v
          show (travPairL colored precCmp (d + 1) st sargs targs).varDiffs v = _
          rw [hvdI v]
          simp only [multSem]
        rw [applyVarCond_sem _ (Trm.app f sargs) (Trm.app f targs) _ hC2 hvd2]
        have hks : kboSpec colored precCmp (Trm.app f sargs) (Trm.app f targs) =
            applyVarCondSem (Trm.app f sargs) (Trm.app f targs)
              (if wSem colored (Trm.app f sargs) ≠
                  wSem colored (Trm.app f targs) then
                (if wSem colored (Trm.app f sargs) >
                    wSem colored (Trm.app f targs)
                 then OResult.GREATER else OResult.LESS)
               else lexSpec colored precCmp sargs targs) := by
          show (if Trm.app f sargs = Trm.app f targs then OResult.EQUAL
              else applyVarCondSem (Trm.app f sargs) (Trm.app f targs)
                (if wSem colored (Trm.app f sargs) ≠
                    wSem colored (Trm.app f targs) then
                  (if wSem colored (Trm.app f sargs) >
                      wSem colored (Trm.app f targs)
                   then OResult.GREATER else OResult.LESS)
                 else if f ≠ f then precCmp f f
                 else lexSpec colored precCmp sargs targs)) = _
          rw [if_neg hne, if_neg (show ¬ (f ≠ f) from fun h => h rfl)]
        rw [hks]
        congr 1
        rw [hwdI, hlexI]
        have hsum : wSem colored (Trm.app f sargs) -
            wSem colored (Trm.app f targs) =
            wSemL colored sargs - wSemL colored targs := by
          simp only [wSem]; ring
        by_cases hww : wSem colored (Trm.app f sargs) =
            wSem colored (Trm.app f targs)
        · rw [if_neg (not_not.mpr (by rw [← hsum, hww]; exact sub_self _)),
            if_neg (not_not.mpr hww)]
        · rw [if_pos (by rw [← hsum]; exact sub_ne_zero.mpr hww), if_pos hww]
          by_cases hgt : wSem colored (Trm.app f sargs) >
              wSem colored (Trm.app f targs)
          · rw [if_pos (by rw [← hsum]; omega), if_pos hgt]
          · rw [if_neg (by rw [← hsum]; omega), if_neg hgt]
    · -- different top functors: single-term traversals and innerResult
      have hnt : sameTopFunctor (Trm.app f sargs) (Trm.app g targs) = false := by
        cases hb : (f == g)
        · simp [sameTopFunctor, hb]
        · exact absurd hb hfg
      simp only [travPair]
      rw [if_neg (by simp only [beq_iff_eq]; exact hne), if_neg hfg]
      have hops : traverse1 colored
          (traverse1 colored st 1 (Trm.app f sargs)) (-1) (Trm.app g targs)
          = applyOps st (opsOf colored 1 (Trm.app f sargs)
            ++ opsOf colored (-1) (Trm.app g targs)) := by
        rw [traverse1_ops, traverse1_ops, ← applyOps_append]
      rw [hops]
      rw [if_pos (by
        rw [(applyOps_lex st (opsOf colored 1 (Trm.app f sargs)
          ++ opsOf colored (-1) (Trm.app g targs))).1, hlex]
        rfl)]
      have hwdB : (applyOps st (opsOf colored 1 (Trm.app f sargs)
          ++ opsOf colored (-1) (Trm.app g targs))).weightDiff
          = wSem colored (Trm.app f sargs) - wSem colored (Trm.app g targs) := by
        rw [applyOps_wd, hwd0, sumW_leafOps]; ring
      have hvdB : ∀ u, (applyOps st (opsOf colored 1 (Trm.app f sargs)
          ++ opsOf colored (-1) (Trm.app g targs))).varDiffs u
          = multSem u (Trm.app f sargs) - multSem u (Trm.app g targs) := by
        intro u
        rw [applyOps_vd, hvd0 u, vCount_leafOps]; ring
      have hCB : CInv (applyOps st (opsOf colored 1 (Trm.app f sargs)
          ++ opsOf colored (-1) (Trm.app g targs))) :=
        CInv_applyOps st _
          (leafOps_wf colored (Trm.app f sargs) (Trm.app g targs))
          (CInv_zero st hvd0 hp0 hn0)
      refine ⟨hwdB, hvdB, ?_, ?_, rfl⟩
      · obtain ⟨sup, a1, a2, a3⟩ := hCB
        exact ⟨sup, a1, a2, a3⟩
      · exact innerResult_sem colored precCmp (Trm.app f sargs)
          (Trm.app g targs) _ hs ht hne hnt hwdB hvdB hCB

theorem travPairL_char (colored : Nat → Bool) (precCmp : Nat → Nat → OResult)
    (hTot : ∀ f g, f ≠ g →
      precCmp f g = OResult.GREATER ∨ precCmp f g = OResult.LESS)
    (ar : Nat → Nat) :
    ∀ (ss tt : List Trm) (d : Nat) (st : KState),
      st.lexResult = OResult.EQUAL → st.weightDiff = 0 →
      (∀ v, st.varDiffs v = 0) → st.posNum = 0 → st.negNum = 0 →
      Trm.svarFreeL ss = true → Trm.svarFreeL tt = true →
      Trm.arityOkL ar ss = true → Trm.arityOkL ar tt = true →
      ss.length = tt.length → ss ≠ tt →
      (travPairL colored precCmp d st ss tt).weightDiff
          = wSemL colored ss - wSemL colored tt
      ∧ (∀ v, (travPairL colored precCmp d st ss tt).varDiffs v
          = multSemL v ss - multSemL v tt)
      ∧ CInv (travPairL colored precCmp d st ss tt)
      ∧ (travPairL colored precCmp d st ss tt).lexResult
          = lexSpec colored precCmp ss tt
      ∧ (travPairL colored precCmp d st ss tt).lexValidDepth = d
  | [], [] => by
    intro d st _ _ _ _ _ _ _ _ _ _ hne
    exact absurd rfl hne
  | [], t :: tt => by
    intro d st _ _ _ _ _ _ _ _ _ hlen _
    simp at hlen
  | s :: ss, [] => by
    intro d st _ _ _ _ _ _ _ _ _ hlen _
    simp at hlen
  | s :: ss, t :: tt => by
    intro d st hlex hwd0 hvd0 hp0 hn0 hsl htl hsal htal hlen hne
    simp only [Trm.svarFreeL, Bool.and_eq_true] at hsl htl
    simp only [Trm.arityOkL, Bool.and_eq_true] at hsal htal
    have hlen2 : ss.length = tt.length := by simpa using hlen
    simp only [travPairL]
    by_cases hst : s = t
    · subst hst
      rw [travPair_refl]
      have hne2 : ss ≠ tt := fun h => hne (by rw [h])
      obtain ⟨h1, h2, h3, h4, h5⟩ :=
        travPairL_char colored precCmp hTot ar ss tt d st hlex hwd0 hvd0
          hp0 hn0 hsl.2 htl.2 hsal.2 htal.2 hlen2 hne2
      refine ⟨?_, ?_, h3, ?_, h5⟩
      · rw [h1]; simp only [wSemL]; ring
      · intro v; rw [h2 v]; simp only [multSemL]; ring
      · have hskip : lexSpec colored precCmp (s :: ss) (s :: tt) =
            lexSpec colored precCmp ss tt := by
          simp [lexSpec]
        rw [h4, hskip]
    · obtain ⟨h1, h2, h3, h4, h5⟩ :=
        travPair_char colored precCmp hTot ar s t d st hlex hwd0 hvd0 hp0 hn0
          hsl.1 htl.1 hsal.1 htal.1 hst
      have hlexne : (travPair colored precCmp d st s t).lexResult ≠
          OResult.EQUAL := by
        rw [h4]
        exact kboSpec_ne_eq colored precCmp hTot ar s t hsal.1 htal.1 hst
      rw [travPairL_noLex colored precCmp ss tt d _ hlexne (le_of_eq h5)]
      refine ⟨?_, ?_, ?_, ?_, ?_⟩
      · rw [applyOps_wd, h1,
          sumW_pairOpsL colored ar ss tt hsal.2 htal.2 hlen2]
        simp only [wSemL]; ring
      · intro v
        rw [applyOps_vd, h2 v,
          vCount_pairOpsL colored ar v ss tt hsal.2 htal.2 hlen2]
        simp only [multSemL]; ring
      · exact CInv_applyOps _ _ (pairOpsL_wf colored ss tt) h3
      · rw [(applyOps_lex _ _).1, h4]
        have hfirst : lexSpec colored precCmp (s :: ss) (t :: tt) =
            kboSpec colored precCmp s t := by
          simp only [lexSpec]; rw [if_neg hst]
        rw [hfirst]
      · rw [(applyOps_lex _ _).2, h5]
end


/-! ## KBO: kboSpec values by shape, and spec-side antisymmetry -/

theorem kboSpec_vv (colored : Nat → Bool) (precCmp : Nat → Nat → OResult)
    (v w : Nat) :
    kboSpec colored precCmp (Trm.var v) (Trm.var w) =
      (if Trm.var v = Trm.var w then OResult.EQUAL
       else if (Trm.var w).containsSubterm (Trm.var v) = true then OResult.LESS
       else OResult.INCOMPARABLE) := rfl

theorem kboSpec_vs (colored : Nat → Bool) (precCmp : Nat → Nat → OResult)
    (v w : Nat) :
    kboSpec colored precCmp (Trm.var v) (Trm.svar w) =
      (if Trm.var v = Trm.svar w then OResult.EQUAL
       else if (Trm.svar w).containsSubterm (Trm.var v) = true then
        OResult.LESS
       else OResult.INCOMPARABLE) := rfl

theorem kboSpec_va (colored : Nat → Bool) (precCmp : Nat → Nat → OResult)
    (v g : Nat) (ts : List Trm) :
    kboSpec colored precCmp (Trm.var v) (Trm.app g ts) =
      (if Trm.var v = Trm.app g ts then OResult.EQUAL
       else if (Trm.app g ts).containsSubterm (Trm.var v) = true then
        OResult.LESS
       else OResult.INCOMPARABLE) := rfl

theorem kboSpec_sv (colored : Nat → Bool) (precCmp : Nat → Nat → OResult)
    (v w : Nat) :
    kboSpec colored precCmp (Trm.svar v) (Trm.var w) =
      (if Trm.svar v = Trm.var w then OResult.EQUAL
       else if (Trm.svar v).containsSubterm (Trm.var w) = true then
        OResult.GREATER
       else OResult.INCOMPARABLE) := rfl

theorem kboSpec_ss (colored : Nat → Bool) (precCmp : Nat → Nat → OResult)
    (v w : Nat) :
    kboSpec colored precCmp (Trm.svar v) (Trm.svar w) =
      (if Trm.svar v = Trm.svar w then OResult.EQUAL
       else OResult.INCOMPARABLE) := rfl

theorem kboSpec_sa (colored : Nat → Bool) (precCmp : Nat → Nat → OResult)
    (v g : Nat) (ts : List Trm) :
    kboSpec colored precCmp (Trm.svar v) (Trm.app g ts) =
      (if Trm.svar v = Trm.app g ts then OResult.EQUAL
       else OResult.INCOMPARABLE) := rfl

theorem kboSpec_av (colored : Nat → Bool) (precCmp : Nat → Nat → OResult)
    (f : Nat) (as1 : List Trm) (w : Nat) :
    kboSpec colored precCmp (Trm.app f as1) (Trm.var w) =
      (if Trm.app f as1 = Trm.var w then OResult.EQUAL
       else if (Trm.app f as1).containsSubterm (Trm.var w) = true then
        OResult.GREATER
       else OResult.INCOMPARABLE) := rfl

theorem kboSpec_as (colored : Nat → Bool) (precCmp : Nat → Nat → OResult)
    (f : Nat) (as1 : List Trm) (w : Nat) :
    kboSpec colored precCmp (Trm.app f as1) (Trm.svar w) =
      (if Trm.app f as1 = Trm.svar w then OResult.EQUAL
       else OResult.INCOMPARABLE) := rfl

theorem kboSpec_aa (colored : Nat → Bool) (precCmp : Nat → Nat → OResult)
    (f : Nat) (as1 : List Trm) (g : Nat) (as2 : List Trm) :
    kboSpec colored precCmp (Trm.app f as1) (Trm.app g as2) =
      (if Trm.app f as1 = Trm.app g as2 then OResult.EQUAL
       else applyVarCondSem (Trm.app f as1) (Trm.app g as2)
        (if wSem colored (Trm.app f as1) ≠ wSem colored (Trm.app g as2) then
          (if wSem colored (Trm.app f as1) > wSem colored (Trm.app g as2)
           then OResult.GREATER else OResult.LESS)
         else if f ≠ g then precCmp f g
         else lexSpec colored precCmp as1 as2)) := rfl

theorem contains_var_of_var (w v : Nat) :
    (Trm.var w).containsSubterm (Trm.var v) = true ↔ w = v := by
  simp [Trm.containsSubterm, Trm.var.injEq]

theorem contains_svar_of_var (w v : Nat) :
    (Trm.svar w).containsSubterm (Trm.var v) = false := by
  simp [Trm.containsSubterm]

theorem contains_var_of_svar (w v : Nat) :
    (Trm.var w).containsSubterm (Trm.svar v) = false := by
  simp [Trm.containsSubterm]

theorem applyVarCondSem_rev (s t : Trm) (r : OResult) :
    applyVarCondSem t s r.reverse = (applyVarCondSem s t r).reverse := by
  cases hb1 : existsPosVar s t <;> cases hb2 : existsPosVar t s <;>
    cases r <;> simp [applyVarCondSem, OResult.reverse, hb1, hb2]

mutual
theorem kboSpec_antisym (colored : Nat → Bool) (precCmp : Nat → Nat → OResult)
    (hAnti : ∀ f g, precCmp g f = (precCmp f g).reverse) :
    ∀ s t : Trm,
      kboSpec colored precCmp t s = (kboSpec colored precCmp s t).reverse
  | .var v, .var w => by
    rw [kboSpec_vv colored precCmp w v, kboSpec_vv colored precCmp v w]
    by_cases h : v = w
    · subst h; simp [OResult.reverse]
    · have h1 : Trm.var v ≠ Trm.var w := fun hc => h (Trm.var.inj hc)
      have h2 : Trm.var w ≠ Trm.var v := fun hc => h (Trm.var.inj hc).symm
      have h3 : (Trm.var v).containsSubterm (Trm.var w) = false := by
        cases hb : (Trm.var v).containsSubterm (Trm.var w)
        · rfl
        · exact absurd ((contains_var_of_var v w).mp hb) h
      have h4 : (Trm.var w).containsSubterm (Trm.var v) = false := by
        cases hb : (Trm.var w).containsSubterm (Trm.var v)
        · rfl
        · exact absurd ((contains_var_of_var w v).mp hb).symm h
      simp [h1, h2, h3, h4, OResult.reverse]
  | .var v, .svar w => by
    rw [kboSpec_sv colored precCmp w v, kboSpec_vs colored precCmp v w]
    simp [contains_svar_of_var, contains_var_of_svar, OResult.reverse]
  | .var v, .app g ts => by
    rw [kboSpec_av colored precCmp g ts v, kboSpec_va colored precCmp v g ts]
    by_cases hc : (Trm.app g ts).containsSubterm (Trm.var v) = true <;>
      simp [hc, OResult.reverse]
  | .svar v, .var w => by
    rw [kboSpec_vs colored precCmp w v, kboSpec_sv colored precCmp v w]
    simp [contains_svar_of_var, contains_var_of_svar, OResult.reverse]
  | .svar v, .svar w => by
    rw [kboSpec_ss colored precCmp w v, kboSpec_ss colored precCmp v w]
    by_cases h : v = w
    · subst h; simp [OResult.reverse]
    · have h1 : Trm.svar v ≠ Trm.svar w := fun hc => h (Trm.svar.inj hc)
      have h2 : Trm.svar w ≠ Trm.svar v := fun hc => h (Trm.svar.inj hc).symm
      simp [h1, h2, OResult.reverse]
  | .svar v, .app g ts => by
    rw [kboSpec_as colored precCmp g ts v, kboSpec_sa colored precCmp v g ts]
    simp [OResult.reverse]
  | .app f as1, .var w => by
    rw [kboSpec_va colored precCmp w f as1, kboSpec_av colored precCmp f as1 w]
    by_cases hc : (Trm.app f as1).containsSubterm (Trm.var w) = true <;>
      simp [hc, OResult.reverse]
  | .app f as1, .svar w => by
    rw [kboSpec_sa colored precCmp w f as1, kboSpec_as colored precCmp f as1 w]
    simp [OResult.reverse]
  | .app f as1, .app g as2 => by
    rw [kboSpec_aa colored precCmp g as2 f as1,
      kboSpec_aa colored precCmp f as1 g as2]
    by_cases heq : Trm.app f as1 = Trm.app g as2
    · rw [if_pos heq, if_pos heq.symm]; rfl
    · rw [if_neg heq, if_neg (fun hc => heq hc.symm),
        ← applyVarCondSem_rev (Trm.app f as1) (Trm.app g as2)]
      congr 1
      by_cases hww : wSem colored (Trm.app f as1) = wSem colored (Trm.app g as2)
      · rw [if_neg (not_not.mpr hww.symm), if_neg (not_not.mpr hww)]
        by_cases hfg : f = g
        · subst hfg
          rw [if_neg (show ¬ (f ≠ f) from fun h => h rfl),
            if_neg (show ¬ (f ≠ f) from fun h => h rfl)]
          exact lexSpec_antisym colored precCmp hAnti as1 as2
        · rw [if_pos (fun h => hfg h.symm), if_pos hfg]
          exact hAnti f g
      · rw [if_pos (fun h => hww h.symm), if_pos hww]
        by_cases hgt : wSem colored (Trm.app f as1) >
            wSem colored (Trm.app g as2)
        · rw [if_neg (show ¬ (wSem colored (Trm.app g as2) >
              wSem colored (Trm.app f as1)) by omega), if_pos hgt]
          rfl
        · rw [if_pos (show wSem colored (Trm.app g as2) >
              wSem colored (Trm.app f as1) by omega), if_neg hgt]
          rfl

theorem lexSpec_antisym (colored : Nat → Bool) (precCmp : Nat → Nat → OResult)
    (hAnti : ∀ f g, precCmp g f = (precCmp f g).reverse) :
    ∀ ss tt : List Trm,
      lexSpec colored precCmp tt ss = (lexSpec colored precCmp ss tt).reverse
  | [], [] => rfl
  | [], t :: tt => rfl
  | s :: ss, [] => rfl
  | s :: ss, t :: tt => by
    simp only [lexSpec]
    by_cases h : s = t
    · subst h
      rw [if_pos rfl, if_pos rfl]
      exact lexSpec_antisym colored precCmp hAnti ss tt
    · rw [if_neg (fun hc => h hc.symm), if_neg h]
      exact kboSpec_antisym colored precCmp hAnti s t
end


/-! ## KBO: compare agrees with the spec decision table -/

theorem applyVarCondSem_kboSpec_aa (colored : Nat → Bool)
    (precCmp : Nat → Nat → OResult) (f : Nat) (as1 : List Trm) (g : Nat)
    (as2 : List Trm) (hne : Trm.app f as1 ≠ Trm.app g as2) :
    applyVarCondSem (Trm.app f as1) (Trm.app g as2)
      (kboSpec colored precCmp (Trm.app f as1) (Trm.app g as2)) =
      kboSpec colored precCmp (Trm.app f as1) (Trm.app g as2) := by
  rw [kboSpec_aa colored precCmp f as1 g as2, if_neg hne]
  exact applyVarCondSem_idem _ _ _

theorem kboCompare_eq_kboSpec (colored : Nat → Bool)
    (precCmp : Nat → Nat → OResult)
    (hTot : ∀ f g, f ≠ g →
      precCmp f g = OResult.GREATER ∨ precCmp f g = OResult.LESS)
    (ar : Nat → Nat) (s t : Trm)
    (hs : Trm.svarFree s = true) (ht : Trm.svarFree t = true)
    (hsA : Trm.arityOk ar s = true) (htA : Trm.arityOk ar t = true)
    (hne : s ≠ t) :
    kboCompare colored precCmp s t = kboSpec colored precCmp s t := by
  cases s with
  | svar v => simp [Trm.svarFree] at hs
  | var v =>
    have hcmp : kboCompare colored precCmp (Trm.var v) t =
        (if t.containsSubterm (Trm.var v) = true then OResult.LESS
         else OResult.INCOMPARABLE) := by
      simp only [kboCompare]
      rw [if_neg (by simp only [beq_iff_eq]; exact hne),
        if_pos (show (Trm.var v).isOrdinaryVar = true by rfl)]
    rw [hcmp]
    cases t with
    | var w => rw [kboSpec_vv colored precCmp v w, if_neg hne]
    | svar w => simp [Trm.svarFree] at ht
    | app g ts => rw [kboSpec_va colored precCmp v g ts, if_neg hne]
  | app f sargs =>
    cases t with
    | svar w => simp [Trm.svarFree] at ht
    | var w =>
      have hcmp : kboCompare colored precCmp (Trm.app f sargs) (Trm.var w) =
          (if (Trm.app f sargs).containsSubterm (Trm.var w) = true then
            OResult.GREATER
           else OResult.INCOMPARABLE) := by
        simp only [kboCompare]
        rw [if_neg (by simp only [beq_iff_eq]; exact hne),
          if_neg (by simp [Trm.isOrdinaryVar]),
          if_pos (show (Trm.var w).isOrdinaryVar = true by rfl)]
      rw [hcmp, kboSpec_av colored precCmp f sargs w, if_neg hne]
    | app g targs =>
      have hred : kboCompare colored precCmp (Trm.app f sargs)
          (Trm.app g targs) =
          kboResult precCmp
            (if (f == g) = true then
              traverse2 colored precCmp KState.init sargs targs
             else traverse1 colored
                (traverse1 colored KState.init 1 (Trm.app f sargs)) (-1)
                (Trm.app g targs))
            (Trm.app f sargs) (Trm.app g targs) := by
        simp only [kboCompare]
        rw [if_neg (by simp only [beq_iff_eq]; exact hne),
          if_neg (by simp [Trm.isOrdinaryVar]),
          if_neg (by simp [Trm.isOrdinaryVar])]
      rw [hred]
      by_cases hfg : (f == g) = true
      · have hg : f = g := beq_iff_eq.mp hfg
        subst hg
        rw [if_pos hfg]
        have hTP : travPair colored precCmp 0 KState.init (Trm.app f sargs)
            (Trm.app f targs) =
            traverse2 colored precCmp KState.init sargs targs := by
          simp only [travPair, traverse2]
          rw [if_neg (by simp only [beq_iff_eq]; exact hne), if_pos hfg]
        obtain ⟨h1, h2, h3, h4, h5⟩ :=
          travPair_char colored precCmp hTot ar (Trm.app f sargs)
            (Trm.app f targs) 0 KState.init rfl rfl (fun _ => rfl) rfl rfl
            hs ht hsA htA hne
        rw [← hTP]
        simp only [kboResult]
        rw [applyVarCond_sem _ (Trm.app f sargs) (Trm.app f targs) _ h3 h2]
        rw [if_neg (show ¬ (f ≠ f) from fun h => h rfl)]
        rw [h1, h4]
        by_cases hww : wSem colored (Trm.app f sargs) =
            wSem colored (Trm.app f targs)
        · rw [if_neg (not_not.mpr (by rw [hww]; exact sub_self _))]
          exact applyVarCondSem_kboSpec_aa colored precCmp f sargs f targs hne
        · rw [if_pos (sub_ne_zero.mpr hww)]
          rw [kboSpec_aa colored precCmp f sargs f targs, if_neg hne,
            if_pos hww]
          congr 1
          by_cases hgt : wSem colored (Trm.app f sargs) >
              wSem colored (Trm.app f targs)
          · rw [if_pos (show wSem colored (Trm.app f sargs) -
                wSem colored (Trm.app f targs) > 0 by omega), if_pos hgt]
          · rw [if_neg (show ¬ (wSem colored (Trm.app f sargs) -
                wSem colored (Trm.app f targs) > 0) by omega), if_neg hgt]
      · rw [if_neg hfg]
        have hfg2 : f ≠ g := fun h => hfg (beq_iff_eq.mpr h)
        have hops : traverse1 colored
            (traverse1 colored KState.init 1 (Trm.app f sargs)) (-1)
            (Trm.app g targs)
            = applyOps KState.init (opsOf colored 1 (Trm.app f sargs)
              ++ opsOf colored (-1) (Trm.app g targs)) := by
          rw [traverse1_ops, traverse1_ops, ← applyOps_append]
        rw [hops]
        have hwdB : (applyOps KState.init (opsOf colored 1 (Trm.app f sargs)
            ++ opsOf colored (-1) (Trm.app g targs))).weightDiff
            = wSem colored (Trm.app f sargs) -
              wSem colored (Trm.app g targs) := by
          rw [applyOps_wd, sumW_leafOps]
          simp [KState.init]
        have hvdB : ∀ u, (applyOps KState.init
            (opsOf colored 1 (Trm.app f sargs)
              ++ opsOf colored (-1) (Trm.app g targs))).varDiffs u
            = multSem u (Trm.app f sargs) - multSem u (Trm.app g targs) := by
          intro u
          rw [applyOps_vd, vCount_leafOps]
          simp [KState.init]
        have hCB : CInv (applyOps KState.init
            (opsOf colored 1 (Trm.app f sargs)
              ++ opsOf colored (-1) (Trm.app g targs))) :=
          CInv_applyOps _ _
            (leafOps_wf colored (Trm.app f sargs) (Trm.app g targs))
            (CInv_zero KState.init (fun _ => rfl) rfl rfl)
        simp only [kboResult]
        rw [applyVarCond_sem _ (Trm.app f sargs) (Trm.app g targs) _ hCB hvdB]
        rw [if_pos hfg2]
        rw [hwdB]
        rw [kboSpec_aa colored precCmp f sargs g targs, if_neg hne,
          if_pos hfg2]
        by_cases hww : wSem colored (Trm.app f sargs) =
            wSem colored (Trm.app g targs)
        · rw [if_neg (not_not.mpr (by rw [hww]; exact sub_self _)),
            if_neg (not_not.mpr hww)]
        · rw [if_pos (sub_ne_zero.mpr hww), if_pos hww]
          congr 1
          by_cases hgt : wSem colored (Trm.app f sargs) >
              wSem colored (Trm.app g targs)
          · rw [if_pos (show wSem colored (Trm.app f sargs) -
                wSem colored (Trm.app g targs) > 0 by omega), if_pos hgt]
          · rw [if_neg (show ¬ (wSem colored (Trm.app f sargs) -
                wSem colored (Trm.app g targs) > 0) by omega), if_neg hgt]


/-! ## Claims C3 and C4 -/

/-- A concrete total precedence on functor numbers, for witnesses. -/
def npc (f g : Nat) : OResult :=
  if f < g then OResult.LESS
  else if g < f then OResult.GREATER
  else OResult.EQUAL

theorem npc_tot : ∀ f g : Nat, f ≠ g →
    npc f g = OResult.GREATER ∨ npc f g = OResult.LESS := by
  intro f g h
  unfold npc
  by_cases h1 : f < g
  · rw [if_pos h1]
    exact Or.inr rfl
  · rw [if_neg h1, if_pos (by omega)]
    exact Or.inl rfl

theorem npc_anti : ∀ f g : Nat, npc g f = (npc f g).reverse := by
  intro f g
  rcases lt_trichotomy f g with h | h | h
  · have h2 : ¬ g < f := by omega
    simp [npc, h, h2, OResult.reverse]
  · subst h
    simp [npc, OResult.reverse]
  · have h2 : ¬ f < g := by omega
    simp [npc, h, h2, OResult.reverse]

/-- C3: for every pair of distinct terms (special-variable-free and
arity-coherent, as the source asserts), KBO::compare follows the spec's
decision table kboSpec: the result is INCOMPARABLE when the
variable-multiplicity condition is violated against the purported result;
otherwise the sign of the weight difference when it is non-zero; otherwise
the precedence comparison when the top functors differ; otherwise the
lexicographic comparison of the argument lists (variables compare by the
containment rule, equivalent to the weight and variable conditions). -/
theorem c3_kbo_decision_table (colored : Nat → Bool)
    (precCmp : Nat → Nat → OResult)
    (hTot : ∀ f g, f ≠ g →
      precCmp f g = OResult.GREATER ∨ precCmp f g = OResult.LESS)
    (ar : Nat → Nat) (s t : Trm)
    (hs : Trm.svarFree s = true) (ht : Trm.svarFree t = true)
    (hsA : Trm.arityOk ar s = true) (htA : Trm.arityOk ar t = true)
    (hne : s ≠ t) :
    kboCompare colored precCmp s t = kboSpec colored precCmp s t :=
  kboCompare_eq_kboSpec colored precCmp hTot ar s t hs ht hsA htA hne

/-- Witness for C3: the hypotheses hold and the table is followed at a
concrete pair of terms. -/
theorem c3_kbo_decision_table_witness :
    (∀ f g : Nat, f ≠ g → npc f g = OResult.GREATER ∨ npc f g = OResult.LESS)
    ∧ (Trm.app 1 [Trm.var 0] : Trm) ≠ Trm.app 0 []
    ∧ kboCompare (fun _ => false) npc (Trm.app 1 [Trm.var 0]) (Trm.app 0 [])
        = kboSpec (fun _ => false) npc (Trm.app 1 [Trm.var 0])
            (Trm.app 0 []) :=
  ⟨npc_tot, by decide,
    c3_kbo_decision_table (fun _ => false) npc npc_tot
      (fun f => if f = 1 then 1 else 0) (Trm.app 1 [Trm.var 0])
      (Trm.app 0 []) (by decide) (by decide) (by decide) (by decide)
      (by decide)⟩

/-- C4: KBO stability: compare of a term with itself is EQUAL, and on
special-variable-free, arity-coherent terms the ordering is antisymmetric
(GREATER in one direction exactly when LESS in the other) and never
GREATER in both directions, given a total antisymmetric precedence. -/
theorem c4_kbo_stability (colored : Nat → Bool)
    (precCmp : Nat → Nat → OResult)
    (hTot : ∀ f g, f ≠ g →
      precCmp f g = OResult.GREATER ∨ precCmp f g = OResult.LESS)
    (hAnti : ∀ f g, precCmp g f = (precCmp f g).reverse)
    (ar : Nat → Nat) (s t : Trm)
    (hs : Trm.svarFree s = true) (ht : Trm.svarFree t = true)
    (hsA : Trm.arityOk ar s = true) (htA : Trm.arityOk ar t = true) :
    kboCompare colored precCmp s s = OResult.EQUAL
    ∧ (kboCompare colored precCmp s t = OResult.GREATER ↔
        kboCompare colored precCmp t s = OResult.LESS)
    ∧ ¬ (kboCompare colored precCmp s t = OResult.GREATER
        ∧ kboCompare colored precCmp t s = OResult.GREATER) := by
  have hrefl : ∀ u : Trm, kboCompare colored precCmp u u = OResult.EQUAL := by
    intro u
    simp only [kboCompare]
    rw [if_pos (by simp)]
  have hrev : kboCompare colored precCmp t s =
      (kboCompare colored precCmp s t).reverse := by
    by_cases hst : s = t
    · subst hst
      rw [hrefl s]
      rfl
    · rw [kboCompare_eq_kboSpec colored precCmp hTot ar s t hs ht hsA htA hst,
        kboCompare_eq_kboSpec colored precCmp hTot ar t s ht hs htA hsA
          (fun h => hst h.symm)]
      exact kboSpec_antisym colored precCmp hAnti s t
  have hiff : ∀ x : OResult, (x = OResult.GREATER ↔
      x.reverse = OResult.LESS) := by
    intro x; cases x <;> simp [OResult.reverse]
  refine ⟨hrefl s, ?_, ?_⟩
  · rw [hrev]
    exact hiff _
  · rintro ⟨h1, h2⟩
    rw [hrev, h1] at h2
    simp [OResult.reverse] at h2

/-- Witness for C4: the hypotheses hold and the three properties are
exhibited at a concrete pair of terms. -/
theorem c4_kbo_stability_witness :
    (∀ f g : Nat, npc g f = (npc f g).reverse)
    ∧ kboCompare (fun _ => false) npc (Trm.app 1 [Trm.var 0])
        (Trm.app 1 [Trm.var 0]) = OResult.EQUAL
    ∧ (kboCompare (fun _ => false) npc (Trm.app 1 [Trm.var 0])
          (Trm.app 0 []) = OResult.GREATER ↔
        kboCompare (fun _ => false) npc (Trm.app 0 [])
          (Trm.app 1 [Trm.var 0]) = OResult.LESS)
    ∧ ¬ (kboCompare (fun _ => false) npc (Trm.app 1 [Trm.var 0])
          (Trm.app 0 []) = OResult.GREATER
        ∧ kboCompare (fun _ => false) npc (Trm.app 0 [])
          (Trm.app 1 [Trm.var 0]) = OResult.GREATER) := by
  obtain ⟨h1, h2, h3⟩ :=
    c4_kbo_stability (fun _ => false) npc npc_tot npc_anti
      (fun f => if f = 1 then 1 else 0) (Trm.app 1 [Trm.var 0])
      (Trm.app 0 []) (by decide) (by decide) (by decide) (by decide)
  exact ⟨npc_anti, h1, h2, h3⟩

/-! ### RobSubstitution: backtracking restores the bank -/

theorem backtrackAll_bind (bank : VarSpec → Option TermSpec)
    (log : List (VarSpec × Option TermSpec)) (v : VarSpec) (b : TermSpec) :
    backtrackAll (fun u => if u = v then some b else bank u)
      ((v, bank v) :: log) = backtrackAll bank log := by
  show backtrackAll
      (restore1 (fun u => if u = v then some b else bank u) (v, bank v)) log
    = backtrackAll bank log
  have h : restore1 (fun u => if u = v then some b else bank u) (v, bank v)
      = bank := by
    funext u
    by_cases hv : u = v
    · subst hv; simp [restore1]
    · simp [restore1, hv]
  rw [h]

theorem uniLoop_restore :
    ∀ (n : Nat) (st : SState) (toDo enc : List (TermSpec × TermSpec))
      (sub : List (Trm × Trm)) (mism : Bool) (t1 t2 : TermSpec),
    backtrackAll (uniLoop n st toDo enc sub mism t1 t2).2.bank
        (uniLoop n st toDo enc sub mism t1 t2).2.log
      = backtrackAll st.bank st.log := by
  intro n
  induction n with
  | zero => intro st toDo enc sub mism t1 t2; rfl
  | succ n ih =>
    intro st toDo enc sub mism t1 t2
    simp only [uniLoop]
    split
    · split
      · split
        · rfl
        · exact ih _ _ _ _ _ _ _
      · split
        · split
          · rfl
          · rfl
          · split
            · exact backtrackAll_bind st.bank st.log _ _
            · rw [ih]
              exact backtrackAll_bind st.bank st.log _ _
        · split
          · split
            · rfl
            · rfl
            · split
              · exact backtrackAll_bind st.bank st.log _ _
              · rw [ih]
                exact backtrackAll_bind st.bank st.log _ _
          · split
            · rfl
            · split
              · rfl
              · exact ih _ _ _ _ _ _ _
    · rfl

/-- C2: whenever RobSubstitution::unify returns false, the binding bank is
exactly as it was before the call (every binding added during the failed
attempt is undone by the local backtrack data) and the caller's backtrack
log is unchanged: no partial state remains. -/
theorem c2_unify_failure_restores (fuel : Nat) (st : SState)
    (t1 t2 : TermSpec) (h : (unify fuel st t1 t2).1 = some false) :
    (∀ v, (unify fuel st t1 t2).2.bank v = st.bank v) ∧
      (unify fuel st t1 t2).2.log = st.log := by
  unfold unify at h ⊢
  by_cases hsc : sameTermContent t1 t2 = true
  · rw [if_pos hsc] at h
    exact absurd h (by simp)
  · rw [if_neg hsc] at h ⊢
    rcases hu : uniLoop fuel ⟨st.bank, []⟩ [] [] [] false t1 t2 with ⟨res, st2⟩
    rw [hu] at h
    rcases res with _ | b
    · exact Option.noConfusion h
    · rcases b with _ | _
      · refine ⟨fun v => ?_, rfl⟩
        have hr := uniLoop_restore fuel ⟨st.bank, []⟩ [] [] [] false t1 t2
        rw [hu] at hr
        exact congrFun hr v
      · exact Bool.noConfusion (Option.some.inj h)

/-- Witness: a failing occurs-check unification leaves the empty bank
empty. -/
theorem c2_unify_failure_restores_witness :
    (unify 30 ⟨fun _ => none, []⟩ ⟨Trm.app 0 [Trm.var 0, Trm.var 0], 0⟩
        ⟨Trm.app 0 [Trm.var 1, Trm.app 1 [Trm.var 1]], 0⟩).1 = some false
    ∧ ((∀ v, (unify 30 ⟨fun _ => none, []⟩
          ⟨Trm.app 0 [Trm.var 0, Trm.var 0], 0⟩
          ⟨Trm.app 0 [Trm.var 1, Trm.app 1 [Trm.var 1]], 0⟩).2.bank v
        = none)
      ∧ (unify 30 ⟨fun _ => none, []⟩
          ⟨Trm.app 0 [Trm.var 0, Trm.var 0], 0⟩
          ⟨Trm.app 0 [Trm.var 1, Trm.app 1 [Trm.var 1]], 0⟩).2.log = []) :=
  ⟨by decide,
    c2_unify_failure_restores 30 ⟨fun _ => none, []⟩
      ⟨Trm.app 0 [Trm.var 0, Trm.var 0], 0⟩
      ⟨Trm.app 0 [Trm.var 1, Trm.app 1 [Trm.var 1]], 0⟩ (by decide)⟩

/-! ### RobSubstitution: basic facts about applySubst -/

theorem mapM_mono {α : Type} (f g : α → Option Trm)
    (hfg : ∀ a r, f a = some r → g a = some r) :
    ∀ (l : List α) (rs : List Trm), l.mapM f = some rs → l.mapM g = some rs := by
  intro l
  induction l with
  | nil => intro rs h; simpa using h
  | cons a l ih =>
    intro rs h
    rw [List.mapM_cons] at h ⊢
    rcases hfa : f a with _ | r
    · rw [hfa] at h; exact Option.noConfusion h
    · rw [hfa] at h
      rcases hml : l.mapM f with _ | rs2
      · rw [hml] at h; exact Option.noConfusion h
      · rw [hml] at h
        rw [hfg a r hfa, ih rs2 hml]
        simpa using h

theorem applySubst_app_eq (σ : VarSpec → Option TermSpec) (n : Nat)
    (f : Nat) (args : List Trm) (i : Int) :
    applySubst σ (n + 1) ⟨Trm.app f args, i⟩
      = (args.mapM (fun a => applySubst σ n ⟨a, i⟩)).map (Trm.app f) := rfl

theorem applySubst_var_eq (σ : VarSpec → Option TermSpec) (n : Nat)
    (v : Nat) (i : Int) :
    applySubst σ (n + 1) ⟨Trm.var v, i⟩
      = match σ ⟨v, i⟩ with
        | none => some (Trm.var (encodeVS ⟨v, i⟩))
        | some b =>
          if b.index = UNBOUND_INDEX then some (Trm.var (encodeVS ⟨v, i⟩))
          else applySubst σ n b := rfl

theorem applySubst_svar_eq (σ : VarSpec → Option TermSpec) (n : Nat)
    (v : Nat) (i : Int) :
    applySubst σ (n + 1) ⟨Trm.svar v, i⟩
      = match σ ⟨v, SPECIAL_INDEX⟩ with
        | none => some (Trm.var (encodeVS ⟨v, SPECIAL_INDEX⟩))
        | some b =>
          if b.index = UNBOUND_INDEX then
            some (Trm.var (encodeVS ⟨v, SPECIAL_INDEX⟩))
          else applySubst σ n b := rfl

theorem applySubst_succ_mono (σ : VarSpec → Option TermSpec) :
    ∀ (n : Nat) (ts : TermSpec) (r : Trm),
    applySubst σ n ts = some r → applySubst σ (n + 1) ts = some r := by
  intro n
  induction n with
  | zero => intro ts r h; exact absurd h (by simp [applySubst])
  | succ n ih =>
    rintro ⟨tm, i⟩ r h
    cases tm with
    | app f args =>
      rw [applySubst_app_eq] at h
      rw [applySubst_app_eq]
      rcases hm : args.mapM (fun a => applySubst σ n ⟨a, i⟩) with _ | rs
      · rw [hm] at h; exact Option.noConfusion h
      · rw [hm] at h
        rw [mapM_mono _ _ (fun a r ha => ih ⟨a, i⟩ r ha) args rs hm]
        exact h
    | var v =>
      rw [applySubst_var_eq] at h
      rw [applySubst_var_eq]
      rcases hb : σ ⟨v, i⟩ with _ | b
      · simp only [hb] at h ⊢; exact h
      · simp only [hb] at h ⊢
        by_cases hu : b.index = UNBOUND_INDEX
        · rw [if_pos hu] at h ⊢; exact h
        · rw [if_neg hu] at h ⊢; exact ih b r h
    | svar v =>
      rw [applySubst_svar_eq] at h
      rw [applySubst_svar_eq]
      rcases hb : σ ⟨v, SPECIAL_INDEX⟩ with _ | b
      · simp only [hb] at h ⊢; exact h
      · simp only [hb] at h ⊢
        by_cases hu : b.index = UNBOUND_INDEX
        · rw [if_pos hu] at h ⊢; exact h
        · rw [if_neg hu] at h ⊢; exact ih b r h

theorem applySubst_mono (σ : VarSpec → Option TermSpec) (n m : Nat)
    (hnm : n ≤ m) (ts : TermSpec) (r : Trm)
    (h : applySubst σ n ts = some r) : applySubst σ m ts = some r := by
  induction m with
  | zero => cases Nat.le_zero.mp hnm; exact h
  | succ m ih =>
    rcases Nat.lt_or_ge n (m + 1) with hlt | hge
    · exact applySubst_succ_mono σ m ts r (ih (Nat.lt_succ_iff.mp hlt))
    · cases Nat.le_antisymm hnm hge; exact h

theorem applySubst_det (σ : VarSpec → Option TermSpec) (n1 n2 : Nat)
    (ts : TermSpec) (r1 r2 : Trm) (h1 : applySubst σ n1 ts = some r1)
    (h2 : applySubst σ n2 ts = some r2) : r1 = r2 := by
  have e1 := applySubst_mono σ n1 (max n1 n2) (Nat.le_max_left n1 n2) ts r1 h1
  have e2 := applySubst_mono σ n2 (max n1 n2) (Nat.le_max_right n1 n2) ts r2 h2
  rw [e1] at e2
  exact Option.some.inj e2

theorem normLink_refl (σ : VarSpec → Option TermSpec) (x : TermSpec) :
    normLink σ x x := fun _ _ h => h

theorem normLink_trans (σ : VarSpec → Option TermSpec) (x y z : TermSpec)
    (h1 : normLink σ x y) (h2 : normLink σ y z) : normLink σ x z :=
  fun n r h => h2 n r (h1 n r h)

theorem normLink_of_eq (σ : VarSpec → Option TermSpec) (x y : TermSpec)
    (h : ∀ n, applySubst σ n x = applySubst σ n y) : normLink σ x y :=
  fun n r hr => (h n) ▸ hr

theorem normEqv_of_link (σ : VarSpec → Option TermSpec) (x y : TermSpec)
    (h : normLink σ x y) : normEqv σ x y :=
  fun n1 n2 r1 r2 h1 h2 => applySubst_det σ n1 n2 y r1 r2 (h n1 r1 h1) h2

theorem normEqv_symm (σ : VarSpec → Option TermSpec) (x y : TermSpec)
    (h : normEqv σ x y) : normEqv σ y x :=
  fun n1 n2 r1 r2 h1 h2 => (h n2 n1 r2 r1 h2 h1).symm

theorem normEqv_links (σ : VarSpec → Option TermSpec) (a b x y : TermSpec)
    (ha : normLink σ a x) (hb : normLink σ b y) (h : normEqv σ x y) :
    normEqv σ a b :=
  fun n1 n2 r1 r2 h1 h2 => h n1 n2 r1 r2 (ha n1 r1 h1) (hb n2 r2 h2)

theorem mapM_congr {α : Type} (f g : α → Option Trm) :
    ∀ (l : List α), (∀ a, a ∈ l → f a = g a) → l.mapM f = l.mapM g := by
  intro l
  induction l with
  | nil => intro _; rfl
  | cons a l ih =>
    intro h
    rw [List.mapM_cons, List.mapM_cons, h a (List.mem_cons_self a l),
      ih (fun x hx => h x (List.mem_cons_of_mem a hx))]

theorem varOccsL_mem_nil :
    ∀ (args : List Trm), Trm.varOccsL args = [] → ∀ a, a ∈ args →
      Trm.varOccs a = [] := by
  intro args
  induction args with
  | nil => intro _ a ha; cases ha
  | cons b args ih =>
    intro h a ha
    rw [Trm.varOccsL] at h
    rcases List.append_eq_nil.mp h with ⟨h1, h2⟩
    rcases List.mem_cons.mp ha with rfl | ha2
    · exact h1
    · exact ih h2 a ha2

theorem ground_app_mem (f : Nat) (args : List Trm)
    (h : Trm.ground (Trm.app f args) = true) :
    ∀ a, a ∈ args → Trm.ground a = true := by
  intro a ha
  rw [Trm.ground, List.isEmpty_iff] at h ⊢
  exact varOccsL_mem_nil args h a ha

theorem applySubst_ground_idx (σ : VarSpec → Option TermSpec) :
    ∀ (n : Nat) (t : Trm) (i j : Int), Trm.ground t = true →
      applySubst σ n ⟨t, i⟩ = applySubst σ n ⟨t, j⟩ := by
  intro n
  induction n with
  | zero => intro t i j _; rfl
  | succ n ih =>
    intro t i j hg
    cases t with
    | var v => exact absurd hg (by simp [Trm.ground, Trm.varOccs])
    | svar v => exact absurd hg (by simp [Trm.ground, Trm.varOccs])
    | app f args =>
      rw [applySubst_app_eq, applySubst_app_eq]
      rw [mapM_congr _ _ args
        (fun a ha => ih a i j (ground_app_mem f args hg a ha))]

theorem applySubst_svar_idx (σ : VarSpec → Option TermSpec) (n : Nat)
    (v : Nat) (i j : Int) :
    applySubst σ n ⟨Trm.svar v, i⟩ = applySubst σ n ⟨Trm.svar v, j⟩ := by
  cases n with
  | zero => rfl
  | succ n => rfl

theorem sameTermContent_normEqv (σ : VarSpec → Option TermSpec)
    (x y : TermSpec) (h : sameTermContent x y = true) : normEqv σ x y := by
  rw [sameTermContent, Bool.and_eq_true, beq_iff_eq] at h
  obtain ⟨hterm, hrest⟩ := h
  obtain ⟨xt, xi⟩ := x
  obtain ⟨yt, yi⟩ := y
  simp only at hterm
  subst hterm
  rw [Bool.or_eq_true] at hrest
  rcases hrest with hij | hgs
  · rw [Bool.or_eq_true] at hij
    rcases hij with hij | hg
    · rw [beq_iff_eq] at hij
      simp only at hij
      subst hij
      exact normEqv_of_link σ _ _ (normLink_refl σ _)
    · exact normEqv_of_link σ _ _
        (normLink_of_eq σ _ _ (fun n => applySubst_ground_idx σ n xt xi yi hg))
  · cases xt with
    | var v => exact absurd hgs (by simp [Trm.isSpecialVar])
    | app f args => exact absurd hgs (by simp [Trm.isSpecialVar])
    | svar v =>
      exact normEqv_of_link σ _ _
        (normLink_of_eq σ _ _ (fun n => applySubst_svar_idx σ n v xi yi))

theorem getVarSpec_ofVar (v : VarSpec) :
    getVarSpec (TermSpec.ofVar v) = v := by
  obtain ⟨n, i⟩ := v
  rw [TermSpec.ofVar]
  by_cases hs : (⟨n, i⟩ : VarSpec).index = SPECIAL_INDEX
  · simp only at hs
    rw [if_pos hs, getVarSpec]
    simp [hs]
  · rw [if_neg hs, getVarSpec]

theorem applySubst_varspec (σ : VarSpec → Option TermSpec) (ts : TermSpec)
    (hv : ts.term.isVar = true) (n : Nat) :
    applySubst σ n ts = applySubst σ n (TermSpec.ofVar (getVarSpec ts)) := by
  obtain ⟨tm, i⟩ := ts
  cases tm with
  | app f args => exact absurd hv (by simp [Trm.isVar])
  | var v =>
    show applySubst σ n ⟨Trm.var v, i⟩
      = applySubst σ n (TermSpec.ofVar ⟨v, i⟩)
    rw [TermSpec.ofVar]
    by_cases hs : (⟨v, i⟩ : VarSpec).index = SPECIAL_INDEX
    · simp only at hs
      subst hs
      rw [if_pos rfl]
      cases n with
      | zero => rfl
      | succ n => rfl
    · simp only at hs
      rw [if_neg hs]
  | svar v =>
    show applySubst σ n ⟨Trm.svar v, i⟩
      = applySubst σ n (TermSpec.ofVar ⟨v, SPECIAL_INDEX⟩)
    rw [TermSpec.ofVar, if_pos rfl]
    exact applySubst_svar_idx σ n v i SPECIAL_INDEX

theorem normLink_bound (σ : VarSpec → Option TermSpec) (v : VarSpec)
    (b : TermSpec) (hb : σ v = some b) (hub : b.index ≠ UNBOUND_INDEX) :
    normLink σ (TermSpec.ofVar v) b := by
  intro n r h
  cases n with
  | zero => exact absurd h (by simp [applySubst])
  | succ n =>
    obtain ⟨m, i⟩ := v
    rw [TermSpec.ofVar] at h
    by_cases hs : (⟨m, i⟩ : VarSpec).index = SPECIAL_INDEX
    · simp only at hs
      rw [if_pos hs] at h
      rw [applySubst_svar_eq] at h
      subst hs
      simp only [hb] at h
      rw [if_neg hub] at h
      exact applySubst_succ_mono σ n b r h
    · simp only at hs
      rw [if_neg hs] at h
      rw [applySubst_var_eq] at h
      simp only [hb] at h
      rw [if_neg hub] at h
      exact applySubst_succ_mono σ n b r h

/-! ### RobSubstitution: alias chains -/

theorem trm_isVar_of_not_isApp (t : Trm) (h : t.isApp = false) :
    t.isVar = true := by
  cases t with
  | var v => rfl
  | svar v => rfl
  | app f args => exact absurd h (by simp [Trm.isApp])

theorem trm_not_isApp_of_isVar (t : Trm) (h : t.isVar = true) :
    t.isApp = false := by
  cases t with
  | var v => rfl
  | svar v => rfl
  | app f args => exact absurd h (by simp [Trm.isVar])

theorem ofVar_not_app (v : VarSpec) :
    (TermSpec.ofVar v).term.isApp = false := by
  rw [TermSpec.ofVar]
  by_cases hs : v.index = SPECIAL_INDEX
  · rw [if_pos hs]; rfl
  · rw [if_neg hs]; rfl

theorem ofVar_isVar (v : VarSpec) :
    (TermSpec.ofVar v).term.isVar = true := by
  rw [TermSpec.ofVar]
  by_cases hs : v.index = SPECIAL_INDEX
  · rw [if_pos hs]; rfl
  · rw [if_neg hs]; rfl

theorem derefVar_eq (bank : VarSpec → Option TermSpec) (n : Nat)
    (v : VarSpec) :
    derefVar bank (n + 1) v
      = match bank v with
        | none => some (TermSpec.ofVar v)
        | some b =>
          if b.index = UNBOUND_INDEX then some (TermSpec.ofVar v)
          else if b.term.isApp then some b
          else derefVar bank n (getVarSpec b) := rfl

theorem root_eq (bank : VarSpec → Option TermSpec) (n : Nat) (v : VarSpec) :
    root bank (n + 1) v
      = match bank v with
        | none => some v
        | some b =>
          if b.index = UNBOUND_INDEX then some v
          else if b.term.isApp then some v
          else root bank n (getVarSpec b) := rfl

theorem isUnbound_eq (bank : VarSpec → Option TermSpec) (n : Nat)
    (v : VarSpec) :
    isUnbound bank (n + 1) v
      = match bank v with
        | none => some true
        | some b =>
          if b.index = UNBOUND_INDEX then some true
          else if b.term.isApp then some false
          else isUnbound bank n (getVarSpec b) := rfl

theorem derefBound_ofVar (bank : VarSpec → Option TermSpec) (n : Nat)
    (v : VarSpec) :
    derefBound bank n (TermSpec.ofVar v) = derefVar bank n v := by
  rw [derefBound, getVarSpec_ofVar]
  rw [if_neg (by rw [ofVar_not_app]; exact fun hh => Bool.noConfusion hh)]

theorem derefVar_link (σ bank : VarSpec → Option TermSpec)
    (hext : bankExt σ bank) :
    ∀ (n : Nat) (v : VarSpec) (d : TermSpec), derefVar bank n v = some d →
      normLink σ (TermSpec.ofVar v) d := by
  intro n
  induction n with
  | zero => intro v d h; exact absurd h (by simp [derefVar])
  | succ n ih =>
    intro v d h
    rw [derefVar_eq] at h
    rcases hb : bank v with _ | b
    · simp only [hb] at h
      cases h
      exact normLink_refl σ _
    · simp only [hb] at h
      by_cases hu : b.index = UNBOUND_INDEX
      · rw [if_pos hu] at h
        cases h
        exact normLink_refl σ _
      · rw [if_neg hu] at h
        have hσ : σ v = some b := hext v b hb hu
        by_cases ha : b.term.isApp = true
        · rw [if_pos ha] at h
          cases h
          exact normLink_bound σ v d hσ hu
        · rw [if_neg ha] at h
          refine normLink_trans σ _ _ _ (normLink_bound σ v b hσ hu)
            (normLink_trans σ _ _ _ ?_ (ih (getVarSpec b) d h))
          exact normLink_of_eq σ _ _
            (applySubst_varspec σ b
              (trm_isVar_of_not_isApp b.term (Bool.not_eq_true _ ▸ ha)))

theorem derefBound_link (σ bank : VarSpec → Option TermSpec)
    (hext : bankExt σ bank) (n : Nat) (t d : TermSpec)
    (h : derefBound bank n t = some d) : normLink σ t d := by
  rw [derefBound] at h
  by_cases ha : t.term.isApp = true
  · rw [if_pos ha] at h
    cases h
    exact normLink_refl σ _
  · rw [if_neg ha] at h
    refine normLink_trans σ _ _ _ ?_ (derefVar_link σ bank hext n _ d h)
    exact normLink_of_eq σ _ _
      (applySubst_varspec σ t
        (trm_isVar_of_not_isApp t.term (Bool.not_eq_true _ ▸ ha)))

theorem derefVar_var_unbound (bank : VarSpec → Option TermSpec) :
    ∀ (n : Nat) (v : VarSpec) (d : TermSpec), derefVar bank n v = some d →
      d.term.isVar = true →
      ∃ r, d = TermSpec.ofVar r ∧ unboundAt bank r := by
  intro n
  induction n with
  | zero => intro v d h; exact absurd h (by simp [derefVar])
  | succ n ih =>
    intro v d h hv
    rw [derefVar_eq] at h
    rcases hb : bank v with _ | b
    · simp only [hb] at h
      cases h
      exact ⟨v, rfl, Or.inl hb⟩
    · simp only [hb] at h
      by_cases hu : b.index = UNBOUND_INDEX
      · rw [if_pos hu] at h
        cases h
        exact ⟨v, rfl, Or.inr ⟨b, hb, hu⟩⟩
      · rw [if_neg hu] at h
        by_cases ha : b.term.isApp = true
        · rw [if_pos ha] at h
          cases h
          rw [trm_not_isApp_of_isVar d.term hv] at ha
          exact absurd ha (by simp)
        · rw [if_neg ha] at h
          exact ih (getVarSpec b) d h hv

theorem getVarSpec_index_ne (ts : TermSpec) (hv : ts.term.isVar = true)
    (hi : ts.index ≠ UNBOUND_INDEX) :
    (getVarSpec ts).index ≠ UNBOUND_INDEX := by
  obtain ⟨tm, i⟩ := ts
  cases tm with
  | var v => exact hi
  | svar v =>
    intro hh
    have h2 : SPECIAL_INDEX = UNBOUND_INDEX := hh
    exact absurd h2 (by decide)
  | app f args => exact absurd hv (by simp [Trm.isVar])

theorem ofVar_wf (ar : Nat → Nat) (v : VarSpec)
    (hi : v.index ≠ UNBOUND_INDEX) : tsWF ar (TermSpec.ofVar v) := by
  rw [TermSpec.ofVar]
  by_cases hs : v.index = SPECIAL_INDEX
  · rw [if_pos hs]
    refine ⟨fun hh => ?_, rfl⟩
    have h2 : SPECIAL_INDEX = UNBOUND_INDEX := hh
    exact absurd h2 (by decide)
  · rw [if_neg hs]
    exact ⟨hi, rfl⟩

theorem derefVar_wf (ar : Nat → Nat) (bank : VarSpec → Option TermSpec)
    (hwf : BankWF ar bank) :
    ∀ (n : Nat) (v : VarSpec) (d : TermSpec), derefVar bank n v = some d →
      v.index ≠ UNBOUND_INDEX → tsWF ar d := by
  intro n
  induction n with
  | zero => intro v d h; exact absurd h (by simp [derefVar])
  | succ n ih =>
    intro v d h hvi
    rw [derefVar_eq] at h
    rcases hb : bank v with _ | b
    · simp only [hb] at h
      cases h
      exact ofVar_wf ar v hvi
    · simp only [hb] at h
      by_cases hu : b.index = UNBOUND_INDEX
      · rw [if_pos hu] at h
        cases h
        exact ofVar_wf ar v hvi
      · rw [if_neg hu] at h
        by_cases ha : b.term.isApp = true
        · rw [if_pos ha] at h
          cases h
          exact ⟨hu, (hwf v d hb).1⟩
        · rw [if_neg ha] at h
          refine ih (getVarSpec b) d h ?_
          exact getVarSpec_index_ne b
            (trm_isVar_of_not_isApp b.term (Bool.not_eq_true _ ▸ ha)) hu

theorem derefBound_wf (ar : Nat → Nat) (bank : VarSpec → Option TermSpec)
    (hwf : BankWF ar bank) (n : Nat) (t d : TermSpec)
    (ht : tsWF ar t) (h : derefBound bank n t = some d) : tsWF ar d := by
  rw [derefBound] at h
  by_cases ha : t.term.isApp = true
  · rw [if_pos ha] at h
    cases h
    exact ht
  · rw [if_neg ha] at h
    exact derefVar_wf ar bank hwf n _ d h
      (getVarSpec_index_ne t
        (trm_isVar_of_not_isApp t.term (Bool.not_eq_true _ ▸ ha)) ht.1)

theorem bankExt_refl (bank : VarSpec → Option TermSpec) :
    bankExt bank bank := fun _ _ h _ => h

theorem bankExt_trans (a b c : VarSpec → Option TermSpec)
    (h1 : bankExt a b) (h2 : bankExt b c) : bankExt a c :=
  fun v bd h hu => h1 v bd (h2 v bd h hu) hu

theorem bindVS_ext (st : SState) (v : VarSpec) (b : TermSpec)
    (hu : unboundAt st.bank v) :
    bankExt (bindVS st v b).bank st.bank := by
  intro u bd hbd hbu
  show (if u = v then some b else st.bank u) = some bd
  by_cases huv : u = v
  · subst huv
    rcases hu with h0 | ⟨b2, hb2, hb2u⟩
    · rw [h0] at hbd; exact Option.noConfusion hbd
    · rw [hb2] at hbd
      cases hbd
      exact absurd hb2u hbu
  · rw [if_neg huv]; exact hbd

theorem bindVS_wf (ar : Nat → Nat) (st : SState) (v : VarSpec)
    (b : TermSpec) (hwf : BankWF ar st.bank)
    (hb : Trm.arityOk ar b.term = true) (hbu : b.index ≠ UNBOUND_INDEX) :
    BankWF ar (bindVS st v b).bank := by
  intro u bd hbd
  by_cases huv : u = v
  · subst huv
    have : (if u = u then some b else st.bank u) = some bd := hbd
    rw [if_pos rfl] at this
    cases this
    exact ⟨hb, fun hh => absurd hh hbu⟩
  · have : (if u = v then some b else st.bank u) = some bd := hbd
    rw [if_neg huv] at this
    exact hwf u bd this

theorem bindVS_bank_eq (st : SState) (v : VarSpec) (b : TermSpec) :
    (bindVS st v b).bank v = some b := by
  show (if v = v then some b else st.bank v) = some b
  rw [if_pos rfl]

end VSpec
